import Mathlib

/-!
# Chunk buffer pool, spatial index and mesh merge of `voxelrender::WorldChunkMgr`, with
# `voxel::Mesh`, `core::Var` and `voxel::VXMFormat`

Shallow embedding of `src/modules/voxelrender/WorldChunkMgr.cpp`, of
`src/modules/voxel/Mesh.cpp`, of the accessors of `src/modules/core/Var.h` and of
`src/modules/voxelformat/VXMFormat.cpp`.

Conventions of the embedding

* `int` values are `Int`.  Where the source computes with `int` (`getDistanceSquare`, the
  counter of `Mesh::removeUnusedVertices`, the run index of `VXMFormat::loadGroups`) the
  result is wrapped to 32 bit two's complement by `wrapInt32`; theorems that depend on the
  computed value state the absence of overflow as a hypothesis.
* `voxel::IndexType` is an unsigned integer type whose declaration is not part of the
  available sources; its width in bits is the field `indexBits` of `Env` and a parameter of
  the functions of `Mesh`.
* `size_t` values (vector sizes, the running index offset of `cull`) are `Nat`: they are
  bounded by the size of the vectors held in memory.
* The fixed array `_chunkBuffers[MAX_CHUNKBUFFERS]` is a `List ChunkBuffer`; the capacity is
  the length of the list.  A `ChunkBuffer*` is the position of the slot in that list.
* The mesh extractor (`_meshExtractor`), the macro `core_assert_always` and the octree are
  declared outside of the available sources.  The extractor is an abstract state `E` with
  the operations of `Env`; the assertion is the flag `Env.assertAborts`; the octree is the
  model `Octree` below.
* Positions given as `glm::vec3` (focus position, view distance) are restricted to integer
  values; `getDistanceSquare` receives its second argument converted to `glm::ivec3`.
* A `float` or `double` that holds an integer is an `Int`; a conversion to `float` and a
  `float` operation round by `roundFloat`, a `double` operation by `roundDouble`.
* A function of `Mesh` that may leave the bounds of a vector returns an `Option`: `none`
  where the behaviour of the source is undefined.  The debug assertions of `addVertex` and
  `addTriangle` are predicates next to the functions.
* The stream read by `VXMFormat::loadGroups` is an abstract state with the operations of
  `VXMFormat.Env`.
-/

namespace voxelrender

/-! ## Scalars and vectors -/

/-- Largest value of `int`: `std::numeric_limits<int>::max()`. -/
def INT_MAX : Int := 2147483647

/-- Smallest value of `int`: `std::numeric_limits<int>::min()`. -/
def INT_MIN : Int := -2147483648

/-- Two's complement wrap-around of an `int` result to 32 bit. -/
def wrapInt32 (v : Int) : Int :=
  (v + 2147483648) % 4294967296 - 2147483648

/-- The value is representable as an `int`. -/
def inInt32 (v : Int) : Prop :=
  INT_MIN ≤ v ∧ v ≤ INT_MAX

instance (v : Int) : Decidable (inInt32 v) := by
  unfold inInt32
  exact inferInstance

/-- Integer vector `glm::ivec3`. -/
structure IVec3 where
  x : Int
  y : Int
  z : Int
deriving DecidableEq, Repr

/-- Component-wise minimum `glm::min` on `glm::ivec3`. -/
def IVec3.min (a b : IVec3) : IVec3 :=
  ⟨Min.min a.x b.x, Min.min a.y b.y, Min.min a.z b.z⟩

/-- Component-wise maximum `glm::max` on `glm::ivec3`. -/
def IVec3.max (a b : IVec3) : IVec3 :=
  ⟨Max.max a.x b.x, Max.max a.y b.y, Max.max a.z b.z⟩

/-- Component-wise `int` subtraction of `glm::ivec3`. -/
def IVec3.sub (a b : IVec3) : IVec3 :=
  ⟨wrapInt32 (a.x - b.x), wrapInt32 (a.y - b.y), wrapInt32 (a.z - b.z)⟩

/-- All three components are representable as `int`. -/
def IVec3.inInt32 (a : IVec3) : Prop :=
  voxelrender.inInt32 a.x ∧ voxelrender.inInt32 a.y ∧ voxelrender.inInt32 a.z

instance (a : IVec3) : Decidable a.inInt32 := by
  unfold IVec3.inInt32
  exact inferInstance

/-! ## Meshes and chunk buffers -/

/-- Vertex `voxel::VoxelVertex`: the position read by `updateAABB`; the remaining
attributes of the vertex are kept in `info`. -/
structure VoxelVertex where
  position : IVec3
  info : Nat
deriving DecidableEq, Repr

/-- Members of `voxel::Mesh` (`Mesh.cpp`): `_vecIndices`, `_vecVertices`, `_offset`,
`_mins`, `_maxs`, `_mayGetResized`. -/
structure Mesh where
  vecIndices : List Nat
  vecVertices : List VoxelVertex
  offset : IVec3
  mins : IVec3
  maxs : IVec3
  mayGetResized : Bool
deriving DecidableEq, Repr

/-- Accessor `Mesh::getOffset`. -/
def Mesh.getOffset (m : Mesh) : IVec3 :=
  m.offset

/-- Accessor `Mesh::getVertexVector`. -/
def Mesh.getVertexVector (m : Mesh) : List VoxelVertex :=
  m.vecVertices

/-- Accessor `Mesh::getIndexVector`. -/
def Mesh.getIndexVector (m : Mesh) : List Nat :=
  m.vecIndices

/-- Payload `ChunkMeshes` delivered by the extractor; `WorldChunkMgr.cpp` reads its member
`mesh` and its `translation()`. -/
structure ChunkMeshes where
  mesh : Mesh
deriving DecidableEq, Repr

/-- Translation `ChunkMeshes::translation()`: the offset of the mesh. -/
def ChunkMeshes.translation (m : ChunkMeshes) : IVec3 :=
  m.mesh.getOffset

/-- Box `math::AABB<int>` built as `{mins, maxs}`. -/
structure AABB where
  mins : IVec3
  maxs : IVec3
deriving DecidableEq, Repr

/-- Slot `WorldChunkMgr::ChunkBuffer`: `inuse`, `_aabb` and `meshes`. -/
structure ChunkBuffer where
  inuse : Bool
  aabb : AABB
  meshes : ChunkMeshes
deriving DecidableEq, Repr

/-- Translation `ChunkBuffer::translation()`.  `handleMeshQueue` assigns nothing but
`meshes` when it stores a mesh and afterwards finds the slot again by its translation, so the
translation of a slot is the translation of the meshes it holds. -/
def ChunkBuffer.translation (cb : ChunkBuffer) : IVec3 :=
  cb.meshes.translation

/-! ## The spatial index -/

/-- The box has `mins ≤ maxs` on every axis. -/
def AABB.isValid (b : AABB) : Bool :=
  decide (b.mins.x ≤ b.maxs.x) && decide (b.mins.y ≤ b.maxs.y) && decide (b.mins.z ≤ b.maxs.z)

/-- Two boxes share at least one point. -/
def AABB.intersects (a b : AABB) : Bool :=
  decide (a.mins.x ≤ b.maxs.x) && decide (b.mins.x ≤ a.maxs.x) &&
  decide (a.mins.y ≤ b.maxs.y) && decide (b.mins.y ≤ a.maxs.y) &&
  decide (a.mins.z ≤ b.maxs.z) && decide (b.mins.z ≤ a.maxs.z)

/-- Modelled from the spec: `math::Octree<ChunkBuffer*>` (`_octree`), whose code is not part
of the available sources.  The index is the collection of back-references to slots, each
kept with the bounding box the slot had when it was inserted. -/
structure Octree where
  contents : List (Nat × AABB)
deriving DecidableEq, Repr

/-- Modelled from the spec: `Octree::insert`.  Inserts the reference under the buffer's
current bounding box; an empty/invalid box is skipped and an insert beyond the limits of the
tree (`limit`) fails; both return `false` and leave the index as it was. -/
def Octree.insert (limit : Octree → AABB → Bool) (o : Octree) (ref : Nat) (box : AABB) :
    Bool × Octree :=
  if box.isValid && limit o box then (true, ⟨o.contents ++ [(ref, box)]⟩) else (false, o)

/-- Modelled from the spec: `Octree::remove`.  Removes all back-references to the slot. -/
def Octree.remove (o : Octree) (ref : Nat) : Octree :=
  ⟨o.contents.filter (fun e => decide (e.1 ≠ ref))⟩

/-- Modelled from the spec: `Octree::clear`.  Drops all nodes. -/
def Octree.clear (_o : Octree) : Octree :=
  ⟨[]⟩

/-- Modelled from the spec: `Octree::query`.  The set of slot references with a
back-reference whose box intersects the query box, each reference once. -/
def Octree.query (o : Octree) (box : AABB) : List Nat :=
  ((o.contents.filter (fun e => e.2.intersects box)).map Prod.fst).dedup

/-- The back-references the index holds for one slot. -/
def Octree.refsOf (o : Octree) (ref : Nat) : List (Nat × AABB) :=
  o.contents.filter (fun e => decide (e.1 = ref))

/-! ## Collaborators of the manager -/

/-- Operations of the collaborators whose code is not part of the available sources, over an
abstract extractor state `E`:

* `meshSize`, `pop`, `resetExtractor`, `updateExtractionOrder`, `allowReExtraction`,
  `scheduleMeshExtraction`: the methods of `_meshExtractor` called by `WorldChunkMgr.cpp`;
* `octreeLimit`: whether an insert of a box stays inside the limits of the octree;
* `assertAborts`: what `core_assert_always` does with a false condition: `true` ends the
  process, `false` ignores the failure and continues;
* `indexBits`: the width of `voxel::IndexType`. -/
structure Env (E : Type) where
  meshSize : E → IVec3
  pop : E → Option ChunkMeshes × E
  resetExtractor : E → E
  updateExtractionOrder : E → IVec3 → E
  allowReExtraction : E → IVec3 → Bool × E
  scheduleMeshExtraction : E → IVec3 → Bool × E
  octreeLimit : Octree → AABB → Bool
  assertAborts : Bool
  indexBits : Nat

/-- State of `WorldChunkMgr`: `_chunkBuffers`, `_activeChunkBuffers`, `_maxAllowedDistance`,
`_octree`, `_meshExtractor`, `_opaqueIndices`, `_opaqueVertices`. -/
structure WorldChunkMgr (E : Type) where
  chunkBuffers : List ChunkBuffer
  activeChunkBuffers : Int
  maxAllowedDistance : Int
  octree : Octree
  meshExtractor : E
  opaqueIndices : List Nat
  opaqueVertices : List VoxelVertex
deriving DecidableEq, Repr

/-! ## `WorldChunkMgr.cpp` -/

/-- Number of low bits that a significand of `bits` bits cannot hold of the magnitude `a`:
the least `e`, counted up from the given one, with `a / 2 ^ e < 2 ^ bits`. -/
def droppedBits (bits a : Nat) : Nat → Nat → Nat
  | 0, e => e
  | fuel + 1, e => if a / 2 ^ e < 2 ^ bits then e else droppedBits bits a fuel (e + 1)

/-- Nearest value to an integer in a binary floating point type whose significand has
`bits` bits: round to nearest, ties to even.  The exponent range of the type is not
reached by the values of this development. -/
def roundToBits (bits : Nat) (v : Int) : Int :=
  if v.natAbs < 2 ^ bits then v
  else
    let e := droppedBits bits v.natAbs v.natAbs 0
    let q := v.natAbs / 2 ^ e
    let r := v.natAbs % 2 ^ e
    let q1 := if 2 ^ e < 2 * r ∨ (2 * r = 2 ^ e ∧ q % 2 = 1) then q + 1 else q
    v.sign * ((q1 * 2 ^ e : Nat) : Int)

/-- Rounding to `float`: a significand of 24 bits. -/
def roundFloat (v : Int) : Int :=
  roundToBits 24 v

/-- Rounding to `double`: a significand of 53 bits. -/
def roundDouble (v : Int) : Int :=
  roundToBits 53 v

/-- Function `WorldChunkMgr::updateViewDistance` (lines 14-18), on an integer view
distance.  `cullingThreshold` is the mesh size converted to `float`; the product with 40 is
computed in `float` and converted to the `int` `maxCullingThreshold`; the sum with the view
distance is computed in `float`; `glm::pow` of a `float` and the `int` 2 is `std::pow` on
`double`; the result is converted to the `int` `_maxAllowedDistance`.  The conversion of a
floating point value outside of the range of `int` to `int` is undefined: the result is
`none` there. -/
def updateViewDistance {E : Type} (env : Env E) (s : WorldChunkMgr E) (viewDistance : Int) :
    Option (WorldChunkMgr E) :=
  let cullingThreshold : IVec3 :=
    ⟨roundFloat (env.meshSize s.meshExtractor).x, roundFloat (env.meshSize s.meshExtractor).y,
      roundFloat (env.meshSize s.meshExtractor).z⟩
  let product := roundFloat (Max.max cullingThreshold.x cullingThreshold.z * 40)
  if inInt32 product then
    let maxCullingThreshold := product
    let sum := roundFloat (viewDistance + roundFloat maxCullingThreshold)
    let square := roundDouble (sum ^ 2)
    if inInt32 square then some { s with maxAllowedDistance := square } else none
  else none

/-- The mesh size and the view distance are in the range in which `updateViewDistance`
computes without rounding: the two horizontal sizes, the margin of 40 times the larger one
and the view distance are below 2^24 in magnitude, and so is the square of the sum of view
distance and margin.  Every integer of that range is a `float`, a `double` and an `int`. -/
def viewDistanceExact (size : IVec3) (viewDistance : Int) : Prop :=
  -16777216 < size.x ∧ size.x < 16777216 ∧ -16777216 < size.z ∧ size.z < 16777216 ∧
  -16777216 < Max.max size.x size.z * 40 ∧ Max.max size.x size.z * 40 < 16777216 ∧
  -16777216 < viewDistance ∧ viewDistance < 16777216 ∧
  (viewDistance + Max.max size.x size.z * 40) ^ 2 < 16777216

instance (size : IVec3) (viewDistance : Int) : Decidable (viewDistanceExact size viewDistance) := by
  unfold viewDistanceExact
  exact inferInstance

/-- Function `WorldChunkMgr::reset` (lines 28-35). -/
def reset {E : Type} (env : Env E) (s : WorldChunkMgr E) : WorldChunkMgr E :=
  { s with
    chunkBuffers := s.chunkBuffers.map (fun chunkBuffer => { chunkBuffer with inuse := false })
    meshExtractor := env.resetExtractor s.meshExtractor
    octree := s.octree.clear
    activeChunkBuffers := 0 }

/-- Loop of `WorldChunkMgr::updateAABB` (lines 40-47): the running `(mins, maxs)` pair. -/
def updateAABB.reduce (vertices : List VoxelVertex) : IVec3 × IVec3 :=
  vertices.foldl (fun acc v => (acc.1.min v.position, acc.2.max v.position))
    (⟨INT_MAX, INT_MAX, INT_MAX⟩, ⟨INT_MIN, INT_MIN, INT_MIN⟩)

/-- Function `WorldChunkMgr::updateAABB` (lines 38-50). -/
def updateAABB (chunkBuffer : ChunkBuffer) : ChunkBuffer :=
  let r := updateAABB.reduce chunkBuffer.meshes.mesh.getVertexVector
  { chunkBuffer with aabb := ⟨r.1, r.2⟩ }

/-- Loop of `WorldChunkMgr::handleMeshQueue` (lines 60-70).  `i` is the position of the
head of the remaining slots and `freeChunkBuffer` the candidate found so far. -/
def handleMeshQueue.findChunkBuffer (translation : IVec3) :
    List ChunkBuffer → Nat → Option Nat → Option Nat
  | [], _, freeChunkBuffer => freeChunkBuffer
  | chunkBuffer :: rest, i, freeChunkBuffer =>
    let freeChunkBuffer :=
      if freeChunkBuffer.isNone && !chunkBuffer.inuse then some i else freeChunkBuffer
    if chunkBuffer.translation = translation then some i
    else handleMeshQueue.findChunkBuffer translation rest (i + 1) freeChunkBuffer

/-- Lines 57-85 of `WorldChunkMgr::handleMeshQueue`: what is done with a popped mesh. -/
def handleMeshQueue.store {E : Type} (env : Env E) (s : WorldChunkMgr E) (meshes : ChunkMeshes) :
    WorldChunkMgr E :=
  match handleMeshQueue.findChunkBuffer meshes.translation s.chunkBuffers 0 none with
  | none => s
  | some i =>
    match s.chunkBuffers[i]? with
    | none => s
    | some freeChunkBuffer =>
      let stored := updateAABB { freeChunkBuffer with meshes := meshes }
      let inserted := s.octree.insert env.octreeLimit i stored.aabb
      if !stored.inuse then
        { s with
          chunkBuffers := s.chunkBuffers.set i { stored with inuse := true }
          octree := inserted.2
          activeChunkBuffers := s.activeChunkBuffers + 1 }
      else
        { s with
          chunkBuffers := s.chunkBuffers.set i stored
          octree := inserted.2 }

/-- Function `WorldChunkMgr::handleMeshQueue` (lines 52-86). -/
def handleMeshQueue {E : Type} (env : Env E) (s : WorldChunkMgr E) : WorldChunkMgr E :=
  match env.pop s.meshExtractor with
  | (none, e) => { s with meshExtractor := e }
  | (some meshes, e) => handleMeshQueue.store env { s with meshExtractor := e } meshes

/-- Loop of `WorldChunkMgr::findFreeChunkBuffer` (lines 89-93) from position `i` on. -/
def findFreeChunkBuffer.loop : List ChunkBuffer → Nat → Option Nat
  | [], _ => none
  | chunkBuffer :: rest, i =>
    if !chunkBuffer.inuse then some i else findFreeChunkBuffer.loop rest (i + 1)

/-- Function `WorldChunkMgr::findFreeChunkBuffer` (lines 88-95). -/
def findFreeChunkBuffer {E : Type} (s : WorldChunkMgr E) : Option Nat :=
  findFreeChunkBuffer.loop s.chunkBuffers 0

/-- Loop of `transform` (lines 102-104): `n` iterations from position `i` on. -/
def transform.addOffset (indexBits indexOffset : Nat) : Nat → Nat → List Nat → List Nat
  | 0, _, idxs => idxs
  | n + 1, i, idxs =>
    transform.addOffset indexBits indexOffset n (i + 1)
      (idxs.set i ((idxs.getD i 0 + indexOffset) % 2 ^ indexBits))

/-- Function `transform` (lines 97-108): the returned vertex count and the new contents of
`verts` and `idxs`. -/
def transform (indexBits indexOffset : Nat) (mesh : Mesh) (verts : List VoxelVertex)
    (idxs : List Nat) : Nat × List VoxelVertex × List Nat :=
  let indices := mesh.getIndexVector
  let start := idxs.length
  let idxs := idxs ++ indices
  let end_ := idxs.length
  let idxs := transform.addOffset indexBits indexOffset (end_ - start) start idxs
  let vertices := mesh.getVertexVector
  (vertices.length, verts ++ vertices, idxs)

/-- Loop of `WorldChunkMgr::cull` (lines 121-125) over the buffers returned by the query:
the running `opaqueIndexOffset`, `_opaqueVertices` and `_opaqueIndices`. -/
def cull.merge (indexBits : Nat) :
    List ChunkBuffer → Nat → List VoxelVertex → List Nat → Nat × List VoxelVertex × List Nat
  | [], opaqueIndexOffset, verts, idxs => (opaqueIndexOffset, verts, idxs)
  | chunkBuffer :: rest, opaqueIndexOffset, verts, idxs =>
    let r := transform indexBits opaqueIndexOffset chunkBuffer.meshes.mesh verts idxs
    cull.merge indexBits rest (opaqueIndexOffset + r.1) r.2.1 r.2.2

/-- The buffers a query result points to, in the order of the result. -/
def cull.contents {E : Type} (s : WorldChunkMgr E) (aabb : AABB) : List ChunkBuffer :=
  (s.octree.query aabb).filterMap (fun ref => s.chunkBuffers[ref]?)

/-- Function `WorldChunkMgr::cull` (lines 110-126).  `aabb` is the query volume computed
from the camera (lines 117-119). -/
def cull {E : Type} (env : Env E) (s : WorldChunkMgr E) (aabb : AABB) : WorldChunkMgr E :=
  let r := cull.merge env.indexBits (cull.contents s aabb) 0 [] []
  { s with opaqueVertices := r.2.1, opaqueIndices := r.2.2 }

/-- Function `WorldChunkMgr::getDistanceSquare` (lines 128-132). -/
def getDistanceSquare (pos pos2 : IVec3) : Int :=
  let dist := pos.sub pos2
  let distance := wrapInt32 (wrapInt32 (dist.x * dist.x) + wrapInt32 (dist.z * dist.z))
  distance

/-- One call of `allowReExtraction` made by `update`, with what the manager held at the
moment of the call: the position and translation of the slot asked for, the in-use flag of
that slot, the index, the active count, and the answer of the extractor. -/
structure ReExtractionCall where
  slot : Nat
  translation : IVec3
  inuse : Bool
  octree : Octree
  activeChunkBuffers : Int
  result : Bool
deriving DecidableEq, Repr

/-- Outcome of the loop of `update`: `result` is `none` when `core_assert_always` ended the
process, else the slots, the active count, the index and the extractor after the loop;
`calls` are the calls of `allowReExtraction` in the order they were made. -/
structure UpdateRun (E : Type) where
  result : Option (List ChunkBuffer × Int × Octree × E)
  calls : List ReExtractionCall

/-- Puts a finished slot in front of the slots of the remaining loop. -/
def UpdateRun.cons {E : Type} (chunkBuffer : ChunkBuffer) (r : UpdateRun E) : UpdateRun E :=
  { r with result := r.result.map (fun t => (chunkBuffer :: t.1, t.2)) }

/-- Loop of `WorldChunkMgr::update` (lines 137-150).  `i` is the position of the head of
the remaining slots. -/
def update.loop {E : Type} (env : Env E) (focusPos : IVec3) (maxAllowedDistance : Int) :
    Nat → List ChunkBuffer → Int → Octree → E → List ReExtractionCall → UpdateRun E
  | _, [], active, octree, e, calls => ⟨some ([], active, octree, e), calls⟩
  | i, chunkBuffer :: rest, active, octree, e, calls =>
    if !chunkBuffer.inuse then
      (update.loop env focusPos maxAllowedDistance (i + 1) rest active octree e calls).cons
        chunkBuffer
    else
      let distance := getDistanceSquare chunkBuffer.translation focusPos
      if distance < maxAllowedDistance then
        (update.loop env focusPos maxAllowedDistance (i + 1) rest active octree e calls).cons
          chunkBuffer
      else
        let allowed := env.allowReExtraction e chunkBuffer.translation
        let call : ReExtractionCall :=
          ⟨i, chunkBuffer.translation, chunkBuffer.inuse, octree, active, allowed.1⟩
        if !allowed.1 && env.assertAborts then ⟨none, calls ++ [call]⟩
        else
          (update.loop env focusPos maxAllowedDistance (i + 1) rest (active - 1)
            (octree.remove i) allowed.2 (calls ++ [call])).cons
            { chunkBuffer with inuse := false }

/-- Function `WorldChunkMgr::update` (lines 134-151) together with the calls of
`allowReExtraction` it made. -/
def update.traced {E : Type} (env : Env E) (s : WorldChunkMgr E) (focusPos : IVec3) :
    Option (WorldChunkMgr E) × List ReExtractionCall :=
  let e := env.updateExtractionOrder s.meshExtractor focusPos
  let r := update.loop env focusPos s.maxAllowedDistance 0 s.chunkBuffers
    s.activeChunkBuffers s.octree e []
  (r.result.map (fun t =>
    { s with
      chunkBuffers := t.1
      activeChunkBuffers := t.2.1
      octree := t.2.2.1
      meshExtractor := t.2.2.2 }), r.calls)

/-- Function `WorldChunkMgr::update` (lines 134-151); `none` when `core_assert_always`
ended the process. -/
def update {E : Type} (env : Env E) (s : WorldChunkMgr E) (focusPos : IVec3) :
    Option (WorldChunkMgr E) :=
  (update.traced env s focusPos).1

/-! ## Call sequences -/

/-- A call of one of the three state changing entry points of the pool. -/
inductive Op where
  | handleMeshQueue : Op
  | update : IVec3 → Op
  | reset : Op
deriving DecidableEq, Repr

/-- Effect of one call; `none` when the process ended in the call. -/
def step {E : Type} (env : Env E) (s : WorldChunkMgr E) : Op → Option (WorldChunkMgr E)
  | Op.handleMeshQueue => some (handleMeshQueue env s)
  | Op.update focusPos => update env s focusPos
  | Op.reset => some (reset env s)

/-- Effect of a sequence of calls, first call first. -/
def run {E : Type} (env : Env E) : WorldChunkMgr E → List Op → Option (WorldChunkMgr E)
  | s, [] => some s
  | s, op :: ops =>
    match step env s op with
    | none => none
    | some s1 => run env s1 ops

/-- Number of slots whose in-use flag is set. -/
def occupiedCount (chunkBuffers : List ChunkBuffer) : Nat :=
  chunkBuffers.countP (fun chunkBuffer => chunkBuffer.inuse)

/-! ## Test doubles and sample data -/

/-- Test double of the collaborators.  The extractor state is the queue of completed
meshes: `pop` takes the first one; `allowReExtraction` answers `allow` for every
translation; the octree accepts every valid box; the index type has 32 bit. -/
def testEnv (meshSize : IVec3) (allow aborts : Bool) : Env (List ChunkMeshes) where
  meshSize := fun _ => meshSize
  pop := fun queue =>
    match queue with
    | [] => (none, [])
    | meshes :: rest => (some meshes, rest)
  resetExtractor := fun _ => []
  updateExtractionOrder := fun queue _ => queue
  allowReExtraction := fun queue _ => (allow, queue)
  scheduleMeshExtraction := fun queue _ => (true, queue)
  octreeLimit := fun _ _ => true
  assertAborts := aborts
  indexBits := 32

/-- Completed mesh with the given translation, vertices and indices. -/
def sampleMeshes (translation : IVec3) (vertices : List VoxelVertex) (indices : List Nat) :
    ChunkMeshes :=
  ⟨⟨indices, vertices, translation, ⟨0, 0, 0⟩, ⟨0, 0, 0⟩, true⟩⟩

/-- Vertex at the given position. -/
def sampleVertex (x y z : Int) : VoxelVertex :=
  ⟨⟨x, y, z⟩, 0⟩

/-- Completed mesh of one triangle at the given translation. -/
def sampleTriangle (translation : IVec3) : ChunkMeshes :=
  sampleMeshes translation
    [sampleVertex translation.x translation.y translation.z,
     sampleVertex (translation.x + 1) translation.y translation.z,
     sampleVertex translation.x translation.y (translation.z + 1)]
    [0, 1, 2]

/-- Free slot that never held a mesh. -/
def sampleFreeSlot : ChunkBuffer :=
  ⟨false, ⟨⟨0, 0, 0⟩, ⟨0, 0, 0⟩⟩, sampleMeshes ⟨0, 0, 0⟩ [] []⟩

/-- Manager with `capacity` free slots, an empty index, the given cutoff and the given
queue of completed meshes. -/
def sampleMgr (capacity : Nat) (maxAllowedDistance : Int) (queue : List ChunkMeshes) :
    WorldChunkMgr (List ChunkMeshes) :=
  ⟨List.replicate capacity sampleFreeSlot, 0, maxAllowedDistance, ⟨[]⟩, queue, [], []⟩

/-- In-use flag and translation of every slot, in slot order. -/
def slotSummary {E : Type} (s : WorldChunkMgr E) : List (Bool × IVec3) :=
  s.chunkBuffers.map (fun chunkBuffer => (chunkBuffer.inuse, chunkBuffer.translation))

/-- The slot written by `handleMeshQueue.store`: the popped meshes, their bounding box, and
the in-use flag set. -/
def storedSlot (chunkBuffer : ChunkBuffer) (meshes : ChunkMeshes) : ChunkBuffer :=
  { updateAABB { chunkBuffer with meshes := meshes } with inuse := true }

/-- Eviction test of `update` for one slot (lines 138-144): the slot is in use and its
distance is not below the cutoff. -/
def outOfRange (focusPos : IVec3) (maxAllowedDistance : Int) (chunkBuffer : ChunkBuffer) :
    Bool :=
  chunkBuffer.inuse &&
    !decide (getDistanceSquare chunkBuffer.translation focusPos < maxAllowedDistance)

/-- The slot after `update` went over it without ending the process. -/
def evictSlot (focusPos : IVec3) (maxAllowedDistance : Int) (chunkBuffer : ChunkBuffer) :
    ChunkBuffer :=
  if outOfRange focusPos maxAllowedDistance chunkBuffer then { chunkBuffer with inuse := false }
  else chunkBuffer

/-- Every occupied slot is the first slot in slot order that has its translation. -/
def OccupiedFirst (chunkBuffers : List ChunkBuffer) : Prop :=
  ∀ (i j : Nat) (ci cj : ChunkBuffer), chunkBuffers[i]? = some ci → chunkBuffers[j]? = some cj → cj.inuse = true →
    ci.translation = cj.translation → j ≤ i

/-- Concatenation of the vertex lists of the buffers, first buffer first. -/
def mergedVertices : List ChunkBuffer → List VoxelVertex
  | [] => []
  | chunkBuffer :: rest => chunkBuffer.meshes.mesh.vecVertices ++ mergedVertices rest

/-- Total number of vertices of the buffers. -/
def vertexCount : List ChunkBuffer → Nat
  | [] => 0
  | chunkBuffer :: rest => chunkBuffer.meshes.mesh.vecVertices.length + vertexCount rest

/-- Total number of indices of the buffers. -/
def indexCount : List ChunkBuffer → Nat
  | [] => 0
  | chunkBuffer :: rest => chunkBuffer.meshes.mesh.vecIndices.length + indexCount rest

/-- Concatenation of the index lists of the buffers, every index of a buffer increased, in
the arithmetic of the index type, by `offset` plus the number of vertices of the buffers
before it. -/
def rebasedIndices (indexBits : Nat) : List ChunkBuffer → Nat → List Nat
  | [], _ => []
  | chunkBuffer :: rest, offset =>
    chunkBuffer.meshes.mesh.vecIndices.map (fun v => (v + offset) % 2 ^ indexBits) ++
      rebasedIndices indexBits rest (offset + chunkBuffer.meshes.mesh.vecVertices.length)

/-- Resident buffer with the given geometry and box. -/
def sampleResident (translation : IVec3) (vertices : List VoxelVertex) (indices : List Nat)
    (box : AABB) : ChunkBuffer :=
  ⟨true, box, sampleMeshes translation vertices indices⟩

/-- Four vertices and six indices: two triangles over the corners of a square. -/
def sampleQuad (translation : IVec3) : ChunkMeshes :=
  sampleMeshes translation
    [sampleVertex translation.x translation.y translation.z,
     sampleVertex (translation.x + 1) translation.y translation.z,
     sampleVertex (translation.x + 1) translation.y (translation.z + 1),
     sampleVertex translation.x translation.y (translation.z + 1)]
    [0, 1, 2, 2, 3, 0]

/-- Box from (0,0,0) to (100,100,100). -/
def sampleBox : AABB :=
  ⟨⟨0, 0, 0⟩, ⟨100, 100, 100⟩⟩

/-- Resident buffer with `n` vertices and no index. -/
def sampleManyVertices (n : Nat) : ChunkBuffer :=
  sampleResident ⟨0, 0, 0⟩ (List.replicate n (sampleVertex 0 0 0)) [] sampleBox

/-- Resident buffer with two vertices and the one valid index 1. -/
def sampleSmallBuffer : ChunkBuffer :=
  sampleResident ⟨1, 0, 0⟩ [sampleVertex 1 0 0, sampleVertex 2 0 0] [1] sampleBox

/-- Manager whose two slots are resident and indexed under `sampleBox`. -/
def sampleIndexed (first second : ChunkBuffer) : WorldChunkMgr (List ChunkMeshes) :=
  ⟨[first, second], 2, 100, ⟨[(0, sampleBox), (1, sampleBox)]⟩, [], [], []⟩

/-- The extractor in state `e` delivers exactly the given completed meshes, in that order,
on its next calls of `pop`. -/
def delivers {E : Type} (env : Env E) : E → List ChunkMeshes → Prop
  | _, [] => True
  | e, meshes :: rest => (env.pop e).1 = some meshes ∧ delivers env (env.pop e).2 rest

/-- State of a pool of capacity `N` that started without an occupied slot and has processed
the completed meshes `done`: the count equals the number of occupied slots, which is
`min done.length N`; every occupied slot holds one of the first `N` meshes; each of the
first `N` meshes is held by an occupied slot. -/
structure CapacityInv {E : Type} (N : Nat) (done : List ChunkMeshes) (t : WorldChunkMgr E) :
    Prop where
  len : t.chunkBuffers.length = N
  cnt : t.activeChunkBuffers = occupiedCount t.chunkBuffers
  occ : occupiedCount t.chunkBuffers = Min.min done.length N
  holds : ∀ c ∈ t.chunkBuffers, c.inuse = true → ∃ j, j < N ∧ done[j]? = some c.meshes
  resident : ∀ (j : Nat) (m : ChunkMeshes), done[j]? = some m → j < N →
    ∃ c ∈ t.chunkBuffers, c.inuse = true ∧ c.meshes = m

/-- The `int` computation of `getDistanceSquare pos pos2` does not overflow: the two
differences and the sum of their squares are representable as `int`. -/
def noOverflow (pos pos2 : IVec3) : Prop :=
  inInt32 (pos.x - pos2.x) ∧ inInt32 (pos.z - pos2.z) ∧
    inInt32 ((pos.x - pos2.x) ^ 2 + (pos.z - pos2.z) ^ 2)

instance (pos pos2 : IVec3) : Decidable (noOverflow pos pos2) := by
  unfold noOverflow
  exact inferInstance

/-- Squared planar distance (tx-fx)^2 + (tz-fz)^2 of a translation to the focus. -/
def planarDistanceSquare (translation focusPos : IVec3) : Int :=
  (translation.x - focusPos.x) ^ 2 + (translation.z - focusPos.z) ^ 2

/-- Manager with the given slots, active count and cutoff, an index that holds one
back-reference for each of the first `indexed` slots, and an empty extractor queue. -/
def samplePool (chunkBuffers : List ChunkBuffer) (active : Int) (maxAllowedDistance : Int)
    (indexed : Nat) : WorldChunkMgr (List ChunkMeshes) :=
  ⟨chunkBuffers, active, maxAllowedDistance,
    ⟨(List.range indexed).map (fun ref => (ref, sampleBox))⟩, [], [], []⟩

/-- Positions of the slots that `update` takes for out of range, in slot order; `i` is the
position of the head of the list. -/
def evictedSlots (focusPos : IVec3) (maxAllowedDistance : Int) : Nat → List ChunkBuffer → List Nat
  | _, [] => []
  | i, chunkBuffer :: rest =>
    if outOfRange focusPos maxAllowedDistance chunkBuffer then
      i :: evictedSlots focusPos maxAllowedDistance (i + 1) rest
    else evictedSlots focusPos maxAllowedDistance (i + 1) rest

/-! ## Scheduling of extractions -/

/-- Function `WorldChunkMgr::extractMesh` (lines 173-175). -/
def extractMesh {E : Type} (env : Env E) (s : WorldChunkMgr E) (pos : IVec3) :
    WorldChunkMgr E :=
  { s with meshExtractor := (env.scheduleMeshExtraction s.meshExtractor pos).2 }

/-- Function `WorldChunkMgr::extractMeshes` (lines 153-171).  `cells` are the lower corners
of the cells for which `_octree.visit` invokes the callback, in the order of the visit; the
callback calls `scheduleMeshExtraction` for each of them. -/
def extractMeshes {E : Type} (env : Env E) (s : WorldChunkMgr E) (cells : List IVec3) :
    WorldChunkMgr E :=
  cells.foldl (fun s mins => extractMesh env s mins) s

/-- Modelled from the spec: the mesh extraction scheduler behind `_meshExtractor`, whose
code is not part of the available sources.  `positionsExtracted` is the in-flight tracking
keyed by translation (a region is tracked from the moment it is scheduled until
`allowReExtraction` releases it, so while it is pending and while a resident buffer
satisfies it); `pendingExtraction` are the outstanding extraction requests;
`extracted` is the queue of completed meshes. -/
structure MeshExtractor where
  positionsExtracted : List IVec3
  pendingExtraction : List IVec3
  extracted : List ChunkMeshes
  meshSize : IVec3
deriving DecidableEq, Repr

/-- Modelled from the spec: `scheduleExtraction(region) -> bool` returns false and does
nothing if the region is already pending or already satisfied by a resident buffer at that
translation; otherwise it enqueues a request and returns true. -/
def MeshExtractor.scheduleMeshExtraction (e : MeshExtractor) (pos : IVec3) :
    Bool × MeshExtractor :=
  if pos ∈ e.positionsExtracted then (false, e)
  else (true, { e with
    positionsExtracted := pos :: e.positionsExtracted
    pendingExtraction := e.pendingExtraction ++ [pos] })

/-- Modelled from the spec: `allowReExtraction(translation) -> bool` releases the tracking
of the translation, so that it can be scheduled again; it fails when there is no tracking
entry to release. -/
def MeshExtractor.allowReExtraction (e : MeshExtractor) (pos : IVec3) : Bool × MeshExtractor :=
  (decide (pos ∈ e.positionsExtracted),
    { e with positionsExtracted := e.positionsExtracted.filter (fun p => decide (p ≠ pos)) })

/-- Modelled from the spec: `pop() -> optional<CompletedMesh>`, non-blocking: takes the
first completed mesh, if there is one. -/
def MeshExtractor.pop (e : MeshExtractor) : Option ChunkMeshes × MeshExtractor :=
  match e.extracted with
  | [] => (none, e)
  | meshes :: rest => (some meshes, { e with extracted := rest })

/-- Modelled from the spec: a worker completes the first outstanding request; the request
is resolved into the payload `extract` produces for it and published to the queue of
completed meshes. -/
def MeshExtractor.complete (extract : IVec3 → ChunkMeshes) (e : MeshExtractor) : MeshExtractor :=
  match e.pendingExtraction with
  | [] => e
  | pos :: rest =>
    { e with pendingExtraction := rest, extracted := e.extracted ++ [extract pos] }

/-- Modelled from the spec: `updateExtractionOrder(focusPosition)` sorts the outstanding
requests by ascending squared planar distance to the focus. -/
def MeshExtractor.updateExtractionOrder (e : MeshExtractor) (focusPos : IVec3) :
    MeshExtractor :=
  let sorted := List.insertionSort
    (fun a b => planarDistanceSquare a focusPos ≤ planarDistanceSquare b focusPos)
    e.pendingExtraction
  { e with pendingExtraction := sorted }

/-- Modelled from the spec: reset of the scheduler on a full reset of the manager: nothing
is tracked, outstanding or completed afterwards. -/
def MeshExtractor.reset (e : MeshExtractor) : MeshExtractor :=
  { e with positionsExtracted := [], pendingExtraction := [], extracted := [] }

/-- The collaborators with the scheduler modelled from the spec; the octree accepts every
valid box. -/
def specEnv (aborts : Bool) (indexBits : Nat) : Env MeshExtractor where
  meshSize := fun e => e.meshSize
  pop := MeshExtractor.pop
  resetExtractor := MeshExtractor.reset
  updateExtractionOrder := MeshExtractor.updateExtractionOrder
  allowReExtraction := MeshExtractor.allowReExtraction
  scheduleMeshExtraction := MeshExtractor.scheduleMeshExtraction
  octreeLimit := fun _ _ => true
  assertAborts := aborts
  indexBits := indexBits

/-- Results and final state of successive calls of `scheduleMeshExtraction`. -/
def scheduleAll : MeshExtractor → List IVec3 → List Bool × MeshExtractor
  | e, [] => ([], e)
  | e, pos :: rest =>
    ((e.scheduleMeshExtraction pos).1 :: (scheduleAll (e.scheduleMeshExtraction pos).2 rest).1,
      (scheduleAll (e.scheduleMeshExtraction pos).2 rest).2)

/-- The first box lies inside the second: the query box `q` covers `box`. -/
def AABB.coveredBy (box q : AABB) : Prop :=
  q.mins.x ≤ box.mins.x ∧ q.mins.y ≤ box.mins.y ∧ q.mins.z ≤ box.mins.z ∧
  box.maxs.x ≤ q.maxs.x ∧ box.maxs.y ≤ q.maxs.y ∧ box.maxs.z ≤ q.maxs.z

instance (box q : AABB) : Decidable (box.coveredBy q) := by
  unfold AABB.coveredBy
  exact inferInstance

/-- Every slot referenced by the index is a slot of the pool and is occupied. -/
def IndexedOccupied {E : Type} (s : WorldChunkMgr E) : Prop :=
  ∀ entry ∈ s.octree.contents, ∃ c : ChunkBuffer,
    s.chunkBuffers[entry.1]? = some c ∧ c.inuse = true

/-! ## `core/Var.h` -/

/-- Entry `Var::Value` of the history of a variable: `_intValue`, `_longValue` and the
string `_value` (the `float` member `_floatValue` is left out). -/
structure Var.Value where
  intValue : Int
  longValue : Int
  value : String
deriving DecidableEq, Repr, Inhabited

/-- Members of `core::Var` read by the accessors of `Var.h`: `_name`, `_flags`, `_history`,
`_currentHistoryPos`, `_dirty`. -/
structure Var where
  name : String
  flags : Nat
  history : List Var.Value
  currentHistoryPos : Nat
  dirty : Bool
deriving DecidableEq, Repr

/-- Function `Var::strVal` (lines 325-327): `_history[_currentHistoryPos]._value`. -/
def Var.strVal (v : Var) : String :=
  (v.history.getD v.currentHistoryPos default).value

/-- Function `Var::boolVal` (lines 317-319). -/
def Var.boolVal (v : Var) : Bool :=
  (v.history.getD v.currentHistoryPos default).value == "true" ||
    (v.history.getD v.currentHistoryPos default).value == "1"

/-- Function `Var::typeIsBool` (lines 321-323). -/
def Var.typeIsBool (v : Var) : Bool :=
  (v.history.getD v.currentHistoryPos default).value == "true" ||
    (v.history.getD v.currentHistoryPos default).value == "1" ||
    (v.history.getD v.currentHistoryPos default).value == "false" ||
    (v.history.getD v.currentHistoryPos default).value == "0"

/-- Variable whose history is the one given string value. -/
def sampleVar (value : String) : Var :=
  ⟨"cl_sample", 0, [⟨0, 0, value⟩], 0, false⟩

/-! ## `voxel/Mesh.cpp`: comparison -/

/-- Function `Mesh::operator<` (lines 151-153): `glm::all(glm::lessThan(a, b))` on the
offsets. -/
def Mesh.lt (a rhs : Mesh) : Bool :=
  decide (a.getOffset.x < rhs.getOffset.x) && decide (a.getOffset.y < rhs.getOffset.y) &&
    decide (a.getOffset.z < rhs.getOffset.z)

/-! ## `voxel/Mesh.cpp`: building and compacting a mesh

`core_assert_msg` is a debug assertion: the assertions of `addTriangle` and `addVertex` are
predicates of their own (`asserts`), next to the function bodies.  `capacity` stands for
`capacity()` of the vector the call appends to.  An access outside of a vector is undefined
behaviour in the source: `removeUnusedVertices` returns `none` there.  Its counter
`int noOfUsedVertices` wraps like every `int` computation of this development. -/

instance : Inhabited VoxelVertex := ⟨⟨⟨0, 0, 0⟩, 0⟩⟩

/-- Function `Mesh::getNoOfVertices` (lines 40-42). -/
def Mesh.getNoOfVertices (m : Mesh) : Nat :=
  m.vecVertices.length

/-- Function `Mesh::getNoOfIndices` (lines 52-54). -/
def Mesh.getNoOfIndices (m : Mesh) : Nat :=
  m.vecIndices.length

/-- Function `Mesh::clear` (lines 72-76). -/
def Mesh.clear (m : Mesh) : Mesh :=
  { m with vecVertices := [], vecIndices := [], offset := ⟨0, 0, 0⟩ }

/-- Function `Mesh::isEmpty` (lines 78-80). -/
def Mesh.isEmpty (m : Mesh) : Bool :=
  m.getNoOfVertices == 0 || m.getNoOfIndices == 0

/-- The three index assertions of `Mesh::addTriangle` (lines 84-86). -/
def Mesh.addTriangle.indexAsserts (m : Mesh) (index0 index1 index2 : Nat) : Bool :=
  decide (index0 < m.vecVertices.length) && decide (index1 < m.vecVertices.length) &&
    decide (index2 < m.vecVertices.length)

/-- All assertions of `Mesh::addTriangle` (lines 84-89). -/
def Mesh.addTriangle.asserts (capacity : Nat) (m : Mesh) (index0 index1 index2 : Nat) : Bool :=
  Mesh.addTriangle.indexAsserts m index0 index1 index2 &&
    (m.mayGetResized || decide (m.vecIndices.length + 3 < capacity))

/-- Function `Mesh::addTriangle` (lines 91-93): the three `push_back` calls. -/
def Mesh.addTriangle (m : Mesh) (index0 index1 index2 : Nat) : Mesh :=
  { m with vecIndices := ((m.vecIndices ++ [index0]) ++ [index1]) ++ [index2] }

/-- The assertions of `Mesh::addVertex` (lines 98-101); `2 ^ indexBits - 1` is
`std::numeric_limits<IndexType>::max()`. -/
def Mesh.addVertex.asserts (capacity indexBits : Nat) (m : Mesh) : Bool :=
  decide (m.vecVertices.length < 2 ^ indexBits - 1) &&
    (m.mayGetResized || decide (m.vecVertices.length + 1 < capacity))

/-- Function `Mesh::addVertex` (lines 103-104): the returned value is
`(IndexType)_vecVertices.size() - 1`, computed after the `push_back` in the index type:
modulo `2 ^ indexBits`. -/
def Mesh.addVertex (indexBits : Nat) (m : Mesh) (vertex : VoxelVertex) : Nat × Mesh :=
  let vecVertices := m.vecVertices ++ [vertex]
  ((vecVertices.length % 2 ^ indexBits + 2 ^ indexBits - 1) % 2 ^ indexBits,
    { m with vecVertices := vecVertices })

/-- Call `std::vector::resize(n)`: the first `n` elements, filled up with value-initialised
ones. -/
def resize {α : Type} [Inhabited α] (vec : List α) (n : Nat) : List α :=
  vec.take n ++ List.replicate (n - vec.length) default

/-- First loop of `Mesh::removeUnusedVertices` (lines 121-124): `isVertexUsed[v] = true` for
every index `v` in turn. -/
def Mesh.removeUnusedVertices.markUsed : List Nat → List Bool → Option (List Bool)
  | [], isVertexUsed => some isVertexUsed
  | v :: rest, isVertexUsed =>
    if v < isVertexUsed.length then
      Mesh.removeUnusedVertices.markUsed rest (isVertexUsed.set v true)
    else none

/-- Variables written by the second loop of `Mesh::removeUnusedVertices`. -/
structure Mesh.removeUnusedVertices.State where
  vecVertices : List VoxelVertex
  mins : IVec3
  maxs : IVec3
  noOfUsedVertices : Int
  newPos : List Nat
deriving DecidableEq, Repr

/-- Second loop of `Mesh::removeUnusedVertices` (lines 131-141), with `todo` iterations left
at `vertCt`. -/
def Mesh.removeUnusedVertices.compact (indexBits : Nat) (isVertexUsed : List Bool) :
    Nat → Nat → Mesh.removeUnusedVertices.State → Option Mesh.removeUnusedVertices.State
  | 0, _, st => some st
  | todo + 1, vertCt, st =>
    match isVertexUsed[vertCt]? with
    | none => none
    | some false => Mesh.removeUnusedVertices.compact indexBits isVertexUsed todo (vertCt + 1) st
    | some true =>
      match st.vecVertices[vertCt]? with
      | none => none
      | some v =>
        if 0 ≤ st.noOfUsedVertices ∧ st.noOfUsedVertices.toNat < st.vecVertices.length ∧
            vertCt < st.newPos.length then
          Mesh.removeUnusedVertices.compact indexBits isVertexUsed todo (vertCt + 1)
            ⟨st.vecVertices.set st.noOfUsedVertices.toNat v,
              IVec3.min st.mins v.position, IVec3.max st.maxs v.position,
              wrapInt32 (st.noOfUsedVertices + 1),
              st.newPos.set vertCt (st.noOfUsedVertices % ((2 ^ indexBits : Nat) : Int)).toNat⟩
        else none

/-- Third loop of `Mesh::removeUnusedVertices` (lines 145-147):
`_vecIndices[triCt] = newPos[_vecIndices[triCt]]`. -/
def Mesh.removeUnusedVertices.remap (newPos : List Nat) : List Nat → Option (List Nat)
  | [] => some []
  | v :: rest =>
    match newPos[v]?, Mesh.removeUnusedVertices.remap newPos rest with
    | some p, some tail => some (p :: tail)
    | _, _ => none

/-- Function `Mesh::removeUnusedVertices` (lines 115-149). -/
def Mesh.removeUnusedVertices (indexBits : Nat) (m : Mesh) : Option Mesh :=
  let vertices := m.vecVertices.length
  let indices := m.vecIndices.length
  match Mesh.removeUnusedVertices.markUsed m.vecIndices (List.replicate vertices false) with
  | none => none
  | some isVertexUsed =>
    match Mesh.removeUnusedVertices.compact indexBits isVertexUsed vertices 0
        ⟨m.vecVertices, ⟨INT_MAX, INT_MAX, INT_MAX⟩, ⟨INT_MIN, INT_MIN, INT_MIN⟩, 0,
          List.replicate vertices 0⟩ with
    | none => none
    | some st =>
      if st.noOfUsedVertices < 0 then none
      else
        match Mesh.removeUnusedVertices.remap st.newPos m.vecIndices with
        | none => none
        | some vecIndices =>
          some { m with
            vecVertices := resize st.vecVertices st.noOfUsedVertices.toNat
            vecIndices := resize vecIndices indices
            mins := st.mins
            maxs := st.maxs }

/-- One call of the interface of `Mesh` that changes the mesh. -/
inductive Mesh.Call where
  | addVertex (capacity : Nat) (vertex : VoxelVertex)
  | addTriangle (capacity : Nat) (index0 index1 index2 : Nat)
  | removeUnusedVertices
  | clear
deriving DecidableEq, Repr

/-- The mesh after one call that passes its assertions and stays inside of the vectors. -/
def Mesh.call (indexBits : Nat) (m : Mesh) : Mesh.Call → Option Mesh
  | .addVertex capacity vertex =>
    if Mesh.addVertex.asserts capacity indexBits m then some (Mesh.addVertex indexBits m vertex).2
    else none
  | .addTriangle capacity index0 index1 index2 =>
    if Mesh.addTriangle.asserts capacity m index0 index1 index2 then
      some (Mesh.addTriangle m index0 index1 index2)
    else none
  | .removeUnusedVertices => Mesh.removeUnusedVertices indexBits m
  | .clear => some m.clear

/-- The mesh after a sequence of calls. -/
def Mesh.calls (indexBits : Nat) : Mesh → List Mesh.Call → Option Mesh
  | m, [] => some m
  | m, c :: rest =>
    match Mesh.call indexBits m c with
    | none => none
    | some m1 => Mesh.calls indexBits m1 rest

/-- Flags of the referenced vertices: position `j` holds whether an index equals `j`. -/
def usedFlags (indices : List Nat) (vertices : Nat) : List Bool :=
  (List.range vertices).map (fun j => decide (j ∈ indices))

/-- The vertices whose flag is set, in their order. -/
def keepUsed : List VoxelVertex → List Bool → List VoxelVertex
  | v :: vs, true :: flags => v :: keepUsed vs flags
  | _ :: vs, false :: flags => keepUsed vs flags
  | _, _ => []

/-- Number of set flags before position `j`. -/
def usedBefore (flags : List Bool) (j : Nat) : Nat :=
  (flags.take j).count true

/-- The vertices of the mesh that an index of the mesh references, in their order. -/
def referencedVertices (m : Mesh) : List VoxelVertex :=
  (m.vecVertices.enum.filter (fun p => decide (p.1 ∈ m.vecIndices))).map Prod.snd

/-- The vertex an index position of the mesh selects. -/
def selectedVertex (m : Mesh) (i : Nat) : Option VoxelVertex :=
  match m.vecIndices[i]? with
  | none => none
  | some v => m.vecVertices[v]?

/-- Mesh without vertices and indices, as the constructor of `Mesh` leaves it. -/
def emptyMesh (mayGetResized : Bool) : Mesh :=
  ⟨[], [], ⟨0, 0, 0⟩, ⟨0, 0, 0⟩, ⟨0, 0, 0⟩, mayGetResized⟩

/-- Mesh of the given vertices and indices. -/
def sampleMesh (vertices : List VoxelVertex) (indices : List Nat) : Mesh :=
  ⟨indices, vertices, ⟨0, 0, 0⟩, ⟨0, 0, 0⟩, ⟨0, 0, 0⟩, true⟩

/-- Fold of `glm::min` over the positions of the vertices, from `INT_MAX`. -/
def lowerCorner (vertices : List VoxelVertex) : IVec3 :=
  vertices.foldl (fun a v => IVec3.min a v.position) ⟨INT_MAX, INT_MAX, INT_MAX⟩

/-- Fold of `glm::max` over the positions of the vertices, from `INT_MIN`. -/
def upperCorner (vertices : List VoxelVertex) : IVec3 :=
  vertices.foldl (fun a v => IVec3.max a v.position) ⟨INT_MIN, INT_MIN, INT_MIN⟩

/-- The mesh reduced to its referenced vertices: every index renumbered to the number of
referenced vertices before the vertex it selects, the bounds taken over the referenced
vertices. -/
def compacted (m : Mesh) : Mesh :=
  { m with
    vecVertices := keepUsed m.vecVertices (usedFlags m.vecIndices m.vecVertices.length)
    vecIndices := m.vecIndices.map (usedBefore (usedFlags m.vecIndices m.vecVertices.length))
    mins := lowerCorner (keepUsed m.vecVertices (usedFlags m.vecIndices m.vecVertices.length))
    maxs := upperCorner (keepUsed m.vecVertices (usedFlags m.vecIndices m.vecVertices.length)) }

/-- State of the second loop of `Mesh::removeUnusedVertices` before the iteration at `c`:
the referenced vertices among the first `c` stand at the front, the vertices from `c` on are
untouched, and `newPos` is filled in for the referenced positions below `c`. -/
structure CompactInv (indexBits : Nat) (flags : List Bool) (orig : List VoxelVertex) (c : Nat)
    (st : Mesh.removeUnusedVertices.State) : Prop where
  len : st.vecVertices.length = orig.length
  posLen : st.newPos.length = orig.length
  rest : st.vecVertices.drop c = orig.drop c
  count : st.noOfUsedVertices = ((usedBefore flags c : Nat) : Int)
  bound : usedBefore flags c ≤ 2147483647
  kept : st.vecVertices.take (usedBefore flags c) = keepUsed (orig.take c) (flags.take c)
  pos : ∀ j, j < c → flags[j]? = some true →
    st.newPos[j]? = some (usedBefore flags j % 2 ^ indexBits)
  mins : st.mins = lowerCorner (keepUsed (orig.take c) (flags.take c))
  maxs : st.maxs = upperCorner (keepUsed (orig.take c) (flags.take c))

/-- The call appends to the mesh: `addVertex` or `addTriangle`. -/
def Mesh.Call.appends : Mesh.Call → Bool
  | .addVertex _ _ => true
  | .addTriangle _ _ _ _ => true
  | .removeUnusedVertices => false
  | .clear => false

/-- Index validity of a mesh: every stored index is smaller than the vertex count, the
index count is a multiple of 3 and the vertex count is at most the largest value of the
index type. -/
structure MeshInv (indexBits : Nat) (m : Mesh) : Prop where
  valid : ∀ v ∈ m.vecIndices, v < m.vecVertices.length
  triangles : m.vecIndices.length % 3 = 0
  fits : m.vecVertices.length ≤ 2 ^ indexBits - 1

/-! ## `voxelformat/VXMFormat.cpp`

`io::FileStream`, `voxel::Region`, `voxel::RawVolume`, `MaxRegionSize` and
`findClosestIndex` are declared outside of the available sources.  The stream is an abstract
state `S` with the read operations of `VXMFormat.Env`; a read returns `none` where the source
receives a result other than 0 (`readString`: other than `true`).  A `float` is a value of
the abstract type `F`.  A volume is the list of the `setVoxel` calls it received.  The two
`for (;;)` loops end when the stream does; they take the number of iterations they may use
as `fuel` and stop as `unfinished` when it is used up. -/

/-- Unsigned vector `glm::uvec3`. -/
structure UVec3 where
  x : Nat
  y : Nat
  z : Nat
deriving DecidableEq, Repr

/-- The declarations `VXMFormat::loadGroups` uses from outside of the available sources:
the reads of `io::FileStream`, the conversion of a `float` to `int`,
`findClosestIndex(core::Color::fromRGBA(red, green, blue, alpha))`, `Region::getCenter` of
the region with the given corners, and `MaxRegionSize`. -/
structure VXMFormat.Env (S F : Type) where
  readByte : S → Option (Nat × S)
  readInt : S → Option (Nat × S)
  readFloat : S → Option (F × S)
  readString : Nat → S → Option S
  skip : Nat → S → S
  toInt : F → Int
  findClosestIndex : Nat → Nat → Nat → Nat → Nat
  getCenter : IVec3 → IVec3 → IVec3
  MaxRegionSize : Nat

/-- How a part of `loadGroups` ends early: with `return false`, or, in the model only, with
the fuel of a `for (;;)` loop used up. -/
inductive VXMFormat.Stop where
  | returnFalse
  | unfinished
deriving DecidableEq, Repr

/-- Macros `wrap` and `wrapBool` (lines 16-26): `return false` when the read failed. -/
def VXMFormat.wrap {α : Type} : Option α → Except VXMFormat.Stop α
  | some a => .ok a
  | none => .error .returnFalse

/-- Enumeration `voxel::VoxelType`, the two values `loadGroups` uses. -/
inductive VoxelType where
  | Air
  | Generic
deriving DecidableEq, Repr

/-- Result of `createColorVoxel(voxelType, index)`. -/
structure Voxel where
  material : VoxelType
  color : Nat
deriving DecidableEq, Repr

/-- Volume `voxel::RawVolume` of a region from `mins` to `maxs`, with the `setVoxel` calls
it received, in their order. -/
structure RawVolume where
  mins : IVec3
  maxs : IVec3
  voxels : List (IVec3 × Voxel)
deriving DecidableEq, Repr

/-- Call `RawVolume::setVoxel(x, y, z, voxel)`. -/
def RawVolume.setVoxel (volume : RawVolume) (pos : IVec3) (voxel : Voxel) : RawVolume :=
  { volume with voxels := volume.voxels ++ [(pos, voxel)] }

/-- Entry `VoxelVolume(volume, name, true, ipivot)` of `VoxelVolumes`; the name is
"layer" followed by the number `layer`. -/
structure VoxelVolume where
  volume : RawVolume
  layer : Nat
  visible : Bool
  pivot : IVec3
deriving DecidableEq, Repr

/-- Magic bytes and version (lines 39-62); 86, 88, 77 are 'V', 'X', 'M', 48 and 57 are '0'
and '9', 65 and 67 are 'A' and 'C'. -/
def VXMFormat.readHeader {S F : Type} (env : VXMFormat.Env S F) (stream : S) :
    Except VXMFormat.Stop (Int × S) :=
  match env.readByte stream with
  | none => .error .returnFalse
  | some (magic0, s0) =>
    match env.readByte s0 with
    | none => .error .returnFalse
    | some (magic1, s1) =>
      match env.readByte s1 with
      | none => .error .returnFalse
      | some (magic2, s2) =>
        match env.readByte s2 with
        | none => .error .returnFalse
        | some (magic3, s3) =>
          if magic0 ≠ 86 ∨ magic1 ≠ 88 ∨ magic2 ≠ 77 then .error .returnFalse
          else if 48 ≤ magic3 ∧ magic3 ≤ 57 then
            if (magic3 : Int) - 48 < 4 ∨ (magic3 : Int) - 48 > 12 then .error .returnFalse
            else .ok ((magic3 : Int) - 48, s3)
          else if 65 ≤ magic3 ∧ magic3 ≤ 67 then
            if 10 + (magic3 : Int) - 65 < 4 ∨ 10 + (magic3 : Int) - 65 > 12 then
              .error .returnFalse
            else .ok (10 + (magic3 : Int) - 65, s3)
          else .error .returnFalse

/-- Surface block of the versions from 9 on (lines 83-123); the differences and the product
are computed in `uint32_t`. -/
def VXMFormat.readSurface {S F : Type} (env : VXMFormat.Env S F) (version : Int) (stream : S) :
    Except VXMFormat.Stop S := do
  let (surface, s) ← VXMFormat.wrap (env.readByte stream)
  if surface = 0 then return s
  let (startx, s) ← VXMFormat.wrap (env.readInt s)
  let (starty, s) ← VXMFormat.wrap (env.readInt s)
  let (startz, s) ← VXMFormat.wrap (env.readInt s)
  let (endx, s) ← VXMFormat.wrap (env.readInt s)
  let (endy, s) ← VXMFormat.wrap (env.readInt s)
  let (endz, s) ← VXMFormat.wrap (env.readInt s)
  let (normal, s) ← VXMFormat.wrap (env.readInt s)
  if version ≥ 10 then
    let (skipWidth, s) ← VXMFormat.wrap (env.readInt s)
    let (skipHeight, s) ← VXMFormat.wrap (env.readInt s)
    return env.skip (skipWidth * skipHeight % 4294967296) s
  else
    let skipWidth :=
      if normal = 0 ∨ normal = 1 then (endz + 4294967296 - startz) % 4294967296
      else if normal = 2 ∨ normal = 3 ∨ normal = 4 ∨ normal = 5 then
        (endx + 4294967296 - startx) % 4294967296
      else 0
    let skipHeight :=
      if normal = 0 ∨ normal = 1 ∨ normal = 4 ∨ normal = 5 then
        (endy + 4294967296 - starty) % 4294967296
      else if normal = 2 ∨ normal = 3 then (endz + 4294967296 - startz) % 4294967296
      else 0
    return env.skip (skipWidth * skipHeight % 4294967296) s

/-- Colour runs of a texture up to version 5 (lines 170-186); the counter `px` only feeds a
log message. -/
def VXMFormat.readTexture {S F : Type} (env : VXMFormat.Env S F) :
    Nat → S → Except VXMFormat.Stop S
  | 0, _ => .error .unfinished
  | fuel + 1, stream =>
    match env.readByte stream with
    | none => .error .returnFalse
    | some (rleStride, s) =>
      if rleStride = 0 then .ok s
      else VXMFormat.readTexture env fuel (env.skip 3 s)

/-- Loop over the textures of a level of detail (lines 160-188), `todo` textures left. -/
def VXMFormat.readTextures {S F : Type} (env : VXMFormat.Env S F) (fuel : Nat) (version : Int) :
    Nat → S → Except VXMFormat.Stop S
  | 0, stream => .ok stream
  | todo + 1, stream =>
    match env.readString 1024 stream with
    | none => .error .returnFalse
    | some s =>
      if version ≥ 6 then
        match env.readInt s with
        | none => .error .returnFalse
        | some (texZipped, s1) =>
          VXMFormat.readTextures env fuel version todo (env.skip texZipped s1)
      else
        match VXMFormat.readTexture env fuel s with
        | .error e => .error e
        | .ok s1 => VXMFormat.readTextures env fuel version todo s1

/-- Loop over the six sides (lines 191-204), `todo` sides left. -/
def VXMFormat.readQuads {S F : Type} (env : VXMFormat.Env S F) :
    Nat → S → Except VXMFormat.Stop S
  | 0, stream => .ok stream
  | todo + 1, stream =>
    match env.readInt stream with
    | none => .error .returnFalse
    | some (quadAmount, s) =>
      if quadAmount > 262144 then .error .returnFalse
      else VXMFormat.readQuads env todo (env.skip (quadAmount * 4 * 20) s)

/-- Loop over the levels of detail (lines 138-205), `todo` levels left. -/
def VXMFormat.readLevels {S F : Type} (env : VXMFormat.Env S F) (fuel : Nat) (version : Int) :
    Nat → S → Except VXMFormat.Stop S
  | 0, stream => .ok stream
  | todo + 1, stream => do
    let (textureDimX, s) ← VXMFormat.wrap (env.readInt stream)
    let (textureDimY, s) ← VXMFormat.wrap (env.readInt s)
    if textureDimX > 2048 ∨ textureDimY > 2048 then throw .returnFalse
    let s ←
      if version ≥ 11 then do
        let (size, s) ← VXMFormat.wrap (env.readInt s)
        pure (env.skip size s)
      else do
        let (texAmount, s) ← VXMFormat.wrap (env.readInt s)
        if texAmount > 65535 then throw .returnFalse
        VXMFormat.readTextures env fuel version texAmount s
    let s ← VXMFormat.readQuads env 6 s
    VXMFormat.readLevels env fuel version todo s

/-- Three `readInt` calls into `size` (lines 70-72 and 208-210). -/
def VXMFormat.readSize {S F : Type} (env : VXMFormat.Env S F) (stream : S) :
    Except VXMFormat.Stop (UVec3 × S) := do
  let (x, s) ← VXMFormat.wrap (env.readInt stream)
  let (y, s) ← VXMFormat.wrap (env.readInt s)
  let (z, s) ← VXMFormat.wrap (env.readInt s)
  return (⟨x, y, z⟩, s)

/-- Loop over the chunks of the versions from 11 on (lines 229-234), `todo` chunks left. -/
def VXMFormat.readChunks {S F : Type} (env : VXMFormat.Env S F) :
    Nat → S → Except VXMFormat.Stop S
  | 0, stream => .ok stream
  | todo + 1, stream =>
    match env.readString 1024 stream with
    | none => .error .returnFalse
    | some s => VXMFormat.readChunks env todo (env.skip 1 (env.skip 1 s))

/-- Loop over the materials (lines 242-255), `todo` materials left; the palette so far is
`palette`. -/
def VXMFormat.readPalette {S F : Type} (env : VXMFormat.Env S F) :
    Nat → List Nat → S → Except VXMFormat.Stop (List Nat × S)
  | 0, palette, stream => .ok (palette, stream)
  | todo + 1, palette, stream => do
    let (blue, s) ← VXMFormat.wrap (env.readByte stream)
    let (green, s) ← VXMFormat.wrap (env.readByte s)
    let (red, s) ← VXMFormat.wrap (env.readByte s)
    let (alpha, s) ← VXMFormat.wrap (env.readByte s)
    let (_, s) ← VXMFormat.wrap (env.readByte s)
    VXMFormat.readPalette env todo (palette ++ [env.findClosestIndex red green blue alpha]) s

/-- What `loadGroups` has read before the layers: `size`, `ipivot`, `foundPivot`,
`materialAmount` and `palette`. -/
structure VXMFormat.Preamble where
  size : UVec3
  ipivot : IVec3
  foundPivot : Bool
  materialAmount : Nat
  palette : List Nat
deriving DecidableEq, Repr

/-- Lines 64-255 of `loadGroups`: everything between the version and the layers. -/
def VXMFormat.readPreamble {S F : Type} (env : VXMFormat.Env S F) (fuel : Nat) (version : Int)
    (stream : S) : Except VXMFormat.Stop (VXMFormat.Preamble × S) := do
  let mut s := stream
  let mut foundPivot := false
  let mut ipivot : IVec3 := ⟨0, 0, 0⟩
  let mut size : UVec3 := ⟨0, 0, 0⟩
  if version ≥ 5 then
    if version ≥ 6 then
      let (sz, s1) ← VXMFormat.readSize env s
      size := sz
      s := s1
    let (pivotX, s1) ← VXMFormat.wrap (env.readFloat s)
    let (pivotY, s1) ← VXMFormat.wrap (env.readFloat s1)
    let (pivotZ, s1) ← VXMFormat.wrap (env.readFloat s1)
    s := s1
    ipivot := ⟨env.toInt pivotX, env.toInt pivotY, env.toInt pivotZ⟩
    foundPivot := true
    if version ≥ 9 then
      let s1 ← VXMFormat.readSurface env version s
      s := s1
    if version ≥ 8 then
      let (_, s1) ← VXMFormat.wrap (env.readFloat s)
      let (_, s1) ← VXMFormat.wrap (env.readFloat s1)
      let (_, s1) ← VXMFormat.wrap (env.readFloat s1)
      let (_, s1) ← VXMFormat.wrap (env.readFloat s1)
      s := s1
  let mut lodLevels := 1
  if version ≥ 7 then
    let (levels, s1) ← VXMFormat.wrap (env.readInt s)
    lodLevels := levels
    s := s1
  let s1 ← VXMFormat.readLevels env fuel version lodLevels s
  s := s1
  if version ≤ 5 then
    let (sz, s1) ← VXMFormat.readSize env s
    size := sz
    s := s1
  if size.x > env.MaxRegionSize ∨ size.y > env.MaxRegionSize ∨ size.z > env.MaxRegionSize then
    throw .returnFalse
  if size.x < 1 ∨ size.y < 1 ∨ size.z < 1 then
    throw .returnFalse
  if version ≥ 11 then
    let (chunkAmount, s1) ← VXMFormat.wrap (env.readByte (env.skip 1024 (env.skip 1024 s)))
    let s1 ← VXMFormat.readChunks env chunkAmount s1
    s := s1
  let (materialAmount, s1) ← VXMFormat.wrap (env.readByte s)
  let (palette, s1) ← VXMFormat.readPalette env materialAmount [] s1
  return (⟨size, ipivot, foundPivot, materialAmount, palette⟩, s1)

/-- Lines 292-294: the coordinates `xx`, `yy`, `zz` of the run index `i`, computed in `int`
with the casts `(int)(size.y * size.z)`, `(int)size.z` and `(int)size.y`; the product is
computed in `uint32_t`. -/
def VXMFormat.runCoordinates (size : UVec3) (i : Int) : IVec3 :=
  ⟨Int.tdiv i (wrapInt32 ((size.y * size.z % 4294967296 : Nat) : Int)),
    Int.tmod (Int.tdiv i (wrapInt32 (size.z : Int))) (wrapInt32 (size.y : Int)),
    Int.tmod i (wrapInt32 (size.z : Int))⟩

/-- Line 301: the position `(size.x - 1 - xx, yy, zz)` passed to `setVoxel`; the first
component is computed in `uint32_t` and converted to `int`. -/
def VXMFormat.voxelPosition (size : UVec3) (i : Int) : IVec3 :=
  ⟨wrapInt32 (((size.x : Int) - 1 - (VXMFormat.runCoordinates size i).x) % 4294967296),
    (VXMFormat.runCoordinates size i).y, (VXMFormat.runCoordinates size i).z⟩

/-- Lines 295-300: the voxel of a palette entry. -/
def VXMFormat.paletteVoxel (index : Nat) : Voxel :=
  ⟨if index = 0 then VoxelType.Air else VoxelType.Generic, index⟩

/-- Loop over the run indices (lines 291-302): `i` runs while `i < bound`; `todo` is the
length of the run. -/
def VXMFormat.writeRun (size : UVec3) (voxel : Voxel) (bound : Int) :
    Nat → Int → RawVolume → RawVolume
  | 0, _, volume => volume
  | todo + 1, i, volume =>
    if i < bound then
      VXMFormat.writeRun size voxel bound todo (wrapInt32 (i + 1))
        (volume.setVoxel (VXMFormat.voxelPosition size i) voxel)
    else volume

/-- Loop over the runs of a layer (lines 271-304). -/
def VXMFormat.readRuns {S F : Type} (env : VXMFormat.Env S F) (size : UVec3)
    (materialAmount : Nat) (palette : List Nat) :
    Nat → Int → RawVolume → S → Except VXMFormat.Stop (RawVolume × S)
  | 0, _, _, _ => .error .unfinished
  | fuel + 1, idx, volume, stream =>
    match env.readByte stream with
    | none => .error .returnFalse
    | some (length, s) =>
      if length = 0 then .ok (volume, s)
      else
        match env.readByte s with
        | none => .error .returnFalse
        | some (matIdx, s1) =>
          if matIdx = 255 then
            VXMFormat.readRuns env size materialAmount palette fuel
              (wrapInt32 (idx + length)) volume s1
          else if matIdx ≥ materialAmount then
            VXMFormat.readRuns env size materialAmount palette fuel
              (wrapInt32 (idx + length)) volume s1
          else
            VXMFormat.readRuns env size materialAmount palette fuel
              (wrapInt32 (idx + length))
              (VXMFormat.writeRun size (VXMFormat.paletteVoxel (palette.getD matIdx 0))
                (wrapInt32 (idx + length)) length idx volume) s1

/-- Loop over the layers (lines 268-307), `todo` layers left at `layer`; the volumes pushed
so far are returned also when a read fails. -/
def VXMFormat.readLayers {S F : Type} (env : VXMFormat.Env S F) (fuel : Nat) (size : UVec3)
    (materialAmount : Nat) (palette : List Nat) (maxs ipivot : IVec3) :
    Nat → Nat → S → List VoxelVolume → List VoxelVolume × Except VXMFormat.Stop S
  | 0, _, stream, volumes => (volumes, .ok stream)
  | todo + 1, layer, stream, volumes =>
    match VXMFormat.readRuns env size materialAmount palette fuel 0 ⟨⟨0, 0, 0⟩, maxs, []⟩
        stream with
    | .error e => (volumes, .error e)
    | .ok (volume, s) =>
      VXMFormat.readLayers env fuel size materialAmount palette maxs ipivot todo
        ((layer + 1) % 256) s (volumes ++ [⟨volume, layer, true, ipivot⟩])

/-- Surface block at the end of the versions from 10 on (lines 309-324). -/
def VXMFormat.readTrailer {S F : Type} (env : VXMFormat.Env S F) (version : Int) (stream : S) :
    Except VXMFormat.Stop S := do
  if version ≥ 10 then
    let (surface, s) ← VXMFormat.wrap (env.readByte stream)
    if surface = 0 then return s
    let (_, s) ← VXMFormat.wrap (env.readInt s)
    let (_, s) ← VXMFormat.wrap (env.readInt s)
    let (_, s) ← VXMFormat.wrap (env.readInt s)
    let (_, s) ← VXMFormat.wrap (env.readInt s)
    let (_, s) ← VXMFormat.wrap (env.readInt s)
    let (_, s) ← VXMFormat.wrap (env.readInt s)
    let (_, s) ← VXMFormat.wrap (env.readInt s)
    return s
  else return stream

/-- Upper corner of the region of line 257: `glm::ivec3(size) - 1`. -/
def VXMFormat.regionMaxs (size : UVec3) : IVec3 :=
  ⟨wrapInt32 (wrapInt32 (size.x : Int) - 1), wrapInt32 (wrapInt32 (size.y : Int) - 1),
    wrapInt32 (wrapInt32 (size.z : Int) - 1)⟩

/-- Function `VXMFormat::loadGroups` (lines 32-328).  `file` is `none` for a null pointer or
a file that does not exist.  The result is the returned flag and `volumes` after the call;
it is `none` when a `for (;;)` loop used up the fuel. -/
def VXMFormat.loadGroups {S F : Type} (env : VXMFormat.Env S F) (fuel : Nat) (file : Option S)
    (volumes : List VoxelVolume) : Option (Bool × List VoxelVolume) :=
  match file with
  | none => some (false, volumes)
  | some stream =>
    match VXMFormat.readHeader env stream with
    | .error .unfinished => none
    | .error .returnFalse => some (false, volumes)
    | .ok (version, s) =>
      match VXMFormat.readPreamble env fuel version s with
      | .error .unfinished => none
      | .error .returnFalse => some (false, volumes)
      | .ok (pre, s1) =>
        let maxs := VXMFormat.regionMaxs pre.size
        let ipivot := if pre.foundPivot then pre.ipivot else env.getCenter ⟨0, 0, 0⟩ maxs
        match (if version > 12 then env.readByte s1 else some (1, s1)) with
        | none => some (false, volumes)
        | some (maxLayers, s2) =>
          match VXMFormat.readLayers env fuel pre.size pre.materialAmount pre.palette maxs
              ipivot maxLayers 0 s2 volumes with
          | (_, .error .unfinished) => none
          | (pushed, .error .returnFalse) => some (false, pushed)
          | (pushed, .ok s3) =>
            match VXMFormat.readTrailer env version s3 with
            | .error .unfinished => none
            | .error .returnFalse => some (false, pushed)
            | .ok _ => some (true, pushed)

/-- Stream over a list of bytes: `readByte` takes one byte, `readInt` and `readFloat` four
(least significant first), `readString` the bytes up to the first 0, `skip` drops bytes. -/
def byteStream (maxRegionSize : Nat) : VXMFormat.Env (List Nat) Nat where
  readByte := fun s =>
    match s with
    | b :: rest => some (b, rest)
    | [] => none
  readInt := fun s =>
    match s with
    | b0 :: b1 :: b2 :: b3 :: rest => some (b0 + 256 * b1 + 65536 * b2 + 16777216 * b3, rest)
    | _ => none
  readFloat := fun s =>
    match s with
    | b0 :: b1 :: b2 :: b3 :: rest => some (b0 + 256 * b1 + 65536 * b2 + 16777216 * b3, rest)
    | _ => none
  readString := fun _ s =>
    if 0 ∈ s then some ((s.dropWhile (fun b => b != 0)).drop 1) else none
  skip := fun n s => s.drop n
  toInt := fun _ => 0
  findClosestIndex := fun red _ _ _ => red
  getCenter := fun mins maxs =>
    ⟨Int.tdiv (mins.x + maxs.x) 2, Int.tdiv (mins.y + maxs.y) 2, Int.tdiv (mins.z + maxs.z) 2⟩
  MaxRegionSize := maxRegionSize

/-- A file of version 4: the magic bytes, no texture, no quads on the six sides, the size
2 x 1 x 2, a palette of one colour, a run of two voxels of that colour and the end of the
runs. -/
def sampleFile : List Nat :=
  [86, 88, 77, 52,
   1, 0, 0, 0, 1, 0, 0, 0, 0, 0, 0, 0,
   0, 0, 0, 0, 0, 0, 0, 0, 0, 0, 0, 0, 0, 0, 0, 0, 0, 0, 0, 0, 0, 0, 0, 0,
   2, 0, 0, 0, 1, 0, 0, 0, 2, 0, 0, 0,
   1, 10, 20, 30, 255, 0,
   2, 0,
   0]

/-- The four bytes the first four `readByte` calls on the stream return. -/
def VXMFormat.magic {S F : Type} (env : VXMFormat.Env S F) (stream : S) :
    Option (Nat × Nat × Nat × Nat) :=
  match env.readByte stream with
  | none => none
  | some (magic0, s0) =>
    match env.readByte s0 with
    | none => none
    | some (magic1, s1) =>
      match env.readByte s1 with
      | none => none
      | some (magic2, s2) =>
        match env.readByte s2 with
        | none => none
        | some (magic3, _) => some (magic0, magic1, magic2, magic3)

/-- The bytes are 'V', 'X', 'M' followed by one of '4'..'9' or 'A'..'C'. -/
def VXMFormat.acceptedMagic (magic : Nat × Nat × Nat × Nat) : Bool :=
  magic.1 == 86 && magic.2.1 == 88 && magic.2.2.1 == 77 &&
    ((decide (52 ≤ magic.2.2.2) && decide (magic.2.2.2 ≤ 57)) ||
      (decide (65 ≤ magic.2.2.2) && decide (magic.2.2.2 ≤ 67)))

/-- The version the claim assigns to the fourth byte: '4'..'9' are 4..9, 'A'..'C' are
10..12. -/
def VXMFormat.versionOf (magic3 : Nat) : Int :=
  if magic3 ≤ 57 then (magic3 : Int) - 48 else (magic3 : Int) - 55

/-! # Theorems -/

/-! ## Slot selection -/

theorem findChunkBuffer_none_iff (T : IVec3) (bufs : List ChunkBuffer) (i : Nat)
    (free : Option Nat) :
    handleMeshQueue.findChunkBuffer T bufs i free = none ↔
      free = none ∧ ∀ c ∈ bufs, c.translation ≠ T ∧ c.inuse = true := by
  induction bufs generalizing i free with
  | nil => simp [handleMeshQueue.findChunkBuffer]
  | cons b bs ih =>
    simp only [handleMeshQueue.findChunkBuffer]
    by_cases hT : b.translation = T
    · simp [hT]
    · simp only [hT, if_false, ih]
      cases free <;> cases hb : b.inuse <;> simp [hb, hT]

theorem findChunkBuffer_bounds (T : IVec3) (bufs : List ChunkBuffer) (i : Nat)
    (free : Option Nat) (j : Nat)
    (h : handleMeshQueue.findChunkBuffer T bufs i free = some j) :
    free = some j ∨ (i ≤ j ∧ j < i + bufs.length) := by
  induction bufs generalizing i free with
  | nil => simp [handleMeshQueue.findChunkBuffer] at h; exact Or.inl h
  | cons b bs ih =>
    simp only [handleMeshQueue.findChunkBuffer] at h
    by_cases hT : b.translation = T
    · simp [hT] at h
      right; simp; omega
    · simp only [hT, if_false] at h
      rcases ih _ _ h with h1 | h1
      · by_cases hc : (free.isNone && !b.inuse) = true
        · simp [hc] at h1
          right; simp; omega
        · simp [hc] at h1
          exact Or.inl h1
      · right; simp; omega

/-- When a slot at position `i + k` has the translation and none before it has, the loop
selects it. -/
theorem findChunkBuffer_match (T : IVec3) (bufs : List ChunkBuffer) (i : Nat)
    (free : Option Nat) (k : Nat) (cb : ChunkBuffer)
    (hk : bufs[k]? = some cb) (hT : cb.translation = T)
    (hfirst : ∀ m c, m < k → bufs[m]? = some c → c.translation ≠ T) :
    handleMeshQueue.findChunkBuffer T bufs i free = some (i + k) := by
  induction bufs generalizing i free k with
  | nil => simp at hk
  | cons b bs ih =>
    simp only [handleMeshQueue.findChunkBuffer]
    cases k with
    | zero =>
      simp at hk
      subst hk
      simp [hT]
    | succ k =>
      have hb : b.translation ≠ T := hfirst 0 b (Nat.succ_pos k) (by simp)
      simp only [hb, if_false]
      simp only [List.getElem?_cons_succ] at hk
      have := ih (i + 1) (if (free.isNone && !b.inuse) = true then some i else free) k hk
        (fun m c hm hc => hfirst (m + 1) c (by omega) (by simpa using hc))
      rw [this]
      congr 1
      omega

/-- When no slot has the translation, the loop returns the candidate it started with or,
without one, the first free slot. -/
theorem findChunkBuffer_nomatch (T : IVec3) (bufs : List ChunkBuffer) (i : Nat)
    (free : Option Nat) (hno : ∀ c ∈ bufs, c.translation ≠ T) :
    handleMeshQueue.findChunkBuffer T bufs i free =
      match free with
      | some f => some f
      | none => findFreeChunkBuffer.loop bufs i := by
  induction bufs generalizing i free with
  | nil => cases free <;> simp [handleMeshQueue.findChunkBuffer, findFreeChunkBuffer.loop]
  | cons b bs ih =>
    have hb : b.translation ≠ T := hno b (List.mem_cons_self _ _)
    have hbs : ∀ c ∈ bs, c.translation ≠ T := fun c hc => hno c (List.mem_cons_of_mem _ hc)
    simp only [handleMeshQueue.findChunkBuffer, hb, if_false, ih _ _ hbs,
      findFreeChunkBuffer.loop]
    cases free <;> cases hu : b.inuse <;> simp

/-- The loop of `findFreeChunkBuffer` returns the first slot that is not in use. -/
theorem findFreeLoop_first (bufs : List ChunkBuffer) (i k : Nat) (cb : ChunkBuffer)
    (hk : bufs[k]? = some cb) (hfree : cb.inuse = false)
    (hfirst : ∀ m c, m < k → bufs[m]? = some c → c.inuse = true) :
    findFreeChunkBuffer.loop bufs i = some (i + k) := by
  induction bufs generalizing i k with
  | nil => simp at hk
  | cons b bs ih =>
    simp only [findFreeChunkBuffer.loop]
    cases k with
    | zero =>
      simp at hk
      subst hk
      simp [hfree]
    | succ k =>
      have hb : b.inuse = true := hfirst 0 b (Nat.succ_pos k) (by simp)
      simp only [List.getElem?_cons_succ] at hk
      simp only [hb, Bool.not_true, Bool.false_eq_true, if_false]
      rw [ih (i + 1) k hk (fun m c hm hc => hfirst (m + 1) c (by omega) (by simpa using hc))]
      congr 1
      omega

theorem updateAABB_inuse (cb : ChunkBuffer) : (updateAABB cb).inuse = cb.inuse := rfl

theorem updateAABB_meshes (cb : ChunkBuffer) : (updateAABB cb).meshes = cb.meshes := rfl

theorem storedSlot_translation (cb : ChunkBuffer) (meshes : ChunkMeshes) :
    (storedSlot cb meshes).translation = meshes.translation := rfl

/-- Closed form of `handleMeshQueue.store` when the loop selected slot `i`. -/
theorem store_of_found {E : Type} (env : Env E) (s : WorldChunkMgr E) (meshes : ChunkMeshes)
    (i : Nat) (cb : ChunkBuffer)
    (hsel : handleMeshQueue.findChunkBuffer meshes.translation s.chunkBuffers 0 none = some i)
    (hcb : s.chunkBuffers[i]? = some cb) :
    handleMeshQueue.store env s meshes =
      { s with
        chunkBuffers := s.chunkBuffers.set i (storedSlot cb meshes)
        octree := (s.octree.insert env.octreeLimit i (storedSlot cb meshes).aabb).2
        activeChunkBuffers :=
          if cb.inuse then s.activeChunkBuffers else s.activeChunkBuffers + 1 } := by
  unfold handleMeshQueue.store
  simp only [hsel, hcb]
  cases hu : cb.inuse
  · simp [updateAABB_inuse, hu, storedSlot, updateAABB]
  · have : storedSlot cb meshes = updateAABB { cb with meshes := meshes } := by
      simp [storedSlot, updateAABB, hu]
    simp [updateAABB_inuse, hu, this]

/-- The selected position is a position of the pool. -/
theorem findChunkBuffer_lt (T : IVec3) (bufs : List ChunkBuffer) (i : Nat)
    (h : handleMeshQueue.findChunkBuffer T bufs 0 none = some i) : i < bufs.length := by
  rcases findChunkBuffer_bounds T bufs 0 none i h with h1 | h1
  · cases h1
  · omega

theorem store_of_none {E : Type} (env : Env E) (s : WorldChunkMgr E) (meshes : ChunkMeshes)
    (hsel : handleMeshQueue.findChunkBuffer meshes.translation s.chunkBuffers 0 none = none) :
    handleMeshQueue.store env s meshes = s := by
  unfold handleMeshQueue.store
  simp only [hsel]

/-- C1 (amended).  For every pool state and every completed mesh with translation T the
loop of `handleMeshQueue` selects the first slot in slot order whose translation is T,
whether that slot is occupied or free; when no slot has translation T it selects the first
free slot in slot order (the result of `findFreeChunkBuffer`); when no slot has translation
T and no slot is free it selects none.  The mesh is stored in the selected slot and in no
other slot, and with no selected slot the state is left as it is. -/
theorem C1_slot_selection {E : Type} (env : Env E) (s : WorldChunkMgr E)
    (meshes : ChunkMeshes) :
    (∀ i cb, s.chunkBuffers[i]? = some cb → cb.translation = meshes.translation →
        (∀ m c, m < i → s.chunkBuffers[m]? = some c → c.translation ≠ meshes.translation) →
        handleMeshQueue.findChunkBuffer meshes.translation s.chunkBuffers 0 none = some i) ∧
    ((∀ c ∈ s.chunkBuffers, c.translation ≠ meshes.translation) →
        handleMeshQueue.findChunkBuffer meshes.translation s.chunkBuffers 0 none =
          findFreeChunkBuffer s) ∧
    (∀ i cb, s.chunkBuffers[i]? = some cb → cb.inuse = false →
        (∀ m c, m < i → s.chunkBuffers[m]? = some c → c.inuse = true) →
        findFreeChunkBuffer s = some i) ∧
    ((∀ c ∈ s.chunkBuffers, c.translation ≠ meshes.translation ∧ c.inuse = true) →
        handleMeshQueue.findChunkBuffer meshes.translation s.chunkBuffers 0 none = none) ∧
    (∀ i, handleMeshQueue.findChunkBuffer meshes.translation s.chunkBuffers 0 none = some i →
        (∃ stored, (handleMeshQueue.store env s meshes).chunkBuffers[i]? = some stored ∧
          stored.meshes = meshes ∧ stored.inuse = true) ∧
        ∀ j, j ≠ i →
          (handleMeshQueue.store env s meshes).chunkBuffers[j]? = s.chunkBuffers[j]?) ∧
    (handleMeshQueue.findChunkBuffer meshes.translation s.chunkBuffers 0 none = none →
        handleMeshQueue.store env s meshes = s) ∧
    (∀ e, env.pop s.meshExtractor = (some meshes, e) →
        handleMeshQueue env s =
          handleMeshQueue.store env { s with meshExtractor := e } meshes) := by
  refine ⟨?_, ?_, ?_, ?_, ?_, ?_, ?_⟩
  · intro i cb hcb hT hfirst
    simpa using findChunkBuffer_match meshes.translation s.chunkBuffers 0 none i cb hcb hT hfirst
  · intro hno
    simpa [findFreeChunkBuffer] using
      findChunkBuffer_nomatch meshes.translation s.chunkBuffers 0 none hno
  · intro i cb hcb hfree hfirst
    simpa [findFreeChunkBuffer] using findFreeLoop_first s.chunkBuffers 0 i cb hcb hfree hfirst
  · intro hall
    exact (findChunkBuffer_none_iff _ _ _ _).2 ⟨rfl, hall⟩
  · intro i hsel
    have hlt := findChunkBuffer_lt _ _ _ hsel
    have hcb : s.chunkBuffers[i]? = some (s.chunkBuffers[i]) := by simp [hlt]
    rw [store_of_found env s meshes i _ hsel hcb]
    refine ⟨⟨storedSlot (s.chunkBuffers[i]) meshes, ?_, rfl, rfl⟩, ?_⟩
    · simp [hlt]
    · intro j hj
      simp [List.getElem?_set_ne (Ne.symm hj)]
  · intro hsel
    exact store_of_none env s meshes hsel
  · intro e he
    simp [handleMeshQueue, he]

/-- C1 (amended), at a concrete input: in the pool with slots (free, A), (free, T) a mesh
for T goes to slot 1, and a mesh for a new translation goes to slot 0, the first free
slot. -/
theorem C1_slot_selection_witness :
    handleMeshQueue.findChunkBuffer (sampleTriangle ⟨20, 0, 0⟩).translation
        [{ sampleFreeSlot with meshes := sampleTriangle ⟨10, 0, 0⟩ },
         { sampleFreeSlot with meshes := sampleTriangle ⟨20, 0, 0⟩ }] 0 none = some 1 ∧
    handleMeshQueue.findChunkBuffer (sampleTriangle ⟨30, 0, 0⟩).translation
        [{ sampleFreeSlot with meshes := sampleTriangle ⟨10, 0, 0⟩ },
         { sampleFreeSlot with meshes := sampleTriangle ⟨20, 0, 0⟩ }] 0 none = some 0 :=
  ⟨(C1_slot_selection (testEnv ⟨1, 1, 1⟩ true false)
      ⟨[{ sampleFreeSlot with meshes := sampleTriangle ⟨10, 0, 0⟩ },
        { sampleFreeSlot with meshes := sampleTriangle ⟨20, 0, 0⟩ }], 0, 100, ⟨[]⟩, [], [], []⟩
      (sampleTriangle ⟨20, 0, 0⟩)).1 1
      { sampleFreeSlot with meshes := sampleTriangle ⟨20, 0, 0⟩ } (by decide) (by decide)
      (by
        intro m c hm hc
        have hm0 : m = 0 := by omega
        subst hm0
        simp at hc
        subst hc
        decide),
   ((C1_slot_selection (testEnv ⟨1, 1, 1⟩ true false)
      ⟨[{ sampleFreeSlot with meshes := sampleTriangle ⟨10, 0, 0⟩ },
        { sampleFreeSlot with meshes := sampleTriangle ⟨20, 0, 0⟩ }], 0, 100, ⟨[]⟩, [], [], []⟩
      (sampleTriangle ⟨30, 0, 0⟩)).2.1 (by decide)).trans (by decide)⟩

/-- C1 (as stated, refuted).  Two meshes A = (10,0,0) and T = (20,0,0) are stored in a pool
of two slots and both are evicted by an `update` far away.  Now no slot is occupied, slot 0
is the first free slot, and a completed mesh for T arrives: `handleMeshQueue` stores it in
slot 1, the free slot that still has translation T, not in the first free slot. -/
theorem C1_counterexample :
    (run (testEnv ⟨1, 1, 1⟩ true false)
        (sampleMgr 2 100
          [sampleTriangle ⟨10, 0, 0⟩, sampleTriangle ⟨20, 0, 0⟩, sampleTriangle ⟨20, 0, 0⟩])
        [Op.handleMeshQueue, Op.handleMeshQueue, Op.update ⟨1000, 0, 0⟩]).map
      (fun s => (slotSummary s, s.meshExtractor)) =
      some ([(false, ⟨10, 0, 0⟩), (false, ⟨20, 0, 0⟩)], [sampleTriangle ⟨20, 0, 0⟩]) ∧
    (run (testEnv ⟨1, 1, 1⟩ true false)
        (sampleMgr 2 100
          [sampleTriangle ⟨10, 0, 0⟩, sampleTriangle ⟨20, 0, 0⟩, sampleTriangle ⟨20, 0, 0⟩])
        [Op.handleMeshQueue, Op.handleMeshQueue, Op.update ⟨1000, 0, 0⟩]).map
      findFreeChunkBuffer = some (some 0) ∧
    (run (testEnv ⟨1, 1, 1⟩ true false)
        (sampleMgr 2 100
          [sampleTriangle ⟨10, 0, 0⟩, sampleTriangle ⟨20, 0, 0⟩, sampleTriangle ⟨20, 0, 0⟩])
        [Op.handleMeshQueue, Op.handleMeshQueue, Op.update ⟨1000, 0, 0⟩]).map
      (fun s => handleMeshQueue.findChunkBuffer ⟨20, 0, 0⟩ s.chunkBuffers 0 none) =
      some (some 1) ∧
    (run (testEnv ⟨1, 1, 1⟩ true false)
        (sampleMgr 2 100
          [sampleTriangle ⟨10, 0, 0⟩, sampleTriangle ⟨20, 0, 0⟩, sampleTriangle ⟨20, 0, 0⟩])
        [Op.handleMeshQueue, Op.handleMeshQueue, Op.update ⟨1000, 0, 0⟩,
         Op.handleMeshQueue]).map slotSummary =
      some [(false, ⟨10, 0, 0⟩), (true, ⟨20, 0, 0⟩)] := by
  decide

/-! ## The loop of `update` -/

theorem UpdateRun.cons_result_eq_some {E : Type} (cb : ChunkBuffer) (r : UpdateRun E)
    (t : List ChunkBuffer × Int × Octree × E) (h : (r.cons cb).result = some t) :
    ∃ t0, r.result = some t0 ∧ t = (cb :: t0.1, t0.2) := by
  unfold UpdateRun.cons at h
  simp only [Option.map_eq_some'] at h
  obtain ⟨t0, h0, h1⟩ := h
  exact ⟨t0, h0, h1.symm⟩

/-- One unfolding of the loop of `update`, by the case the head slot falls in. -/
theorem update_loop_cons {E : Type} (env : Env E) (focusPos : IVec3) (maxD : Int) (i : Nat)
    (cb : ChunkBuffer) (rest : List ChunkBuffer) (active : Int) (octree : Octree) (e : E)
    (calls : List ReExtractionCall) :
    update.loop env focusPos maxD i (cb :: rest) active octree e calls =
      if outOfRange focusPos maxD cb then
        if !(env.allowReExtraction e cb.translation).1 && env.assertAborts then
          ⟨none, calls ++ [⟨i, cb.translation, cb.inuse, octree, active,
            (env.allowReExtraction e cb.translation).1⟩]⟩
        else
          (update.loop env focusPos maxD (i + 1) rest (active - 1) (octree.remove i)
            (env.allowReExtraction e cb.translation).2
            (calls ++ [⟨i, cb.translation, cb.inuse, octree, active,
              (env.allowReExtraction e cb.translation).1⟩])).cons { cb with inuse := false }
      else
        (update.loop env focusPos maxD (i + 1) rest active octree e calls).cons cb := by
  simp only [update.loop, outOfRange]
  by_cases hu : cb.inuse = true
  · by_cases hd : getDistanceSquare cb.translation focusPos < maxD <;> simp [hu, hd]
  · simp [hu]

/-- What the loop of `update` returns when it comes to its end: every out-of-range occupied
slot has its flag cleared and all other slots are as before; the count went down by the
number of those slots; the index lost exactly their back-references. -/
theorem update_loop_result {E : Type} (env : Env E) (focusPos : IVec3) (maxD : Int)
    (bufs : List ChunkBuffer) (i : Nat) (active : Int) (octree : Octree) (e : E)
    (calls : List ReExtractionCall) (t : List ChunkBuffer × Int × Octree × E)
    (h : (update.loop env focusPos maxD i bufs active octree e calls).result = some t) :
    t.1 = bufs.map (evictSlot focusPos maxD) ∧
    t.2.1 = active - (bufs.countP (outOfRange focusPos maxD) : Nat) ∧
    (∀ entry, entry ∈ t.2.2.1.contents ↔
      entry ∈ octree.contents ∧
        ¬ ∃ k cb, bufs[k]? = some cb ∧ outOfRange focusPos maxD cb = true ∧
          entry.1 = i + k) := by
  induction bufs generalizing i active octree e calls t with
  | nil =>
    simp only [update.loop, Option.some.injEq] at h
    subst h
    simp
  | cons b bs ih =>
    rw [update_loop_cons] at h
    by_cases ho : outOfRange focusPos maxD b = true
    · simp only [ho, if_true] at h
      by_cases ha : (!(env.allowReExtraction e b.translation).1 && env.assertAborts) = true
      · simp [ha] at h
      · simp only [ha] at h
        obtain ⟨t0, h0, rfl⟩ := UpdateRun.cons_result_eq_some _ _ _ h
        obtain ⟨h1, h2, h3⟩ := ih _ _ _ _ _ _ h0
        refine ⟨?_, ?_, ?_⟩
        · simp [h1, evictSlot, ho]
        · simp only [h2, List.countP_cons, ho, if_true]
          push_cast
          ring
        · intro entry
          simp only [h3, Octree.remove, List.mem_filter, decide_eq_true_eq]
          constructor
          · rintro ⟨⟨hm, hne⟩, hnot⟩
            refine ⟨hm, ?_⟩
            rintro ⟨k, cb, hk, hout, hek⟩
            cases k with
            | zero => exact hne (by simpa using hek)
            | succ k =>
              exact hnot ⟨k, cb, by simpa using hk, hout, by omega⟩
          · rintro ⟨hm, hnot⟩
            refine ⟨⟨hm, ?_⟩, ?_⟩
            · intro he
              exact hnot ⟨0, b, by simp, ho, by simpa using he⟩
            · rintro ⟨k, cb, hk, hout, hek⟩
              exact hnot ⟨k + 1, cb, by simpa using hk, hout, by omega⟩
    · simp only [ho] at h
      obtain ⟨t0, h0, rfl⟩ := UpdateRun.cons_result_eq_some _ _ _ h
      obtain ⟨h1, h2, h3⟩ := ih _ _ _ _ _ _ h0
      refine ⟨?_, ?_, ?_⟩
      · simp [h1, evictSlot, ho]
      · simp [h2, List.countP_cons, ho]
      · intro entry
        rw [h3]
        constructor
        · rintro ⟨hm, hnot⟩
          refine ⟨hm, ?_⟩
          rintro ⟨k, cb, hk, hout, hek⟩
          cases k with
          | zero =>
            simp at hk
            subst hk
            exact ho hout
          | succ k => exact hnot ⟨k, cb, by simpa using hk, hout, by omega⟩
        · rintro ⟨hm, hnot⟩
          refine ⟨hm, ?_⟩
          rintro ⟨k, cb, hk, hout, hek⟩
          exact hnot ⟨k + 1, cb, by simpa using hk, hout, by omega⟩

/-- The loop of `update` comes to its end when the assertion does not end the process or
the extractor allows every re-extraction. -/
theorem update_loop_total {E : Type} (env : Env E) (focusPos : IVec3) (maxD : Int)
    (hok : env.assertAborts = false ∨ ∀ e t, (env.allowReExtraction e t).1 = true)
    (bufs : List ChunkBuffer) (i : Nat) (active : Int) (octree : Octree) (e : E)
    (calls : List ReExtractionCall) :
    ∃ t, (update.loop env focusPos maxD i bufs active octree e calls).result = some t := by
  induction bufs generalizing i active octree e calls with
  | nil => exact ⟨_, rfl⟩
  | cons b bs ih =>
    rw [update_loop_cons]
    have hna : (!(env.allowReExtraction e b.translation).1 && env.assertAborts) = false := by
      rcases hok with h | h
      · simp [h]
      · simp [h]
    by_cases ho : outOfRange focusPos maxD b = true
    · simp only [ho, if_true, hna]
      obtain ⟨t, ht⟩ := ih (i + 1) (active - 1) (octree.remove i)
        (env.allowReExtraction e b.translation).2
        (calls ++ [⟨i, b.translation, b.inuse, octree, active,
          (env.allowReExtraction e b.translation).1⟩])
      exact ⟨({ b with inuse := false } :: t.1, t.2), by simp [UpdateRun.cons, ht]⟩
    · simp only [ho]
      obtain ⟨t, ht⟩ := ih (i + 1) active octree e calls
      exact ⟨(b :: t.1, t.2), by simp [UpdateRun.cons, ht]⟩

/-- What `update` leaves behind when it returns. -/
theorem update_result {E : Type} (env : Env E) (s s1 : WorldChunkMgr E) (focusPos : IVec3)
    (h : update env s focusPos = some s1) :
    s1.chunkBuffers = s.chunkBuffers.map (evictSlot focusPos s.maxAllowedDistance) ∧
    s1.activeChunkBuffers =
      s.activeChunkBuffers -
        (s.chunkBuffers.countP (outOfRange focusPos s.maxAllowedDistance) : Nat) ∧
    (∀ entry, entry ∈ s1.octree.contents ↔
      entry ∈ s.octree.contents ∧
        ¬ ∃ k cb, s.chunkBuffers[k]? = some cb ∧
          outOfRange focusPos s.maxAllowedDistance cb = true ∧ entry.1 = k) ∧
    s1.maxAllowedDistance = s.maxAllowedDistance ∧
    s1.opaqueIndices = s.opaqueIndices ∧ s1.opaqueVertices = s.opaqueVertices := by
  simp only [update, update.traced, Option.map_eq_some'] at h
  obtain ⟨t, ht, rfl⟩ := h
  obtain ⟨h1, h2, h3⟩ := update_loop_result env focusPos s.maxAllowedDistance s.chunkBuffers 0
    s.activeChunkBuffers s.octree _ [] t ht
  refine ⟨h1, h2, ?_, rfl, rfl, rfl⟩
  intro entry
  simpa using h3 entry

/-- Function `update` returns when the assertion does not end the process or the extractor
allows every re-extraction. -/
theorem update_total {E : Type} (env : Env E) (s : WorldChunkMgr E) (focusPos : IVec3)
    (hok : env.assertAborts = false ∨ ∀ e t, (env.allowReExtraction e t).1 = true) :
    ∃ s1, update env s focusPos = some s1 := by
  obtain ⟨t, ht⟩ := update_loop_total env focusPos s.maxAllowedDistance hok s.chunkBuffers 0
    s.activeChunkBuffers s.octree (env.updateExtractionOrder s.meshExtractor focusPos) []
  simp only [update, update.traced, ht, Option.map_some']
  exact ⟨_, rfl⟩

/-- A sequence of calls comes to its end when the assertion does not end the process or the
extractor allows every re-extraction. -/
theorem run_total {E : Type} (env : Env E)
    (hok : env.assertAborts = false ∨ ∀ e t, (env.allowReExtraction e t).1 = true)
    (ops : List Op) (s : WorldChunkMgr E) : ∃ s1, run env s ops = some s1 := by
  induction ops generalizing s with
  | nil => exact ⟨s, rfl⟩
  | cons op ops ih =>
    cases op with
    | handleMeshQueue => simpa [run, step] using ih (handleMeshQueue env s)
    | update focusPos =>
      obtain ⟨s1, h1⟩ := update_total env s focusPos hok
      simpa [run, step, h1] using ih s1
    | reset => simpa [run, step] using ih (reset env s)

/-- A property of the pool that holds at the start and is kept by `handleMeshQueue.store`,
by an `update` that returns and by `reset` holds after every sequence of calls. -/
theorem run_invariant {E : Type} (env : Env E) (P : WorldChunkMgr E → Prop)
    (hext : ∀ s e, P s → P { s with meshExtractor := e })
    (hstore : ∀ s meshes, P s → P (handleMeshQueue.store env s meshes))
    (hupdate : ∀ s focusPos s1, P s → update env s focusPos = some s1 → P s1)
    (hreset : ∀ s, P s → P (reset env s))
    (ops : List Op) (s s1 : WorldChunkMgr E) (hs : P s) (hrun : run env s ops = some s1) :
    P s1 := by
  induction ops generalizing s with
  | nil =>
    simp only [run, Option.some.injEq] at hrun
    exact hrun ▸ hs
  | cons op ops ih =>
    cases op with
    | handleMeshQueue =>
      simp only [run, step] at hrun
      refine ih _ ?_ hrun
      unfold handleMeshQueue
      split
      · exact hext _ _ hs
      · exact hstore _ _ (hext _ _ hs)
    | update focusPos =>
      simp only [run, step] at hrun
      cases hu : update env s focusPos with
      | none => simp [hu] at hrun
      | some s2 =>
        simp only [hu] at hrun
        exact ih _ (hupdate _ _ _ hs hu) hrun
    | reset =>
      simp only [run, step] at hrun
      exact ih _ (hreset _ hs) hrun

/-! ## The active count -/

theorem occupiedCount_set (bufs : List ChunkBuffer) (i : Nat) (old new : ChunkBuffer)
    (h : bufs[i]? = some old) :
    ((occupiedCount (bufs.set i new) : Nat) : Int) =
      occupiedCount bufs - (if old.inuse then 1 else 0) + (if new.inuse then 1 else 0) := by
  induction bufs generalizing i with
  | nil => simp at h
  | cons b bs ih =>
    cases i with
    | zero =>
      simp at h
      subst h
      simp only [occupiedCount, List.set_cons_zero, List.countP_cons]
      cases b.inuse <;> cases new.inuse <;> simp
    | succ i =>
      simp only [List.getElem?_cons_succ] at h
      have := ih i h
      simp only [occupiedCount, List.set_cons_succ, List.countP_cons] at this ⊢
      push_cast
      rw [this]
      ring

theorem occupiedCount_evict (focusPos : IVec3) (maxD : Int) (bufs : List ChunkBuffer) :
    ((occupiedCount (bufs.map (evictSlot focusPos maxD)) : Nat) : Int) =
      occupiedCount bufs - (bufs.countP (outOfRange focusPos maxD) : Nat) := by
  induction bufs with
  | nil => simp [occupiedCount]
  | cons b bs ih =>
    simp only [occupiedCount, List.map_cons, List.countP_cons] at ih ⊢
    push_cast
    rw [ih]
    by_cases ho : outOfRange focusPos maxD b = true
    · have hu : b.inuse = true := by
        simp only [outOfRange, Bool.and_eq_true] at ho
        exact ho.1
      simp [evictSlot, ho, hu]
    · simp only [evictSlot, ho]
      simp only [Bool.false_eq_true, if_false]
      ring

theorem occupiedCount_reset (bufs : List ChunkBuffer) :
    occupiedCount (bufs.map (fun chunkBuffer => { chunkBuffer with inuse := false })) = 0 := by
  induction bufs with
  | nil => rfl
  | cons b bs ih =>
    simp only [occupiedCount, List.map_cons, List.countP_cons] at ih ⊢
    simp [ih]

theorem occupiedCount_of_free (bufs : List ChunkBuffer) (h : ∀ c ∈ bufs, c.inuse = false) :
    occupiedCount bufs = 0 := by
  simp only [occupiedCount, List.countP_eq_zero]
  intro c hc
  simp [h c hc]

/-- Storing a mesh keeps the count equal to the number of occupied slots. -/
theorem store_count {E : Type} (env : Env E) (s : WorldChunkMgr E) (meshes : ChunkMeshes)
    (h : s.activeChunkBuffers = occupiedCount s.chunkBuffers) :
    (handleMeshQueue.store env s meshes).activeChunkBuffers =
      occupiedCount (handleMeshQueue.store env s meshes).chunkBuffers := by
  cases hsel : handleMeshQueue.findChunkBuffer meshes.translation s.chunkBuffers 0 none with
  | none => rw [store_of_none env s meshes hsel]; exact h
  | some i =>
    have hlt := findChunkBuffer_lt _ _ _ hsel
    have hcb : s.chunkBuffers[i]? = some (s.chunkBuffers[i]) := by simp [hlt]
    rw [store_of_found env s meshes i _ hsel hcb]
    simp only
    rw [occupiedCount_set _ _ _ _ hcb, h]
    cases s.chunkBuffers[i].inuse <;> simp [storedSlot]

/-- C2.  Active-count invariant: from a pool with no occupied slot and a count of 0, after
every sequence of `handleMeshQueue`, `update` and `reset` calls the counter
`_activeChunkBuffers` equals the number of slots whose in-use flag is true; and every such
sequence comes to its end when `core_assert_always` does not end the process or the
extractor allows every re-extraction. -/
theorem C2_active_count {E : Type} (env : Env E) (s : WorldChunkMgr E) (ops : List Op)
    (hfree : ∀ c ∈ s.chunkBuffers, c.inuse = false) (hzero : s.activeChunkBuffers = 0) :
    (∀ s1, run env s ops = some s1 →
      s1.activeChunkBuffers = occupiedCount s1.chunkBuffers) ∧
    ((env.assertAborts = false ∨ ∀ e t, (env.allowReExtraction e t).1 = true) →
      ∃ s1, run env s ops = some s1) := by
  refine ⟨?_, fun hok => run_total env hok ops s⟩
  intro s1 hrun
  refine run_invariant env (fun s => s.activeChunkBuffers = occupiedCount s.chunkBuffers)
    (fun _ _ h => h) (fun s meshes h => store_count env s meshes h) ?_ ?_ ops s s1 ?_ hrun
  · intro s0 focusPos s2 h hu
    obtain ⟨h1, h2, -⟩ := update_result env s0 s2 focusPos hu
    rw [h1, h2, occupiedCount_evict, h]
  · intro s0 _
    simp [reset, occupiedCount_reset]
  · simp [hzero, occupiedCount_of_free _ hfree]

/-- C2 at a concrete input: a pool of two slots receives two meshes, keeps both in a first
`update`, evicts one of them in a second `update` and then receives a third mesh; the run
comes to its end with the counter equal to the number of occupied slots, which is 2. -/
theorem C2_active_count_witness :
    ∃ s1, run (testEnv ⟨1, 1, 1⟩ true true)
        (sampleMgr 2 100
          [sampleTriangle ⟨10, 0, 0⟩, sampleTriangle ⟨20, 0, 0⟩, sampleTriangle ⟨5, 0, 5⟩])
        [Op.handleMeshQueue, Op.handleMeshQueue, Op.update ⟨15, 0, 0⟩, Op.update ⟨25, 0, 0⟩,
         Op.handleMeshQueue] = some s1 ∧
      s1.activeChunkBuffers = occupiedCount s1.chunkBuffers ∧ s1.activeChunkBuffers = 2 := by
  have h := C2_active_count (testEnv ⟨1, 1, 1⟩ true true)
    (sampleMgr 2 100
      [sampleTriangle ⟨10, 0, 0⟩, sampleTriangle ⟨20, 0, 0⟩, sampleTriangle ⟨5, 0, 5⟩])
    [Op.handleMeshQueue, Op.handleMeshQueue, Op.update ⟨15, 0, 0⟩, Op.update ⟨25, 0, 0⟩,
     Op.handleMeshQueue] (by decide) (by decide)
  obtain ⟨s1, hs1⟩ := h.2 (Or.inr (fun _ _ => rfl))
  refine ⟨s1, hs1, h.1 s1 hs1, ?_⟩
  have hrun : (run (testEnv ⟨1, 1, 1⟩ true true)
      (sampleMgr 2 100
        [sampleTriangle ⟨10, 0, 0⟩, sampleTriangle ⟨20, 0, 0⟩, sampleTriangle ⟨5, 0, 5⟩])
      [Op.handleMeshQueue, Op.handleMeshQueue, Op.update ⟨15, 0, 0⟩, Op.update ⟨25, 0, 0⟩,
       Op.handleMeshQueue]).map (fun s => s.activeChunkBuffers) = some 2 := by decide
  rw [hs1] at hrun
  simpa using hrun

/-! ## Uniqueness of translations -/

/-- A list with an element satisfying `p` has a first position with such an element. -/
theorem exists_first_slot (p : ChunkBuffer → Prop) (bufs : List ChunkBuffer)
    (h : ∃ c ∈ bufs, p c) :
    ∃ (k : Nat) (cb : ChunkBuffer), bufs[k]? = some cb ∧ p cb ∧
      ∀ (m : Nat) (c : ChunkBuffer), m < k → bufs[m]? = some c → ¬ p c := by
  induction bufs with
  | nil => simp at h
  | cons b bs ih =>
    by_cases hb : p b
    · exact ⟨0, b, by simp, hb, fun m c hm _ => absurd hm (Nat.not_lt_zero m)⟩
    · have hbs : ∃ c ∈ bs, p c := by
        obtain ⟨c, hc, hpc⟩ := h
        rcases List.mem_cons.1 hc with rfl | hc
        · exact absurd hpc hb
        · exact ⟨c, hc, hpc⟩
      obtain ⟨k, cb, hk, hp, hfirst⟩ := ih hbs
      refine ⟨k + 1, cb, by simpa using hk, hp, ?_⟩
      intro m c hm hc
      cases m with
      | zero =>
        simp at hc
        subst hc
        exact hb
      | succ m => exact hfirst m c (by omega) (by simpa using hc)

theorem findFreeLoop_some (bufs : List ChunkBuffer) (i j : Nat)
    (h : findFreeChunkBuffer.loop bufs i = some j) :
    ∃ k cb, j = i + k ∧ bufs[k]? = some cb ∧ cb.inuse = false ∧
      ∀ m c, m < k → bufs[m]? = some c → c.inuse = true := by
  induction bufs generalizing i with
  | nil => simp [findFreeChunkBuffer.loop] at h
  | cons b bs ih =>
    simp only [findFreeChunkBuffer.loop] at h
    cases hu : b.inuse with
    | false =>
      simp [hu] at h
      exact ⟨0, b, by omega, by simp, hu, fun m c hm _ => absurd hm (Nat.not_lt_zero m)⟩
    | true =>
      simp only [hu, Bool.not_true, Bool.false_eq_true, if_false] at h
      obtain ⟨k, cb, hj, hk, hf, hfirst⟩ := ih (i + 1) h
      refine ⟨k + 1, cb, by omega, by simpa using hk, hf, ?_⟩
      intro m c hm hc
      cases m with
      | zero =>
        simp at hc
        subst hc
        exact hu
      | succ m => exact hfirst m c (by omega) (by simpa using hc)

/-- The two ways the loop of `handleMeshQueue` selects slot `i`: it is the first slot with
the translation, or no slot has the translation and it is the first free slot. -/
theorem findChunkBuffer_some (T : IVec3) (bufs : List ChunkBuffer) (i : Nat)
    (h : handleMeshQueue.findChunkBuffer T bufs 0 none = some i) :
    (∃ cb, bufs[i]? = some cb ∧ cb.translation = T ∧
        ∀ m c, m < i → bufs[m]? = some c → c.translation ≠ T) ∨
    ((∀ c ∈ bufs, c.translation ≠ T) ∧
      ∃ cb, bufs[i]? = some cb ∧ cb.inuse = false ∧
        ∀ m c, m < i → bufs[m]? = some c → c.inuse = true) := by
  by_cases hex : ∃ c ∈ bufs, c.translation = T
  · obtain ⟨k, cb, hk, hT, hfirst⟩ := exists_first_slot (fun c => c.translation = T) bufs hex
    have := findChunkBuffer_match T bufs 0 none k cb hk hT hfirst
    rw [h] at this
    simp at this
    subst this
    exact Or.inl ⟨cb, hk, hT, hfirst⟩
  · have hno : ∀ c ∈ bufs, c.translation ≠ T := fun c hc hT => hex ⟨c, hc, hT⟩
    have := findChunkBuffer_nomatch T bufs 0 none hno
    rw [h] at this
    obtain ⟨k, cb, hj, hk, hf, hfirst⟩ := findFreeLoop_some bufs 0 i this.symm
    have hik : i = k := by omega
    subst hik
    exact Or.inr ⟨hno, cb, hk, hf, hfirst⟩

/-- Storing a mesh keeps every occupied slot the first slot with its translation. -/
theorem store_occupiedFirst {E : Type} (env : Env E) (s : WorldChunkMgr E)
    (meshes : ChunkMeshes) (h : OccupiedFirst s.chunkBuffers) :
    OccupiedFirst (handleMeshQueue.store env s meshes).chunkBuffers := by
  cases hsel : handleMeshQueue.findChunkBuffer meshes.translation s.chunkBuffers 0 none with
  | none => rw [store_of_none env s meshes hsel]; exact h
  | some i =>
    have hlt := findChunkBuffer_lt _ _ _ hsel
    have hcb : s.chunkBuffers[i]? = some (s.chunkBuffers[i]) := by simp [hlt]
    rw [store_of_found env s meshes i _ hsel hcb]
    simp only
    intro a b ca cb1 ha hb hu hT
    have hnew : (s.chunkBuffers.set i (storedSlot s.chunkBuffers[i] meshes))[i]? =
        some (storedSlot s.chunkBuffers[i] meshes) := by simp [hlt]
    rcases findChunkBuffer_some _ _ _ hsel with ⟨c0, hc0, hT0, hfirst⟩ | ⟨hno, c0, hc0, -, -⟩
    · -- in-place: the translations of all slots are unchanged
      have htr : ∀ (k : Nat) (c : ChunkBuffer),
          (s.chunkBuffers.set i (storedSlot s.chunkBuffers[i] meshes))[k]? = some c →
          ∃ c1 : ChunkBuffer, s.chunkBuffers[k]? = some c1 ∧
            c1.translation = c.translation := by
        intro k c hk
        by_cases hki : k = i
        · subst hki
          rw [hnew] at hk
          cases hk
          exact ⟨c0, hc0, by rw [hT0, storedSlot_translation]⟩
        · rw [List.getElem?_set_ne (Ne.symm hki)] at hk
          exact ⟨c, hk, rfl⟩
      obtain ⟨ca0, hca0, hta⟩ := htr a ca ha
      by_cases hbi : b = i
      · subst hbi
        rw [hnew] at hb
        cases hb
        by_contra hlt2
        exact hfirst a ca0 (by omega) hca0 (by rw [hta, hT, storedSlot_translation])
      · rw [List.getElem?_set_ne (Ne.symm hbi)] at hb
        exact h a b ca0 cb1 hca0 hb hu (by rw [hta, hT])
    · -- a new translation in the first free slot
      have hmem : ∀ (k : Nat) (c : ChunkBuffer), s.chunkBuffers[k]? = some c →
          c.translation ≠ meshes.translation :=
        fun k c hk => hno c (List.getElem?_mem hk)
      by_cases hbi : b = i
      · subst hbi
        rw [hnew] at hb
        cases hb
        by_cases hai : a = b
        · omega
        · rw [List.getElem?_set_ne (Ne.symm hai)] at ha
          exact absurd (by rw [hT, storedSlot_translation]) (hmem a ca ha)
      · rw [List.getElem?_set_ne (Ne.symm hbi)] at hb
        by_cases hai : a = i
        · subst hai
          rw [hnew] at ha
          cases ha
          exact absurd (by rw [← hT, storedSlot_translation]) (hmem b cb1 hb)
        · rw [List.getElem?_set_ne (Ne.symm hai)] at ha
          exact h a b ca cb1 ha hb hu hT

theorem evictSlot_translation (focusPos : IVec3) (maxD : Int) (c : ChunkBuffer) :
    (evictSlot focusPos maxD c).translation = c.translation := by
  unfold evictSlot
  split <;> rfl

theorem evictSlot_inuse (focusPos : IVec3) (maxD : Int) (c : ChunkBuffer)
    (h : (evictSlot focusPos maxD c).inuse = true) : c.inuse = true := by
  unfold evictSlot at h
  split at h
  · simp at h
  · exact h

/-- An `update` that returns keeps every occupied slot the first slot with its
translation. -/
theorem update_occupiedFirst {E : Type} (env : Env E) (s s1 : WorldChunkMgr E)
    (focusPos : IVec3) (h : OccupiedFirst s.chunkBuffers)
    (hu : update env s focusPos = some s1) : OccupiedFirst s1.chunkBuffers := by
  obtain ⟨h1, -⟩ := update_result env s s1 focusPos hu
  rw [h1]
  intro a b ca cb ha hb hub hT
  simp only [List.getElem?_map, Option.map_eq_some'] at ha hb
  obtain ⟨ca0, hca0, rfl⟩ := ha
  obtain ⟨cb0, hcb0, rfl⟩ := hb
  rw [evictSlot_translation, evictSlot_translation] at hT
  exact h a b ca0 cb0 hca0 hcb0 (evictSlot_inuse _ _ _ hub) hT

theorem reset_occupiedFirst {E : Type} (env : Env E) (s : WorldChunkMgr E) :
    OccupiedFirst (reset env s).chunkBuffers := by
  intro a b ca cb _ hb hub _
  simp only [reset, List.getElem?_map, Option.map_eq_some'] at hb
  obtain ⟨cb0, -, rfl⟩ := hb
  simp at hub

/-- Occupied slots that are each the first slot with their translation have pairwise
different translations. -/
theorem OccupiedFirst.unique {bufs : List ChunkBuffer} (h : OccupiedFirst bufs)
    (i j : Nat) (ci cj : ChunkBuffer) (hi : bufs[i]? = some ci) (hj : bufs[j]? = some cj)
    (hui : ci.inuse = true) (huj : cj.inuse = true)
    (hT : ci.translation = cj.translation) : i = j :=
  Nat.le_antisymm (h j i cj ci hj hi hui hT.symm) (h i j ci cj hi hj huj hT)

/-- C3.  Translation uniqueness: from a pool with no occupied slot, after every sequence of
`handleMeshQueue`, `update` and `reset` calls no two occupied slots have the same
translation; and every such sequence comes to its end when `core_assert_always` does not
end the process or the extractor allows every re-extraction. -/
theorem C3_translation_unique {E : Type} (env : Env E) (s : WorldChunkMgr E) (ops : List Op)
    (hfree : ∀ c ∈ s.chunkBuffers, c.inuse = false) :
    (∀ s1, run env s ops = some s1 →
      ∀ (i j : Nat) (ci cj : ChunkBuffer),
        s1.chunkBuffers[i]? = some ci → s1.chunkBuffers[j]? = some cj →
        ci.inuse = true → cj.inuse = true → ci.translation = cj.translation → i = j) ∧
    ((env.assertAborts = false ∨ ∀ e t, (env.allowReExtraction e t).1 = true) →
      ∃ s1, run env s ops = some s1) := by
  refine ⟨?_, fun hok => run_total env hok ops s⟩
  intro s1 hrun
  have hinv : OccupiedFirst s1.chunkBuffers := by
    refine run_invariant env (fun s => OccupiedFirst s.chunkBuffers)
      (fun _ _ h => h) (fun s meshes h => store_occupiedFirst env s meshes h)
      (fun s focusPos s2 h hu => update_occupiedFirst env s s2 focusPos h hu)
      (fun s _ => reset_occupiedFirst env s) ops s s1 ?_ hrun
    intro a b ca cb _ hb hub _
    rw [hfree cb (List.getElem?_mem hb)] at hub
    cases hub
  exact hinv.unique

/-- C3 at a concrete input: in a pool of three slots the meshes for (10,0,0) and (20,0,0)
are stored, both are evicted, and (20,0,0) and (10,0,0) arrive again: the run comes to its
end, the two occupied slots have different translations, and the slot that stayed free
still has the translation (0,0,0) it started with. -/
theorem C3_translation_unique_witness :
    ∃ s1, run (testEnv ⟨1, 1, 1⟩ true true)
        (sampleMgr 3 100
          [sampleTriangle ⟨10, 0, 0⟩, sampleTriangle ⟨20, 0, 0⟩, sampleTriangle ⟨20, 0, 0⟩,
           sampleTriangle ⟨10, 0, 0⟩])
        [Op.handleMeshQueue, Op.handleMeshQueue, Op.update ⟨1000, 0, 0⟩,
         Op.handleMeshQueue, Op.handleMeshQueue] = some s1 ∧
      slotSummary s1 = [(true, ⟨10, 0, 0⟩), (true, ⟨20, 0, 0⟩), (false, ⟨0, 0, 0⟩)] ∧
      ∀ (i j : Nat) (ci cj : ChunkBuffer),
        s1.chunkBuffers[i]? = some ci → s1.chunkBuffers[j]? = some cj →
        ci.inuse = true → cj.inuse = true → ci.translation = cj.translation → i = j := by
  have h := C3_translation_unique (testEnv ⟨1, 1, 1⟩ true true)
    (sampleMgr 3 100
      [sampleTriangle ⟨10, 0, 0⟩, sampleTriangle ⟨20, 0, 0⟩, sampleTriangle ⟨20, 0, 0⟩,
       sampleTriangle ⟨10, 0, 0⟩])
    [Op.handleMeshQueue, Op.handleMeshQueue, Op.update ⟨1000, 0, 0⟩,
     Op.handleMeshQueue, Op.handleMeshQueue] (by decide)
  obtain ⟨s1, hs1⟩ := h.2 (Or.inr (fun _ _ => rfl))
  refine ⟨s1, hs1, ?_, h.1 s1 hs1⟩
  have hrun : (run (testEnv ⟨1, 1, 1⟩ true true)
      (sampleMgr 3 100
        [sampleTriangle ⟨10, 0, 0⟩, sampleTriangle ⟨20, 0, 0⟩, sampleTriangle ⟨20, 0, 0⟩,
         sampleTriangle ⟨10, 0, 0⟩])
      [Op.handleMeshQueue, Op.handleMeshQueue, Op.update ⟨1000, 0, 0⟩,
       Op.handleMeshQueue, Op.handleMeshQueue]).map slotSummary =
      some [(true, ⟨10, 0, 0⟩), (true, ⟨20, 0, 0⟩), (false, ⟨0, 0, 0⟩)] := by decide
  rw [hs1] at hrun
  simpa using hrun

/-! ## The bounding box -/

theorem foldl_min_spec (g : VoxelVertex → Int) (verts : List VoxelVertex) (a0 : Int) :
    verts.foldl (fun a v => Min.min a (g v)) a0 ≤ a0 ∧
    (∀ v ∈ verts, verts.foldl (fun a v => Min.min a (g v)) a0 ≤ g v) ∧
    (verts.foldl (fun a v => Min.min a (g v)) a0 = a0 ∨
      ∃ v ∈ verts, g v = verts.foldl (fun a v => Min.min a (g v)) a0) := by
  induction verts generalizing a0 with
  | nil => simp
  | cons w ws ih =>
    simp only [List.foldl_cons]
    obtain ⟨h1, h2, h3⟩ := ih (Min.min a0 (g w))
    refine ⟨le_trans h1 (min_le_left _ _), ?_, ?_⟩
    · intro v hv
      rcases List.mem_cons.1 hv with rfl | hv
      · exact le_trans h1 (min_le_right _ _)
      · exact h2 v hv
    · rcases h3 with h3 | ⟨v, hv, h3⟩
      · rcases min_choice a0 (g w) with hm | hm
        · left; rw [h3, hm]
        · right; exact ⟨w, List.mem_cons_self _ _, by rw [h3, hm]⟩
      · right; exact ⟨v, List.mem_cons_of_mem _ hv, h3⟩

theorem foldl_max_spec (g : VoxelVertex → Int) (verts : List VoxelVertex) (a0 : Int) :
    a0 ≤ verts.foldl (fun a v => Max.max a (g v)) a0 ∧
    (∀ v ∈ verts, g v ≤ verts.foldl (fun a v => Max.max a (g v)) a0) ∧
    (verts.foldl (fun a v => Max.max a (g v)) a0 = a0 ∨
      ∃ v ∈ verts, g v = verts.foldl (fun a v => Max.max a (g v)) a0) := by
  induction verts generalizing a0 with
  | nil => simp
  | cons w ws ih =>
    simp only [List.foldl_cons]
    obtain ⟨h1, h2, h3⟩ := ih (Max.max a0 (g w))
    refine ⟨le_trans (le_max_left _ _) h1, ?_, ?_⟩
    · intro v hv
      rcases List.mem_cons.1 hv with rfl | hv
      · exact le_trans (le_max_right _ _) h1
      · exact h2 v hv
    · rcases h3 with h3 | ⟨v, hv, h3⟩
      · rcases max_choice a0 (g w) with hm | hm
        · left; rw [h3, hm]
        · right; exact ⟨w, List.mem_cons_self _ _, by rw [h3, hm]⟩
      · right; exact ⟨v, List.mem_cons_of_mem _ hv, h3⟩

/-- The loop of `updateAABB` reduces every component on its own. -/
theorem reduce_fold_components (verts : List VoxelVertex) (acc : IVec3 × IVec3) :
    (verts.foldl (fun acc v => (acc.1.min v.position, acc.2.max v.position)) acc) =
      (⟨verts.foldl (fun a v => Min.min a v.position.x) acc.1.x,
        verts.foldl (fun a v => Min.min a v.position.y) acc.1.y,
        verts.foldl (fun a v => Min.min a v.position.z) acc.1.z⟩,
       ⟨verts.foldl (fun a v => Max.max a v.position.x) acc.2.x,
        verts.foldl (fun a v => Max.max a v.position.y) acc.2.y,
        verts.foldl (fun a v => Max.max a v.position.z) acc.2.z⟩) := by
  induction verts generalizing acc with
  | nil => rfl
  | cons w ws ih =>
    simp only [List.foldl_cons]
    rw [ih]
    rfl

/-- A minimum that started at `INT_MAX` over a non-empty list of `int` values is attained. -/
theorem foldl_min_attained (g : VoxelVertex → Int) (verts : List VoxelVertex)
    (hne : verts ≠ []) (hrange : ∀ v ∈ verts, g v ≤ INT_MAX) :
    ∃ v ∈ verts, g v = verts.foldl (fun a v => Min.min a (g v)) INT_MAX := by
  obtain ⟨-, h2, h3⟩ := foldl_min_spec g verts INT_MAX
  rcases h3 with h3 | h3
  · obtain ⟨w, hw⟩ := List.exists_mem_of_ne_nil verts hne
    exact ⟨w, hw, le_antisymm (by rw [h3]; exact hrange w hw) (h2 w hw)⟩
  · exact h3

/-- A maximum that started at `INT_MIN` over a non-empty list of `int` values is attained. -/
theorem foldl_max_attained (g : VoxelVertex → Int) (verts : List VoxelVertex)
    (hne : verts ≠ []) (hrange : ∀ v ∈ verts, INT_MIN ≤ g v) :
    ∃ v ∈ verts, g v = verts.foldl (fun a v => Max.max a (g v)) INT_MIN := by
  obtain ⟨-, h2, h3⟩ := foldl_max_spec g verts INT_MIN
  rcases h3 with h3 | h3
  · obtain ⟨w, hw⟩ := List.exists_mem_of_ne_nil verts hne
    exact ⟨w, hw, le_antisymm (h2 w hw) (by rw [h3]; exact hrange w hw)⟩
  · exact h3

/-- C4.  `updateAABB`: for every buffer whose mesh has at least one vertex (with `int`
positions) the recomputed box is the component-wise minimum and maximum of all vertex
positions: every vertex lies inside the box on all three axes, and each of the six faces
is touched by some vertex; the in-use flag and the meshes of the buffer are not changed. -/
theorem C4_updateAABB (chunkBuffer : ChunkBuffer)
    (hne : chunkBuffer.meshes.mesh.vecVertices ≠ [])
    (hrange : ∀ v ∈ chunkBuffer.meshes.mesh.vecVertices, v.position.inInt32) :
    (∀ v ∈ chunkBuffer.meshes.mesh.vecVertices,
      (updateAABB chunkBuffer).aabb.mins.x ≤ v.position.x ∧
      v.position.x ≤ (updateAABB chunkBuffer).aabb.maxs.x ∧
      (updateAABB chunkBuffer).aabb.mins.y ≤ v.position.y ∧
      v.position.y ≤ (updateAABB chunkBuffer).aabb.maxs.y ∧
      (updateAABB chunkBuffer).aabb.mins.z ≤ v.position.z ∧
      v.position.z ≤ (updateAABB chunkBuffer).aabb.maxs.z) ∧
    (∃ v ∈ chunkBuffer.meshes.mesh.vecVertices,
      v.position.x = (updateAABB chunkBuffer).aabb.mins.x) ∧
    (∃ v ∈ chunkBuffer.meshes.mesh.vecVertices,
      v.position.y = (updateAABB chunkBuffer).aabb.mins.y) ∧
    (∃ v ∈ chunkBuffer.meshes.mesh.vecVertices,
      v.position.z = (updateAABB chunkBuffer).aabb.mins.z) ∧
    (∃ v ∈ chunkBuffer.meshes.mesh.vecVertices,
      v.position.x = (updateAABB chunkBuffer).aabb.maxs.x) ∧
    (∃ v ∈ chunkBuffer.meshes.mesh.vecVertices,
      v.position.y = (updateAABB chunkBuffer).aabb.maxs.y) ∧
    (∃ v ∈ chunkBuffer.meshes.mesh.vecVertices,
      v.position.z = (updateAABB chunkBuffer).aabb.maxs.z) ∧
    (updateAABB chunkBuffer).inuse = chunkBuffer.inuse ∧
    (updateAABB chunkBuffer).meshes = chunkBuffer.meshes := by
  have hbox : (updateAABB chunkBuffer).aabb =
      ⟨⟨chunkBuffer.meshes.mesh.vecVertices.foldl (fun a v => Min.min a v.position.x) INT_MAX,
        chunkBuffer.meshes.mesh.vecVertices.foldl (fun a v => Min.min a v.position.y) INT_MAX,
        chunkBuffer.meshes.mesh.vecVertices.foldl (fun a v => Min.min a v.position.z) INT_MAX⟩,
       ⟨chunkBuffer.meshes.mesh.vecVertices.foldl (fun a v => Max.max a v.position.x) INT_MIN,
        chunkBuffer.meshes.mesh.vecVertices.foldl (fun a v => Max.max a v.position.y) INT_MIN,
        chunkBuffer.meshes.mesh.vecVertices.foldl (fun a v => Max.max a v.position.z)
          INT_MIN⟩⟩ := by
    simp only [updateAABB, updateAABB.reduce, Mesh.getVertexVector]
    rw [reduce_fold_components]
  rw [hbox]
  refine ⟨?_, ?_, ?_, ?_, ?_, ?_, ?_, rfl, rfl⟩
  · intro v hv
    exact ⟨(foldl_min_spec (fun v => v.position.x) _ _).2.1 v hv,
      (foldl_max_spec (fun v => v.position.x) _ _).2.1 v hv,
      (foldl_min_spec (fun v => v.position.y) _ _).2.1 v hv,
      (foldl_max_spec (fun v => v.position.y) _ _).2.1 v hv,
      (foldl_min_spec (fun v => v.position.z) _ _).2.1 v hv,
      (foldl_max_spec (fun v => v.position.z) _ _).2.1 v hv⟩
  · exact foldl_min_attained (fun v => v.position.x) _ hne (fun v hv => (hrange v hv).1.2)
  · exact foldl_min_attained (fun v => v.position.y) _ hne (fun v hv => (hrange v hv).2.1.2)
  · exact foldl_min_attained (fun v => v.position.z) _ hne (fun v hv => (hrange v hv).2.2.2)
  · exact foldl_max_attained (fun v => v.position.x) _ hne (fun v hv => (hrange v hv).1.1)
  · exact foldl_max_attained (fun v => v.position.y) _ hne (fun v hv => (hrange v hv).2.1.1)
  · exact foldl_max_attained (fun v => v.position.z) _ hne (fun v hv => (hrange v hv).2.2.1)

/-- C4 at a concrete input: the vertices (3,-2,7), (-1,5,0) and (4,4,-6) give the box
from (-1,-2,-6) to (4,5,7). -/
theorem C4_updateAABB_witness :
    (updateAABB { sampleFreeSlot with
      meshes := sampleMeshes ⟨0, 0, 0⟩
        [sampleVertex 3 (-2) 7, sampleVertex (-1) 5 0, sampleVertex 4 4 (-6)] [0, 1, 2] }).aabb =
      ⟨⟨-1, -2, -6⟩, ⟨4, 5, 7⟩⟩ ∧
    ∃ v ∈ [sampleVertex 3 (-2) 7, sampleVertex (-1) 5 0, sampleVertex 4 4 (-6)],
      v.position.x = (updateAABB { sampleFreeSlot with
        meshes := sampleMeshes ⟨0, 0, 0⟩
          [sampleVertex 3 (-2) 7, sampleVertex (-1) 5 0, sampleVertex 4 4 (-6)]
          [0, 1, 2] }).aabb.mins.x :=
  ⟨by decide,
   (C4_updateAABB { sampleFreeSlot with
      meshes := sampleMeshes ⟨0, 0, 0⟩
        [sampleVertex 3 (-2) 7, sampleVertex (-1) 5 0, sampleVertex 4 4 (-6)] [0, 1, 2] }
      (by decide) (by decide)).2.1⟩

/-! ## The merge of `cull` -/

theorem addOffset_append (indexBits indexOffset : Nat) (xs pre : List Nat) :
    transform.addOffset indexBits indexOffset xs.length pre.length (pre ++ xs) =
      pre ++ xs.map (fun v => (v + indexOffset) % 2 ^ indexBits) := by
  induction xs generalizing pre with
  | nil => simp [transform.addOffset]
  | cons x xs ih =>
    simp only [List.length_cons, transform.addOffset]
    have hget : (pre ++ x :: xs).getD pre.length 0 = x := by
      rw [List.getD_eq_getElem?_getD, List.getElem?_append_right (Nat.le_refl _)]
      simp
    have hset : (pre ++ x :: xs).set pre.length ((x + indexOffset) % 2 ^ indexBits) =
        (pre ++ [(x + indexOffset) % 2 ^ indexBits]) ++ xs := by
      simp [List.set_append]
    rw [hget, hset]
    have hlen : pre.length + 1 = (pre ++ [(x + indexOffset) % 2 ^ indexBits]).length := by
      simp
    rw [hlen, ih]
    simp

/-- Closed form of `transform`. -/
theorem transform_eq (indexBits indexOffset : Nat) (mesh : Mesh) (verts : List VoxelVertex)
    (idxs : List Nat) :
    transform indexBits indexOffset mesh verts idxs =
      (mesh.vecVertices.length, verts ++ mesh.vecVertices,
        idxs ++ mesh.vecIndices.map (fun v => (v + indexOffset) % 2 ^ indexBits)) := by
  simp only [transform, Mesh.getIndexVector, Mesh.getVertexVector]
  have hlen : (idxs ++ mesh.vecIndices).length - idxs.length = mesh.vecIndices.length := by
    simp
  rw [hlen, addOffset_append]

/-- Closed form of the loop of `cull`. -/
theorem merge_eq (indexBits : Nat) (bufs : List ChunkBuffer) (offset : Nat)
    (verts : List VoxelVertex) (idxs : List Nat) :
    cull.merge indexBits bufs offset verts idxs =
      (offset + vertexCount bufs, verts ++ mergedVertices bufs,
        idxs ++ rebasedIndices indexBits bufs offset) := by
  induction bufs generalizing offset verts idxs with
  | nil => simp [cull.merge, vertexCount, mergedVertices, rebasedIndices]
  | cons b bs ih =>
    simp only [cull.merge, transform_eq, ih, vertexCount, mergedVertices, rebasedIndices,
      List.append_assoc, Nat.add_assoc]

theorem mergedVertices_length (bufs : List ChunkBuffer) :
    (mergedVertices bufs).length = vertexCount bufs := by
  induction bufs with
  | nil => rfl
  | cons b bs ih => simp [mergedVertices, vertexCount, ih]

theorem rebasedIndices_length (indexBits : Nat) (bufs : List ChunkBuffer) (offset : Nat) :
    (rebasedIndices indexBits bufs offset).length = indexCount bufs := by
  induction bufs generalizing offset with
  | nil => rfl
  | cons b bs ih => simp [rebasedIndices, indexCount, ih]

/-- Where the `j`-th index of the `k`-th buffer stands in the merged index list, and its
value there. -/
theorem rebasedIndices_getElem (indexBits : Nat) (bufs : List ChunkBuffer) (offset k j v : Nat)
    (bk : ChunkBuffer) (hk : bufs[k]? = some bk) (hj : bk.meshes.mesh.vecIndices[j]? = some v) :
    (rebasedIndices indexBits bufs offset)[indexCount (bufs.take k) + j]? =
      some ((v + (offset + vertexCount (bufs.take k))) % 2 ^ indexBits) := by
  induction bufs generalizing offset k with
  | nil => simp at hk
  | cons b bs ih =>
    cases k with
    | zero =>
      simp at hk
      subst hk
      have hjlt : j < b.meshes.mesh.vecIndices.length := by
        rcases List.getElem?_eq_some.1 hj with ⟨h, -⟩
        exact h
      simp only [List.take_zero, indexCount, vertexCount, Nat.zero_add, Nat.add_zero,
        rebasedIndices]
      rw [List.getElem?_append_left (by simpa using hjlt)]
      simp [hj]
    | succ k =>
      simp only [List.getElem?_cons_succ] at hk
      simp only [List.take_succ_cons, indexCount, vertexCount, rebasedIndices]
      rw [Nat.add_assoc, List.getElem?_append_right (by simp)]
      simp only [List.length_map, Nat.add_sub_cancel_left]
      rw [ih _ _ hk]
      congr 2
      omega

/-- Where the `v`-th vertex of the `k`-th buffer stands in the merged vertex list. -/
theorem mergedVertices_getElem (bufs : List ChunkBuffer) (k v : Nat) (bk : ChunkBuffer)
    (hk : bufs[k]? = some bk) (hv : v < bk.meshes.mesh.vecVertices.length) :
    (mergedVertices bufs)[vertexCount (bufs.take k) + v]? = bk.meshes.mesh.vecVertices[v]? := by
  induction bufs generalizing k with
  | nil => simp at hk
  | cons b bs ih =>
    cases k with
    | zero =>
      simp at hk
      subst hk
      simp only [List.take_zero, vertexCount, Nat.zero_add, mergedVertices]
      rw [List.getElem?_append_left hv]
    | succ k =>
      simp only [List.getElem?_cons_succ] at hk
      simp only [List.take_succ_cons, vertexCount, mergedVertices]
      rw [Nat.add_assoc, List.getElem?_append_right (by omega)]
      simp only [Nat.add_sub_cancel_left]
      exact ih _ hk

/-- The vertices of the first `k` buffers and of the `k`-th buffer are among all
vertices. -/
theorem vertexCount_take_add_le (bufs : List ChunkBuffer) (k : Nat) (bk : ChunkBuffer)
    (hk : bufs[k]? = some bk) :
    vertexCount (bufs.take k) + bk.meshes.mesh.vecVertices.length ≤ vertexCount bufs := by
  induction bufs generalizing k with
  | nil => simp at hk
  | cons b bs ih =>
    cases k with
    | zero =>
      simp at hk
      subst hk
      simp [vertexCount]
    | succ k =>
      simp only [List.getElem?_cons_succ] at hk
      have := ih _ hk
      simp only [List.take_succ_cons, vertexCount]
      omega

/-- What `cull` leaves in the merged lists. -/
theorem cull_eq {E : Type} (env : Env E) (s : WorldChunkMgr E) (aabb : AABB) :
    (cull env s aabb).opaqueVertices = mergedVertices (cull.contents s aabb) ∧
    (cull env s aabb).opaqueIndices =
      rebasedIndices env.indexBits (cull.contents s aabb) 0 := by
  simp [cull, merge_eq]

theorem sampleIndexed_contents (first second : ChunkBuffer) :
    cull.contents (sampleIndexed first second) sampleBox = [first, second] := by
  have hq : (⟨[(0, sampleBox), (1, sampleBox)]⟩ : Octree).query sampleBox = [0, 1] := by
    decide
  simp [cull.contents, sampleIndexed, hq]

theorem sampleManyVertices_length (n : Nat) :
    (sampleManyVertices n).meshes.mesh.vecVertices.length = n := by
  simp only [sampleManyVertices, sampleResident, sampleMeshes, List.length_replicate]

theorem sampleManyVertices_indices (n : Nat) :
    (sampleManyVertices n).meshes.mesh.vecIndices = [] := rfl

/-- The merged indices when a buffer of `n` vertices comes before `sampleSmallBuffer`. -/
theorem sampleManyVertices_cull (n : Nat) :
    (cull (testEnv ⟨1, 1, 1⟩ true false)
      (sampleIndexed (sampleManyVertices n) sampleSmallBuffer) sampleBox).opaqueIndices =
      [(1 + n) % 4294967296] := by
  rw [(cull_eq _ _ _).2, sampleIndexed_contents]
  simp only [rebasedIndices, sampleManyVertices_length, sampleManyVertices_indices,
    List.map_nil, List.nil_append, Nat.zero_add]
  simp [sampleSmallBuffer, sampleResident, sampleMeshes, testEnv]

/-- C5 (as stated, refuted).  With a 32 bit index type, the query returns a buffer of
2^32 - 1 vertices, the most `Mesh::addVertex` accepts, followed by a buffer of two vertices
with the index 1.  The claim puts the index 1 + 4294967295 = 4294967296 in the merged list;
`cull` puts 0 there, because `idxs[i] += indexOffset` is computed in the index type.  The
same happens with small buffers when an index is the largest value of the index type,
whatever the width of that type. -/
theorem C5_counterexample :
    cull.contents (sampleIndexed (sampleManyVertices 4294967295) sampleSmallBuffer)
      sampleBox = [sampleManyVertices 4294967295, sampleSmallBuffer] ∧
    (sampleManyVertices 4294967295).meshes.mesh.vecVertices.length = 4294967295 ∧
    (sampleManyVertices 4294967295).meshes.mesh.vecIndices = [] ∧
    sampleSmallBuffer.meshes.mesh.vecIndices = [1] ∧
    (cull (testEnv ⟨1, 1, 1⟩ true false)
      (sampleIndexed (sampleManyVertices 4294967295) sampleSmallBuffer)
      sampleBox).opaqueIndices = [0] ∧
    (cull (testEnv ⟨1, 1, 1⟩ true false)
      (sampleIndexed (sampleManyVertices 4294967295) sampleSmallBuffer)
      sampleBox).opaqueIndices ≠ [1 + 4294967295] ∧
    (cull (testEnv ⟨1, 1, 1⟩ true false)
      (sampleIndexed (sampleResident ⟨0, 0, 0⟩ [sampleVertex 0 0 0] [0] sampleBox)
        (sampleResident ⟨1, 0, 0⟩ [sampleVertex 1 0 0] [4294967295] sampleBox))
      sampleBox).opaqueIndices = [0, 0] ∧
    (∀ w : Nat, (cull.merge w
      [sampleResident ⟨0, 0, 0⟩ [sampleVertex 0 0 0] [0] sampleBox,
       sampleResident ⟨1, 0, 0⟩ [sampleVertex 1 0 0] [2 ^ w - 1] sampleBox] 0 [] []).2.2 =
      [0, 0]) := by
  have h2 : (cull (testEnv ⟨1, 1, 1⟩ true false)
      (sampleIndexed (sampleManyVertices 4294967295) sampleSmallBuffer)
      sampleBox).opaqueIndices = [0] :=
    (sampleManyVertices_cull 4294967295).trans (by decide)
  refine ⟨sampleIndexed_contents _ _, sampleManyVertices_length _,
    sampleManyVertices_indices _, rfl, h2, ?_, ?_, ?_⟩
  · rw [h2]
    decide
  · rw [(cull_eq _ _ _).2, sampleIndexed_contents]
    decide
  · intro w
    have hpos : 1 ≤ 2 ^ w := Nat.one_le_two_pow
    rw [merge_eq]
    simp [rebasedIndices, sampleResident, sampleMeshes, Nat.sub_add_cancel hpos]

/-- C5 (amended).  When the index query returns the buffers b1..bn in that order, the
merged vertex list is the concatenation of their vertex lists and the merged index list is
the concatenation of their index lists with every index of bk increased by the total vertex
count of b1..b(k-1) modulo 2^w, where w is the width of the index type; the index is
increased exactly whenever the sum is below 2^w.  This holds whatever the merged lists held
before the call.  For two buffers of 4 vertices and 6 indices each the result has 8 vertices
and 12 indices and the indices of the second buffer are offset by 4, modulo 2^w. -/
theorem C5_cull_merge {E : Type} (env : Env E) (s : WorldChunkMgr E) (aabb : AABB) :
    (cull env s aabb).opaqueVertices = mergedVertices (cull.contents s aabb) ∧
    (cull env s aabb).opaqueIndices.length = indexCount (cull.contents s aabb) ∧
    (∀ (k j v : Nat) (bk : ChunkBuffer),
      (cull.contents s aabb)[k]? = some bk → bk.meshes.mesh.vecIndices[j]? = some v →
      (cull env s aabb).opaqueIndices[indexCount ((cull.contents s aabb).take k) + j]? =
        some ((v + vertexCount ((cull.contents s aabb).take k)) % 2 ^ env.indexBits)) ∧
    (∀ (k j v : Nat) (bk : ChunkBuffer),
      (cull.contents s aabb)[k]? = some bk → bk.meshes.mesh.vecIndices[j]? = some v →
      v + vertexCount ((cull.contents s aabb).take k) < 2 ^ env.indexBits →
      (cull env s aabb).opaqueIndices[indexCount ((cull.contents s aabb).take k) + j]? =
        some (v + vertexCount ((cull.contents s aabb).take k))) ∧
    (∀ b1 b2 : ChunkBuffer, cull.contents s aabb = [b1, b2] →
      b1.meshes.mesh.vecVertices.length = 4 → b1.meshes.mesh.vecIndices.length = 6 →
      b2.meshes.mesh.vecVertices.length = 4 → b2.meshes.mesh.vecIndices.length = 6 →
      (cull env s aabb).opaqueVertices =
        b1.meshes.mesh.vecVertices ++ b2.meshes.mesh.vecVertices ∧
      (cull env s aabb).opaqueVertices.length = 8 ∧
      (cull env s aabb).opaqueIndices.length = 12 ∧
      (cull env s aabb).opaqueIndices =
        b1.meshes.mesh.vecIndices.map (fun v => v % 2 ^ env.indexBits) ++
          b2.meshes.mesh.vecIndices.map (fun v => (v + 4) % 2 ^ env.indexBits)) ∧
    (∀ (vertices : List VoxelVertex) (indices : List Nat),
      cull env { s with opaqueVertices := vertices, opaqueIndices := indices } aabb =
        cull env s aabb) := by
  obtain ⟨hv, hi⟩ := cull_eq env s aabb
  have hpos : ∀ (k j v : Nat) (bk : ChunkBuffer),
      (cull.contents s aabb)[k]? = some bk → bk.meshes.mesh.vecIndices[j]? = some v →
      (cull env s aabb).opaqueIndices[indexCount ((cull.contents s aabb).take k) + j]? =
        some ((v + vertexCount ((cull.contents s aabb).take k)) % 2 ^ env.indexBits) := by
    intro k j v bk hk hj
    rw [hi, rebasedIndices_getElem env.indexBits _ 0 k j v bk hk hj, Nat.zero_add]
  refine ⟨hv, ?_, hpos, ?_, ?_, ?_⟩
  · rw [hi, rebasedIndices_length]
  · intro k j v bk hk hj hlt
    rw [hpos k j v bk hk hj, Nat.mod_eq_of_lt hlt]
  · intro b1 b2 hc h1v h1i h2v h2i
    rw [hv, hi, hc]
    simp [mergedVertices, rebasedIndices, h1v, h1i, h2v, h2i]
  · intro vertices indices
    rfl

/-- C5 (amended) at a concrete input: two resident squares of 4 vertices and 6 indices
each are merged to 8 vertices and the 12 indices 0 1 2 2 3 0 4 5 6 6 7 4. -/
theorem C5_cull_merge_witness :
    (cull (testEnv ⟨1, 1, 1⟩ true false)
      (sampleIndexed ⟨true, sampleBox, sampleQuad ⟨0, 0, 0⟩⟩ ⟨true, sampleBox, sampleQuad ⟨8, 0, 0⟩⟩)
      sampleBox).opaqueVertices.length = 8 ∧
    (cull (testEnv ⟨1, 1, 1⟩ true false)
      (sampleIndexed ⟨true, sampleBox, sampleQuad ⟨0, 0, 0⟩⟩ ⟨true, sampleBox, sampleQuad ⟨8, 0, 0⟩⟩)
      sampleBox).opaqueIndices = [0, 1, 2, 2, 3, 0, 4, 5, 6, 6, 7, 4] := by
  have h := (C5_cull_merge (testEnv ⟨1, 1, 1⟩ true false)
    (sampleIndexed ⟨true, sampleBox, sampleQuad ⟨0, 0, 0⟩⟩ ⟨true, sampleBox, sampleQuad ⟨8, 0, 0⟩⟩)
    sampleBox).2.2.2.2.1 _ _ (sampleIndexed_contents _ _) rfl rfl rfl rfl
  refine ⟨h.2.1, ?_⟩
  rw [h.2.2.2]
  decide

/-- With valid indices in every buffer, every rebased index is below the offset plus the
total vertex count. -/
theorem rebasedIndices_lt (indexBits : Nat) (bufs : List ChunkBuffer) (offset : Nat)
    (hvalid : ∀ b ∈ bufs, ∀ v ∈ b.meshes.mesh.vecIndices, v < b.meshes.mesh.vecVertices.length) :
    ∀ m ∈ rebasedIndices indexBits bufs offset, m < offset + vertexCount bufs := by
  induction bufs generalizing offset with
  | nil => simp [rebasedIndices]
  | cons b bs ih =>
    intro m hm
    simp only [rebasedIndices, List.mem_append, List.mem_map] at hm
    simp only [vertexCount]
    rcases hm with ⟨v, hv, rfl⟩ | hm
    · have h1 := hvalid b (List.mem_cons_self _ _) v hv
      have h2 := Nat.mod_le (v + offset) (2 ^ indexBits)
      omega
    · have := ih (offset + b.meshes.mesh.vecVertices.length)
        (fun b1 hb1 => hvalid b1 (List.mem_cons_of_mem _ hb1)) m hm
      omega

/-- C6.  Merged indices remain valid: if in every buffer returned by the query each index
is smaller than that buffer's vertex count and the total vertex count fits the index type,
then after `cull` every merged index is smaller than the merged vertex count, and the
merged index that comes from the `j`-th index of the `k`-th buffer selects, in the merged
vertex list, the vertex that index selected in its own buffer. -/
theorem C6_merged_indices_valid {E : Type} (env : Env E) (s : WorldChunkMgr E) (aabb : AABB)
    (hvalid : ∀ b ∈ cull.contents s aabb, ∀ v ∈ b.meshes.mesh.vecIndices,
      v < b.meshes.mesh.vecVertices.length)
    (hfit : vertexCount (cull.contents s aabb) < 2 ^ env.indexBits) :
    (∀ m ∈ (cull env s aabb).opaqueIndices, m < (cull env s aabb).opaqueVertices.length) ∧
    (∀ (k j v : Nat) (bk : ChunkBuffer),
      (cull.contents s aabb)[k]? = some bk → bk.meshes.mesh.vecIndices[j]? = some v →
      ∃ (m : Nat) (vertex : VoxelVertex),
        (cull env s aabb).opaqueIndices[indexCount ((cull.contents s aabb).take k) + j]? =
          some m ∧
        m < (cull env s aabb).opaqueVertices.length ∧
        (cull env s aabb).opaqueVertices[m]? = some vertex ∧
        bk.meshes.mesh.vecVertices[v]? = some vertex) := by
  obtain ⟨hv, hi⟩ := cull_eq env s aabb
  rw [hv, hi, mergedVertices_length]
  constructor
  · intro m hm
    simpa using rebasedIndices_lt env.indexBits _ 0 hvalid m hm
  · intro k j v bk hk hj
    have hvlt : v < bk.meshes.mesh.vecVertices.length :=
      hvalid bk (List.getElem?_mem hk) v (List.getElem?_mem hj)
    have hle := vertexCount_take_add_le _ k bk hk
    have hlt : v + vertexCount ((cull.contents s aabb).take k) < 2 ^ env.indexBits := by
      omega
    refine ⟨v + vertexCount ((cull.contents s aabb).take k), bk.meshes.mesh.vecVertices[v],
      ?_, by omega, ?_, by simp [hvlt]⟩
    · rw [rebasedIndices_getElem env.indexBits _ 0 k j v bk hk hj, Nat.zero_add,
        Nat.mod_eq_of_lt hlt]
    · rw [Nat.add_comm, mergedVertices_getElem _ k v bk hk hvlt]
      simp [hvlt]

/-- C6 at a concrete input: two resident squares; every merged index is below the merged
vertex count 8, and the merged index at position 6 + 1, which comes from index 1 of the
second square, selects that square's vertex 1. -/
theorem C6_merged_indices_valid_witness :
    (∀ m ∈ (cull (testEnv ⟨1, 1, 1⟩ true false)
        (sampleIndexed ⟨true, sampleBox, sampleQuad ⟨0, 0, 0⟩⟩
          ⟨true, sampleBox, sampleQuad ⟨8, 0, 0⟩⟩) sampleBox).opaqueIndices,
      m < (cull (testEnv ⟨1, 1, 1⟩ true false)
        (sampleIndexed ⟨true, sampleBox, sampleQuad ⟨0, 0, 0⟩⟩
          ⟨true, sampleBox, sampleQuad ⟨8, 0, 0⟩⟩) sampleBox).opaqueVertices.length) ∧
    ∃ (m : Nat) (vertex : VoxelVertex),
      (cull (testEnv ⟨1, 1, 1⟩ true false)
        (sampleIndexed ⟨true, sampleBox, sampleQuad ⟨0, 0, 0⟩⟩
          ⟨true, sampleBox, sampleQuad ⟨8, 0, 0⟩⟩) sampleBox).opaqueIndices[6 + 1]? = some m ∧
      (cull (testEnv ⟨1, 1, 1⟩ true false)
        (sampleIndexed ⟨true, sampleBox, sampleQuad ⟨0, 0, 0⟩⟩
          ⟨true, sampleBox, sampleQuad ⟨8, 0, 0⟩⟩) sampleBox).opaqueVertices[m]? =
        some vertex ∧
      (sampleQuad ⟨8, 0, 0⟩).mesh.vecVertices[1]? = some vertex := by
  have hc := sampleIndexed_contents ⟨true, sampleBox, sampleQuad ⟨0, 0, 0⟩⟩
    ⟨true, sampleBox, sampleQuad ⟨8, 0, 0⟩⟩
  have h := C6_merged_indices_valid (testEnv ⟨1, 1, 1⟩ true false)
    (sampleIndexed ⟨true, sampleBox, sampleQuad ⟨0, 0, 0⟩⟩
      ⟨true, sampleBox, sampleQuad ⟨8, 0, 0⟩⟩) sampleBox
    (by rw [hc]; decide) (by rw [hc]; decide)
  refine ⟨h.1, ?_⟩
  obtain ⟨m, vertex, h1, -, h3, h4⟩ := h.2 1 1 1 ⟨true, sampleBox, sampleQuad ⟨8, 0, 0⟩⟩
    (by rw [hc]; rfl) (by decide)
  refine ⟨m, vertex, ?_, h3, h4⟩
  rw [hc] at h1
  exact h1

/-! ## The capacity of the pool -/

theorem getElem?_append_of_some {α : Type} (l r : List α) (j : Nat) (a : α)
    (h : l[j]? = some a) : (l ++ r)[j]? = some a := by
  have hlt : j < l.length := by
    rcases List.getElem?_eq_some.1 h with ⟨h1, -⟩
    exact h1
  rw [List.getElem?_append_left hlt, h]

/-- One more completed mesh with a new translation keeps the state described by
`CapacityInv`. -/
theorem capacity_step {E : Type} (env : Env E) (N : Nat) (done : List ChunkMeshes)
    (t : WorldChunkMgr E) (m : ChunkMeshes) (h : CapacityInv N done t)
    (hnew : ∀ m1 ∈ done, m1.translation ≠ m.translation) :
    CapacityInv N (done ++ [m]) (handleMeshQueue.store env t m) := by
  by_cases hroom : done.length < N
  · -- a slot is left
    have hocc : occupiedCount t.chunkBuffers = done.length := by
      rw [h.occ]; exact Nat.min_eq_left (Nat.le_of_lt hroom)
    cases hsel : handleMeshQueue.findChunkBuffer m.translation t.chunkBuffers 0 none with
    | none =>
      exfalso
      have hall := ((findChunkBuffer_none_iff _ _ _ _).1 hsel).2
      have : occupiedCount t.chunkBuffers = t.chunkBuffers.length := by
        simp only [occupiedCount, List.countP_eq_length]
        exact fun c hc => (hall c hc).2
      rw [hocc, h.len] at this
      omega
    | some i =>
      have hlt := findChunkBuffer_lt _ _ _ hsel
      have hcb : t.chunkBuffers[i]? = some (t.chunkBuffers[i]) := by simp [hlt]
      have hfree : (t.chunkBuffers[i]).inuse = false := by
        rcases findChunkBuffer_some _ _ _ hsel with ⟨c0, hc0, hT0, -⟩ | ⟨-, c0, hc0, hf, -⟩
        · rw [hcb] at hc0
          cases hc0
          by_contra hu
          have hu1 : (t.chunkBuffers[i]).inuse = true := by simpa using hu
          obtain ⟨j, -, hj⟩ := h.holds _ (List.getElem?_mem hcb) hu1
          exact hnew _ (List.getElem?_mem hj) hT0
        · rw [hcb] at hc0
          cases hc0
          exact hf
      have hnewslot : (t.chunkBuffers.set i (storedSlot t.chunkBuffers[i] m))[i]? =
          some (storedSlot t.chunkBuffers[i] m) := by simp [hlt]
      rw [store_of_found env t m i _ hsel hcb]
      have hcount : occupiedCount (t.chunkBuffers.set i (storedSlot t.chunkBuffers[i] m)) =
          done.length + 1 := by
        have := occupiedCount_set t.chunkBuffers i _ (storedSlot t.chunkBuffers[i] m) hcb
        rw [hfree, hocc] at this
        simp [storedSlot] at this
        exact_mod_cast this
      refine ⟨?_, ?_, ?_, ?_, ?_⟩
      · simp [h.len]
      · simp only [hfree, Bool.false_eq_true, if_false]
        rw [hcount, h.cnt, hocc]
        push_cast
        rfl
      · simp only [hcount, List.length_append, List.length_singleton]
        exact (Nat.min_eq_left hroom).symm
      · intro c hc hu
        obtain ⟨a, ha⟩ := List.mem_iff_getElem?.1 hc
        by_cases hai : a = i
        · subst hai
          simp only at ha
          rw [hnewslot] at ha
          cases ha
          refine ⟨done.length, hroom, ?_⟩
          rw [List.getElem?_append_right (Nat.le_refl _)]
          simp [storedSlot, updateAABB]
        · simp only at ha
          rw [List.getElem?_set_ne (Ne.symm hai)] at ha
          obtain ⟨j, hj, hd⟩ := h.holds c (List.getElem?_mem ha) hu
          exact ⟨j, hj, getElem?_append_of_some _ _ _ _ hd⟩
      · intro j m1 hj hjN
        by_cases hjd : j < done.length
        · rw [List.getElem?_append_left hjd] at hj
          obtain ⟨c, hc, hu, hm⟩ := h.resident j m1 hj hjN
          obtain ⟨a, ha⟩ := List.mem_iff_getElem?.1 hc
          have hai : a ≠ i := by
            rintro rfl
            rw [hcb] at ha
            cases ha
            rw [hfree] at hu
            cases hu
          refine ⟨c, ?_, hu, hm⟩
          apply List.mem_iff_getElem?.2
          exact ⟨a, by simp only; rw [List.getElem?_set_ne (Ne.symm hai)]; exact ha⟩
        · rw [List.getElem?_append_right (Nat.le_of_not_lt hjd)] at hj
          have hj0 : j - done.length = 0 := by
            by_contra hne
            have hpos : 0 < j - done.length := Nat.pos_of_ne_zero hne
            rw [List.getElem?_eq_none (by simp only [List.length_singleton]; omega)] at hj
            cases hj
          rw [hj0] at hj
          simp at hj
          subst hj
          exact ⟨_, List.getElem?_mem hnewslot, rfl, rfl⟩
  · -- the pool is full
    have hN : N ≤ done.length := Nat.le_of_not_lt hroom
    have hocc : occupiedCount t.chunkBuffers = t.chunkBuffers.length := by
      rw [h.occ, h.len]; exact Nat.min_eq_right hN
    have hall : ∀ c ∈ t.chunkBuffers, c.inuse = true := by
      simpa [occupiedCount, List.countP_eq_length] using hocc
    have hsel : handleMeshQueue.findChunkBuffer m.translation t.chunkBuffers 0 none = none := by
      refine (findChunkBuffer_none_iff _ _ _ _).2 ⟨rfl, fun c hc => ⟨?_, hall c hc⟩⟩
      obtain ⟨j, -, hj⟩ := h.holds c hc (hall c hc)
      exact hnew _ (List.getElem?_mem hj)
    rw [store_of_none env t m hsel]
    refine ⟨h.len, h.cnt, ?_, ?_, ?_⟩
    · rw [h.occ, List.length_append, List.length_singleton, Nat.min_eq_right hN,
        Nat.min_eq_right (Nat.le_succ_of_le hN)]
    · intro c hc hu
      obtain ⟨j, hj, hd⟩ := h.holds c hc hu
      exact ⟨j, hj, getElem?_append_of_some _ _ _ _ hd⟩
    · intro j m1 hj hjN
      rw [List.getElem?_append_left (Nat.lt_of_lt_of_le hjN hN)] at hj
      exact h.resident j m1 hj hjN

/-- The state described by `CapacityInv` after all meshes of a list with pairwise distinct
translations were stored in a pool without an occupied slot. -/
theorem capacity_fold {E : Type} (env : Env E) (s : WorldChunkMgr E) (ms : List ChunkMeshes)
    (hfree : ∀ c ∈ s.chunkBuffers, c.inuse = false) (hzero : s.activeChunkBuffers = 0)
    (hdistinct : (ms.map ChunkMeshes.translation).Nodup) :
    CapacityInv s.chunkBuffers.length ms (ms.foldl (handleMeshQueue.store env) s) := by
  induction ms using List.reverseRecOn with
  | nil =>
    refine ⟨rfl, ?_, ?_, ?_, ?_⟩
    · simp [hzero, occupiedCount_of_free _ hfree]
    · simp [occupiedCount_of_free _ hfree]
    · intro c hc hu
      rw [hfree c hc] at hu
      cases hu
    · intro j m hj
      simp at hj
  | append_singleton done m ih =>
    rw [List.foldl_append]
    simp only [List.foldl_cons, List.foldl_nil]
    rw [List.map_append, List.nodup_append] at hdistinct
    obtain ⟨hd, -, hdisj⟩ := hdistinct
    refine capacity_step env _ done _ m (ih hd) ?_
    intro m1 hm1 heq
    exact hdisj (List.mem_map_of_mem _ hm1) (by simp [heq])

/-- Storing a mesh neither reads nor writes the extractor. -/
theorem store_ext {E : Type} (env : Env E) (s : WorldChunkMgr E) (e : E) (m : ChunkMeshes) :
    handleMeshQueue.store env { s with meshExtractor := e } m =
      { handleMeshQueue.store env s m with meshExtractor := e } := by
  cases hsel : handleMeshQueue.findChunkBuffer m.translation s.chunkBuffers 0 none with
  | none =>
    rw [store_of_none env s m hsel, store_of_none env { s with meshExtractor := e } m hsel]
  | some i =>
    have hlt := findChunkBuffer_lt _ _ _ hsel
    have hcb : s.chunkBuffers[i]? = some (s.chunkBuffers[i]) := by simp [hlt]
    rw [store_of_found env s m i _ hsel hcb,
      store_of_found env { s with meshExtractor := e } m i _ hsel hcb]

theorem foldl_store_ext {E : Type} (env : Env E) (ms : List ChunkMeshes) (s : WorldChunkMgr E)
    (e : E) :
    ms.foldl (handleMeshQueue.store env) { s with meshExtractor := e } =
      { ms.foldl (handleMeshQueue.store env) s with meshExtractor := e } := by
  induction ms generalizing s with
  | nil => rfl
  | cons m ms ih =>
    simp only [List.foldl_cons]
    rw [store_ext, ih]

/-- As many calls of `handleMeshQueue` as the extractor delivers meshes store these meshes
one after the other. -/
theorem iterate_handleMeshQueue {E : Type} (env : Env E) (ms : List ChunkMeshes)
    (s : WorldChunkMgr E) (hdel : delivers env s.meshExtractor ms) :
    ∃ e, (handleMeshQueue env)^[ms.length] s =
      { ms.foldl (handleMeshQueue.store env) s with meshExtractor := e } := by
  induction ms generalizing s with
  | nil => exact ⟨s.meshExtractor, rfl⟩
  | cons m ms ih =>
    obtain ⟨hpop, hrest⟩ := hdel
    have hstep : handleMeshQueue env s =
        { handleMeshQueue.store env s m with meshExtractor := (env.pop s.meshExtractor).2 } := by
      unfold handleMeshQueue
      rcases hp : env.pop s.meshExtractor with ⟨popped, e1⟩
      rw [hp] at hpop
      simp only at hpop
      subst hpop
      simp only
      rw [store_ext]
    obtain ⟨e, he⟩ := ih (handleMeshQueue env s) (by rw [hstep]; exact hrest)
    refine ⟨e, ?_⟩
    rw [List.length_cons, Function.iterate_succ, Function.comp_apply, he, hstep,
      foldl_store_ext]
    rfl

theorem delivers_take {E : Type} (env : Env E) (ms : List ChunkMeshes) (e : E) (n : Nat)
    (hdel : delivers env e ms) : delivers env e (ms.take n) := by
  induction ms generalizing e n with
  | nil => simpa using hdel
  | cons m ms ih =>
    cases n with
    | zero => trivial
    | succ n => exact ⟨hdel.1, ih _ n hdel.2⟩

/-- C7.  Capacity bound: a pool of capacity N without an occupied slot and with a count of
0 receives, through k calls of `handleMeshQueue`, k completed meshes with pairwise distinct
translations.  After the first n of these calls the active count is min(n, N), so it is
min(k, N) at the end and never exceeds N; each of the first N meshes is held by an occupied
slot at the end; each later mesh is dropped: no slot holds it. -/
theorem C7_capacity_bound {E : Type} (env : Env E) (s : WorldChunkMgr E)
    (ms : List ChunkMeshes)
    (hfree : ∀ c ∈ s.chunkBuffers, c.inuse = false) (hzero : s.activeChunkBuffers = 0)
    (hdistinct : (ms.map ChunkMeshes.translation).Nodup)
    (hdel : delivers env s.meshExtractor ms) :
    (∀ n, n ≤ ms.length →
      ((handleMeshQueue env)^[n] s).activeChunkBuffers =
        ((Min.min n s.chunkBuffers.length : Nat) : Int) ∧
      ((handleMeshQueue env)^[n] s).activeChunkBuffers ≤ (s.chunkBuffers.length : Int)) ∧
    (∀ (j : Nat) (m : ChunkMeshes), ms[j]? = some m → j < s.chunkBuffers.length →
      ∃ c ∈ ((handleMeshQueue env)^[ms.length] s).chunkBuffers,
        c.inuse = true ∧ c.meshes = m) ∧
    (∀ (j : Nat) (m : ChunkMeshes), ms[j]? = some m → s.chunkBuffers.length ≤ j →
      ∀ c ∈ ((handleMeshQueue env)^[ms.length] s).chunkBuffers, c.meshes ≠ m) ∧
    ((handleMeshQueue env)^[ms.length] s).chunkBuffers.length = s.chunkBuffers.length := by
  obtain ⟨e, he⟩ := iterate_handleMeshQueue env ms s hdel
  have hinv := capacity_fold env s ms hfree hzero hdistinct
  refine ⟨?_, ?_, ?_, ?_⟩
  · intro n hn
    have hlen : (ms.take n).length = n := by simp [hn]
    obtain ⟨e1, he1⟩ := iterate_handleMeshQueue env (ms.take n) s (delivers_take env ms _ n hdel)
    rw [hlen] at he1
    have hinv1 := capacity_fold env s (ms.take n) hfree hzero
      ((List.take_sublist n ms).map _ |>.nodup hdistinct)
    have hval : ((handleMeshQueue env)^[n] s).activeChunkBuffers =
        ((Min.min n s.chunkBuffers.length : Nat) : Int) := by
      rw [he1]
      simp only
      rw [hinv1.cnt, hinv1.occ, hlen]
    refine ⟨hval, ?_⟩
    rw [hval]
    exact_mod_cast Nat.min_le_right _ _
  · intro j m hj hjN
    rw [he]
    exact hinv.resident j m hj hjN
  · intro j m hj hjN c hc hcm
    rw [he] at hc
    simp only at hc
    have hjlt : j < ms.length := by
      rcases List.getElem?_eq_some.1 hj with ⟨h1, -⟩
      exact h1
    have hocc : occupiedCount (ms.foldl (handleMeshQueue.store env) s).chunkBuffers =
        (ms.foldl (handleMeshQueue.store env) s).chunkBuffers.length := by
      rw [hinv.occ, hinv.len]
      exact Nat.min_eq_right (by omega)
    have hall : ∀ c ∈ (ms.foldl (handleMeshQueue.store env) s).chunkBuffers,
        c.inuse = true := by
      simpa [occupiedCount, List.countP_eq_length] using hocc
    obtain ⟨j1, hj1, hd⟩ := hinv.holds c hc (hall c hc)
    rw [hcm] at hd
    have hne : j1 < j := by omega
    have := (List.nodup_iff_getElem?_ne_getElem?.1 hdistinct) j1 j hne (by simpa using hjlt)
    apply this
    simp [hd, hj]
  · rw [he]
    exact hinv.len

/-- C7 at the scenario of the specification: a pool of capacity 4 receives the meshes
A, B, C, D, E; after the five calls the active count is 4 and no slot holds E. -/
theorem C7_capacity_bound_witness :
    ((handleMeshQueue (testEnv ⟨1, 1, 1⟩ true false))^[5]
      (sampleMgr 4 100
        [sampleTriangle ⟨10, 0, 0⟩, sampleTriangle ⟨20, 0, 0⟩, sampleTriangle ⟨30, 0, 0⟩,
         sampleTriangle ⟨40, 0, 0⟩, sampleTriangle ⟨50, 0, 0⟩])).activeChunkBuffers = 4 ∧
    (∀ c ∈ ((handleMeshQueue (testEnv ⟨1, 1, 1⟩ true false))^[5]
      (sampleMgr 4 100
        [sampleTriangle ⟨10, 0, 0⟩, sampleTriangle ⟨20, 0, 0⟩, sampleTriangle ⟨30, 0, 0⟩,
         sampleTriangle ⟨40, 0, 0⟩, sampleTriangle ⟨50, 0, 0⟩])).chunkBuffers,
      c.meshes ≠ sampleTriangle ⟨50, 0, 0⟩) ∧
    (∃ c ∈ ((handleMeshQueue (testEnv ⟨1, 1, 1⟩ true false))^[5]
      (sampleMgr 4 100
        [sampleTriangle ⟨10, 0, 0⟩, sampleTriangle ⟨20, 0, 0⟩, sampleTriangle ⟨30, 0, 0⟩,
         sampleTriangle ⟨40, 0, 0⟩, sampleTriangle ⟨50, 0, 0⟩])).chunkBuffers,
      c.inuse = true ∧ c.meshes = sampleTriangle ⟨40, 0, 0⟩) := by
  have h := C7_capacity_bound (testEnv ⟨1, 1, 1⟩ true false)
    (sampleMgr 4 100
      [sampleTriangle ⟨10, 0, 0⟩, sampleTriangle ⟨20, 0, 0⟩, sampleTriangle ⟨30, 0, 0⟩,
       sampleTriangle ⟨40, 0, 0⟩, sampleTriangle ⟨50, 0, 0⟩])
    [sampleTriangle ⟨10, 0, 0⟩, sampleTriangle ⟨20, 0, 0⟩, sampleTriangle ⟨30, 0, 0⟩,
     sampleTriangle ⟨40, 0, 0⟩, sampleTriangle ⟨50, 0, 0⟩]
    (by decide) (by decide) (by decide) ⟨rfl, rfl, rfl, rfl, rfl, trivial⟩
  exact ⟨(h.1 5 (by decide)).1, h.2.2.1 4 _ (by decide) (by decide),
    h.2.1 3 _ (by decide) (by decide)⟩

/-! ## The eviction rule -/

theorem wrapInt32_of_inInt32 (v : Int) (h : inInt32 v) : wrapInt32 v = v := by
  unfold inInt32 INT_MIN INT_MAX at h
  unfold wrapInt32
  omega

/-- Without overflow `getDistanceSquare` is the squared planar distance. -/
theorem getDistanceSquare_eq (pos pos2 : IVec3) (h : noOverflow pos pos2) :
    getDistanceSquare pos pos2 = planarDistanceSquare pos pos2 := by
  obtain ⟨hx, hz, hsum⟩ := h
  simp only [getDistanceSquare, IVec3.sub, planarDistanceSquare, wrapInt32_of_inInt32 _ hx,
    wrapInt32_of_inInt32 _ hz]
  have h1 : 0 ≤ (pos.x - pos2.x) * (pos.x - pos2.x) := mul_self_nonneg _
  have h2 : 0 ≤ (pos.z - pos2.z) * (pos.z - pos2.z) := mul_self_nonneg _
  have hsum1 : inInt32 ((pos.x - pos2.x) * (pos.x - pos2.x) +
      (pos.z - pos2.z) * (pos.z - pos2.z)) := by
    simpa [sq] using hsum
  have hxx : inInt32 ((pos.x - pos2.x) * (pos.x - pos2.x)) := by
    unfold inInt32 INT_MIN INT_MAX at hsum1 ⊢
    omega
  have hzz : inInt32 ((pos.z - pos2.z) * (pos.z - pos2.z)) := by
    unfold inInt32 INT_MIN INT_MAX at hsum1 ⊢
    omega
  rw [wrapInt32_of_inInt32 _ hxx, wrapInt32_of_inInt32 _ hzz, wrapInt32_of_inInt32 _ hsum1]
  ring

/-- The y coordinates do not enter `getDistanceSquare`. -/
theorem getDistanceSquare_y (pos pos2 : IVec3) (y y2 : Int) :
    getDistanceSquare ⟨pos.x, y, pos.z⟩ ⟨pos2.x, y2, pos2.z⟩ = getDistanceSquare pos pos2 := by
  simp [getDistanceSquare, IVec3.sub]

/-- C8.  Eviction rule of `update(focus)`, over integer coordinates without overflow.  When
`update` returns: a slot that is occupied before the call and whose squared planar distance
(tx-fx)^2 + (tz-fz)^2 is beyond the cutoff has its in-use flag cleared, with its other
contents kept, and no back-reference to it is left in the index; a slot that is occupied
and below the cutoff is unchanged and keeps its back-references; free slots are unchanged;
the active count went down by the number of slots that lost their flag.  `update` returns
whenever `core_assert_always` does not end the process or the extractor allows every
re-extraction.  The y coordinates of the translation and of the focus enter neither the
distance nor the decision. -/
theorem C8_eviction_rule {E : Type} (env : Env E) (s : WorldChunkMgr E) (focusPos : IVec3)
    (hno : ∀ c ∈ s.chunkBuffers, c.inuse = true → noOverflow c.translation focusPos) :
    (∀ s1, update env s focusPos = some s1 →
      s1.chunkBuffers.length = s.chunkBuffers.length ∧
      (∀ (i : Nat) (c : ChunkBuffer), s.chunkBuffers[i]? = some c → c.inuse = true →
        s.maxAllowedDistance < planarDistanceSquare c.translation focusPos →
        s1.chunkBuffers[i]? = some { c with inuse := false } ∧
        ∀ entry ∈ s1.octree.contents, entry.1 ≠ i) ∧
      (∀ (i : Nat) (c : ChunkBuffer), s.chunkBuffers[i]? = some c → c.inuse = true →
        planarDistanceSquare c.translation focusPos < s.maxAllowedDistance →
        s1.chunkBuffers[i]? = some c ∧
        ∀ entry, entry.1 = i → (entry ∈ s1.octree.contents ↔ entry ∈ s.octree.contents)) ∧
      (∀ (i : Nat) (c : ChunkBuffer), s.chunkBuffers[i]? = some c → c.inuse = false →
        s1.chunkBuffers[i]? = some c ∧
        ∀ entry, entry.1 = i → (entry ∈ s1.octree.contents ↔ entry ∈ s.octree.contents)) ∧
      s1.activeChunkBuffers =
        s.activeChunkBuffers - ((occupiedCount s.chunkBuffers : Int) -
          (occupiedCount s1.chunkBuffers : Int)) ∧
      (∀ entry ∈ s1.octree.contents, entry ∈ s.octree.contents)) ∧
    ((env.assertAborts = false ∨ ∀ e t, (env.allowReExtraction e t).1 = true) →
      ∃ s1, update env s focusPos = some s1) ∧
    (∀ (pos pos2 : IVec3) (y y2 : Int),
      getDistanceSquare ⟨pos.x, y, pos.z⟩ ⟨pos2.x, y2, pos2.z⟩ = getDistanceSquare pos pos2) ∧
    (∀ (c c1 : ChunkBuffer) (focusPos1 : IVec3), c.inuse = c1.inuse →
      c.translation.x = c1.translation.x → c.translation.z = c1.translation.z →
      focusPos.x = focusPos1.x → focusPos.z = focusPos1.z →
      outOfRange focusPos s.maxAllowedDistance c =
        outOfRange focusPos1 s.maxAllowedDistance c1) := by
  refine ⟨?_, fun hok => update_total env s focusPos hok, getDistanceSquare_y, ?_⟩
  · intro s1 hu
    obtain ⟨h1, h2, h3, -⟩ := update_result env s s1 focusPos hu
    have hslot : ∀ (i : Nat) (c : ChunkBuffer), s.chunkBuffers[i]? = some c →
        s1.chunkBuffers[i]? = some (evictSlot focusPos s.maxAllowedDistance c) := by
      intro i c hc
      rw [h1]
      simp [hc]
    have hkeep : ∀ (i : Nat) (c : ChunkBuffer), s.chunkBuffers[i]? = some c →
        outOfRange focusPos s.maxAllowedDistance c = false →
        s1.chunkBuffers[i]? = some c ∧
        ∀ entry, entry.1 = i → (entry ∈ s1.octree.contents ↔ entry ∈ s.octree.contents) := by
      intro i c hc hout
      refine ⟨by rw [hslot i c hc]; simp [evictSlot, hout], ?_⟩
      intro entry he
      rw [h3]
      constructor
      · exact fun h => h.1
      · intro hm
        refine ⟨hm, ?_⟩
        rintro ⟨k, cb, hk, ho, hek⟩
        rw [he] at hek
        subst hek
        rw [hc] at hk
        cases hk
        rw [hout] at ho
        cases ho
    refine ⟨by rw [h1]; simp, ?_, ?_, ?_, ?_, ?_⟩
    · intro i c hc hu1 hfar
      have hout : outOfRange focusPos s.maxAllowedDistance c = true := by
        simp only [outOfRange, hu1, Bool.true_and, Bool.not_eq_true', decide_eq_false_iff_not,
          getDistanceSquare_eq _ _ (hno c (List.getElem?_mem hc) hu1)]
        omega
      refine ⟨by rw [hslot i c hc]; simp [evictSlot, hout], ?_⟩
      intro entry hm he
      exact ((h3 entry).1 hm).2 ⟨i, c, hc, hout, he⟩
    · intro i c hc hu1 hnear
      refine hkeep i c hc ?_
      simp only [outOfRange, hu1, Bool.true_and, Bool.not_eq_false', decide_eq_true_eq,
        getDistanceSquare_eq _ _ (hno c (List.getElem?_mem hc) hu1)]
      exact hnear
    · intro i c hc hfree
      exact hkeep i c hc (by simp [outOfRange, hfree])
    · rw [h2, h1, occupiedCount_evict]
      ring
    · intro entry hm
      exact ((h3 entry).1 hm).1
  · intro c c1 focusPos1 hu hx hz hfx hfz
    have hd : getDistanceSquare c.translation focusPos =
        getDistanceSquare c1.translation focusPos1 := by
      simp [getDistanceSquare, IVec3.sub, hx, hz, hfx, hfz]
    simp [outOfRange, hu, hd]

/-- C8 at a concrete input: cutoff 10000, focus (0,50,0); the slot at (150,7,0) is evicted,
the slot at (10,0,0) stays, the free slot is untouched, and the count goes from 2 to 1. -/
theorem C8_eviction_rule_witness :
    ∃ s1, update (testEnv ⟨1, 1, 1⟩ true true)
        (samplePool [⟨true, sampleBox, sampleTriangle ⟨150, 7, 0⟩⟩,
          ⟨true, sampleBox, sampleTriangle ⟨10, 0, 0⟩⟩, sampleFreeSlot] 2 10000 2)
        ⟨0, 50, 0⟩ = some s1 ∧
      s1.chunkBuffers = [⟨false, sampleBox, sampleTriangle ⟨150, 7, 0⟩⟩,
        ⟨true, sampleBox, sampleTriangle ⟨10, 0, 0⟩⟩, sampleFreeSlot] ∧
      s1.activeChunkBuffers = 1 ∧
      ∀ entry ∈ s1.octree.contents, entry.1 ≠ 0 := by
  have h := C8_eviction_rule (testEnv ⟨1, 1, 1⟩ true true)
    (samplePool [⟨true, sampleBox, sampleTriangle ⟨150, 7, 0⟩⟩,
      ⟨true, sampleBox, sampleTriangle ⟨10, 0, 0⟩⟩, sampleFreeSlot] 2 10000 2)
    ⟨0, 50, 0⟩ (by decide)
  obtain ⟨s1, hs1⟩ := h.2.1 (Or.inr (fun _ _ => rfl))
  obtain ⟨hlen, hfar, hnear, hfree, hcnt, -⟩ := h.1 s1 hs1
  have h0 := hfar 0 ⟨true, sampleBox, sampleTriangle ⟨150, 7, 0⟩⟩ rfl rfl (by decide)
  have h1 := hnear 1 ⟨true, sampleBox, sampleTriangle ⟨10, 0, 0⟩⟩ rfl rfl (by decide)
  have h2 := hfree 2 sampleFreeSlot rfl rfl
  have hbufs : s1.chunkBuffers = [⟨false, sampleBox, sampleTriangle ⟨150, 7, 0⟩⟩,
      ⟨true, sampleBox, sampleTriangle ⟨10, 0, 0⟩⟩, sampleFreeSlot] := by
    apply List.ext_getElem?
    intro n
    match n with
    | 0 => rw [h0.1]; rfl
    | 1 => rw [h1.1]; rfl
    | 2 => rw [h2.1]; rfl
    | n + 3 =>
      have hlen3 : s1.chunkBuffers.length = 3 := hlen
      rw [List.getElem?_eq_none (by omega), List.getElem?_eq_none (by simp)]
  refine ⟨s1, hs1, hbufs, ?_, h0.2⟩
  rw [hcnt, hbufs]
  decide

/-! ## The calls of `allowReExtraction` -/

/-- The calls made before the loop are handed through unchanged. -/
theorem update_loop_prepend {E : Type} (env : Env E) (focusPos : IVec3) (maxD : Int)
    (bufs : List ChunkBuffer) (i : Nat) (active : Int) (octree : Octree) (e : E)
    (calls : List ReExtractionCall) :
    update.loop env focusPos maxD i bufs active octree e calls =
      ⟨(update.loop env focusPos maxD i bufs active octree e []).result,
        calls ++ (update.loop env focusPos maxD i bufs active octree e []).calls⟩ := by
  induction bufs generalizing i active octree e calls with
  | nil => simp [update.loop]
  | cons b bs ih =>
    rw [update_loop_cons, update_loop_cons env focusPos maxD i b bs active octree e []]
    by_cases ho : outOfRange focusPos maxD b = true
    · simp only [ho, if_true]
      by_cases ha : (!(env.allowReExtraction e b.translation).1 && env.assertAborts) = true
      · simp [ha]
      · simp only [ha]
        rw [ih (i + 1) (active - 1) (octree.remove i) _ (calls ++ _),
          ih (i + 1) (active - 1) (octree.remove i) _ ([] ++ _)]
        simp [UpdateRun.cons]
    · simp only [ho]
      rw [ih (i + 1) active octree e calls]
      simp [UpdateRun.cons]

/-- The calls of the loop of `update`, by the case the head slot falls in. -/
theorem update_loop_calls_cons {E : Type} (env : Env E) (focusPos : IVec3) (maxD : Int)
    (i : Nat) (cb : ChunkBuffer) (rest : List ChunkBuffer) (active : Int) (octree : Octree)
    (e : E) :
    (update.loop env focusPos maxD i (cb :: rest) active octree e []).calls =
      if outOfRange focusPos maxD cb then
        if !(env.allowReExtraction e cb.translation).1 && env.assertAborts then
          [⟨i, cb.translation, cb.inuse, octree, active,
            (env.allowReExtraction e cb.translation).1⟩]
        else
          ⟨i, cb.translation, cb.inuse, octree, active,
              (env.allowReExtraction e cb.translation).1⟩ ::
            (update.loop env focusPos maxD (i + 1) rest (active - 1) (octree.remove i)
              (env.allowReExtraction e cb.translation).2 []).calls
      else (update.loop env focusPos maxD (i + 1) rest active octree e []).calls := by
  rw [update_loop_cons]
  by_cases ho : outOfRange focusPos maxD cb = true
  · simp only [ho, if_true]
    by_cases ha : (!(env.allowReExtraction e cb.translation).1 && env.assertAborts) = true
    · simp [ha]
    · simp only [ha]
      rw [update_loop_prepend]
      simp [UpdateRun.cons]
  · simp only [ho]
    simp [UpdateRun.cons]

/-- Whether the loop of `update` comes to its end, by the case the head slot falls in. -/
theorem update_loop_isNone_cons {E : Type} (env : Env E) (focusPos : IVec3) (maxD : Int)
    (i : Nat) (cb : ChunkBuffer) (rest : List ChunkBuffer) (active : Int) (octree : Octree)
    (e : E) :
    ((update.loop env focusPos maxD i (cb :: rest) active octree e []).result = none) ↔
      if outOfRange focusPos maxD cb then
        if !(env.allowReExtraction e cb.translation).1 && env.assertAborts then True
        else
          (update.loop env focusPos maxD (i + 1) rest (active - 1) (octree.remove i)
            (env.allowReExtraction e cb.translation).2 []).result = none
      else (update.loop env focusPos maxD (i + 1) rest active octree e []).result = none := by
  rw [update_loop_cons]
  by_cases ho : outOfRange focusPos maxD cb = true
  · simp only [ho, if_true]
    by_cases ha : (!(env.allowReExtraction e cb.translation).1 && env.assertAborts) = true
    · simp [ha]
    · simp only [ha]
      rw [update_loop_prepend]
      simp [UpdateRun.cons]
  · simp only [ho]
    simp [UpdateRun.cons]

theorem remove_refsOf_ne (o : Octree) (i j : Nat) (h : i ≠ j) :
    (o.remove j).refsOf i = o.refsOf i := by
  simp only [Octree.remove, Octree.refsOf, List.filter_filter]
  apply List.filter_congr
  intro entry _
  by_cases he : entry.1 = i
  · simp [he, h]
  · simp [he]

theorem evictedSlots_length (focusPos : IVec3) (maxD : Int) (i : Nat)
    (bufs : List ChunkBuffer) :
    (evictedSlots focusPos maxD i bufs).length = bufs.countP (outOfRange focusPos maxD) := by
  induction bufs generalizing i with
  | nil => rfl
  | cons b bs ih =>
    simp only [evictedSlots, List.countP_cons]
    by_cases ho : outOfRange focusPos maxD b = true
    · simp [ho, ih]
    · simp [ho, ih]

/-- Every call is made for an out-of-range occupied slot, with the flag of that slot still
set, its back-references still in the index, and the count lowered only for the calls made
before. -/
theorem update_loop_call_facts {E : Type} (env : Env E) (focusPos : IVec3) (maxD : Int)
    (bufs : List ChunkBuffer) (i : Nat) (active : Int) (octree : Octree) (e : E)
    (n : Nat) (call : ReExtractionCall)
    (h : (update.loop env focusPos maxD i bufs active octree e []).calls[n]? = some call) :
    ∃ (k : Nat) (c : ChunkBuffer), call.slot = i + k ∧ bufs[k]? = some c ∧
      outOfRange focusPos maxD c = true ∧ call.translation = c.translation ∧
      call.inuse = true ∧ call.octree.refsOf call.slot = octree.refsOf call.slot ∧
      call.activeChunkBuffers = active - n := by
  induction bufs generalizing i active octree e n with
  | nil => simp [update.loop] at h
  | cons b bs ih =>
    rw [update_loop_calls_cons] at h
    by_cases ho : outOfRange focusPos maxD b = true
    · have hu : b.inuse = true := by
        simp only [outOfRange, Bool.and_eq_true] at ho
        exact ho.1
      simp only [ho, if_true] at h
      have hhead : ∀ call0 : ReExtractionCall,
          call0 = ⟨i, b.translation, b.inuse, octree, active,
            (env.allowReExtraction e b.translation).1⟩ →
          ∃ (k : Nat) (c : ChunkBuffer), call0.slot = i + k ∧ (b :: bs)[k]? = some c ∧
            outOfRange focusPos maxD c = true ∧ call0.translation = c.translation ∧
            call0.inuse = true ∧ call0.octree.refsOf call0.slot = octree.refsOf call0.slot ∧
            call0.activeChunkBuffers = active - (0 : Nat) := by
        rintro call0 rfl
        exact ⟨0, b, rfl, by simp, ho, rfl, hu, rfl, by simp⟩
      by_cases ha : (!(env.allowReExtraction e b.translation).1 && env.assertAborts) = true
      · simp only [ha, if_true] at h
        cases n with
        | zero =>
          simp at h
          exact hhead call h.symm
        | succ n => simp at h
      · simp only [ha] at h
        cases n with
        | zero =>
          simp at h
          exact hhead call h.symm
        | succ n =>
          simp only [Bool.false_eq_true, if_false, List.getElem?_cons_succ] at h
          obtain ⟨k, c, h1, h2, h3, h4, h5, h6, h7⟩ := ih _ _ _ _ _ h
          refine ⟨k + 1, c, by omega, by simpa using h2, h3, h4, h5, ?_, ?_⟩
          · rw [h6, remove_refsOf_ne _ _ _ (by omega)]
          · rw [h7]
            push_cast
            ring
    · simp only [ho] at h
      obtain ⟨k, c, h1, h2, h3, h4, h5, h6, h7⟩ := ih _ _ _ _ _ h
      exact ⟨k + 1, c, by omega, by simpa using h2, h3, h4, h5, h6, h7⟩

/-- A loop that comes to its end made one call for each out-of-range occupied slot, in
slot order, and with an assertion that ends the process every call succeeded. -/
theorem update_loop_calls_of_some {E : Type} (env : Env E) (focusPos : IVec3) (maxD : Int)
    (bufs : List ChunkBuffer) (i : Nat) (active : Int) (octree : Octree) (e : E)
    (h : (update.loop env focusPos maxD i bufs active octree e []).result ≠ none) :
    (update.loop env focusPos maxD i bufs active octree e []).calls.map
        (fun call => call.slot) = evictedSlots focusPos maxD i bufs ∧
    (env.assertAborts = true →
      ∀ call ∈ (update.loop env focusPos maxD i bufs active octree e []).calls,
        call.result = true) := by
  induction bufs generalizing i active octree e with
  | nil => simp [update.loop, evictedSlots]
  | cons b bs ih =>
    rw [Ne, update_loop_isNone_cons] at h
    rw [update_loop_calls_cons]
    simp only [evictedSlots]
    by_cases ho : outOfRange focusPos maxD b = true
    · simp only [ho, if_true] at h ⊢
      by_cases ha : (!(env.allowReExtraction e b.translation).1 && env.assertAborts) = true
      · simp [ha] at h
      · simp only [ha] at h ⊢
        obtain ⟨h1, h2⟩ := ih _ _ _ _ h
        refine ⟨by simp [h1], ?_⟩
        intro hab call hc
        rcases List.mem_cons.1 hc with rfl | hc
        · simpa [hab] using ha
        · exact h2 hab call hc
    · simp only [ho] at h ⊢
      exact ih _ _ _ _ h

/-- The loop of `update` does not come to its end exactly when the assertion ends the
process and one of the calls failed. -/
theorem update_loop_none_iff {E : Type} (env : Env E) (focusPos : IVec3) (maxD : Int)
    (bufs : List ChunkBuffer) (i : Nat) (active : Int) (octree : Octree) (e : E) :
    (update.loop env focusPos maxD i bufs active octree e []).result = none ↔
      (env.assertAborts = true ∧
        ∃ call ∈ (update.loop env focusPos maxD i bufs active octree e []).calls,
          call.result = false) := by
  induction bufs generalizing i active octree e with
  | nil => simp [update.loop]
  | cons b bs ih =>
    rw [update_loop_isNone_cons, update_loop_calls_cons]
    by_cases ho : outOfRange focusPos maxD b = true
    · simp only [ho, if_true]
      by_cases ha : (!(env.allowReExtraction e b.translation).1 && env.assertAborts) = true
      · simp only [ha, if_true, true_iff]
        simp only [Bool.and_eq_true, Bool.not_eq_true'] at ha
        exact ⟨ha.2, _, List.mem_singleton.2 rfl, ha.1⟩
      · simp only [ha]
        rw [ih]
        constructor
        · rintro ⟨hab, call, hc, hr⟩
          exact ⟨hab, call, List.mem_cons_of_mem _ hc, hr⟩
        · rintro ⟨hab, call, hc, hr⟩
          refine ⟨hab, ?_⟩
          rcases List.mem_cons.1 hc with rfl | hc
          · exfalso
            apply ha
            simp only at hr
            simp [hab, hr]
          · exact ⟨call, hc, hr⟩
    · simp only [ho]
      exact ih _ _ _ _

theorem update_traced_calls {E : Type} (env : Env E) (s : WorldChunkMgr E) (focusPos : IVec3) :
    (update.traced env s focusPos).2 =
      (update.loop env focusPos s.maxAllowedDistance 0 s.chunkBuffers s.activeChunkBuffers
        s.octree (env.updateExtractionOrder s.meshExtractor focusPos) []).calls := rfl

theorem update_eq_none_iff {E : Type} (env : Env E) (s : WorldChunkMgr E) (focusPos : IVec3) :
    update env s focusPos = none ↔
      (update.loop env focusPos s.maxAllowedDistance 0 s.chunkBuffers s.activeChunkBuffers
        s.octree (env.updateExtractionOrder s.meshExtractor focusPos) []).result = none := by
  simp [update, update.traced]

/-- C9 (as stated, refuted).  One resident, indexed slot at (150,0,0), cutoff 10000, focus at
the origin, and an extractor whose `allowReExtraction` fails.  With an assertion that lets
the process continue the failed call changes nothing: the flag of the slot is cleared, the
count goes from 1 to 0 and the back-reference is removed.  With an assertion that ends the
process `update` does not return. -/
theorem C9_counterexample :
    slotSummary (samplePool [⟨true, sampleBox, sampleTriangle ⟨150, 0, 0⟩⟩] 1 10000 1) =
      [(true, ⟨150, 0, 0⟩)] ∧
    (samplePool [⟨true, sampleBox, sampleTriangle ⟨150, 0, 0⟩⟩] 1 10000 1).octree.contents =
      [(0, sampleBox)] ∧
    (update.traced (testEnv ⟨1, 1, 1⟩ false false)
      (samplePool [⟨true, sampleBox, sampleTriangle ⟨150, 0, 0⟩⟩] 1 10000 1)
      ⟨0, 0, 0⟩).2.map (fun call => (call.slot, call.translation, call.result)) =
      [(0, ⟨150, 0, 0⟩, false)] ∧
    (update (testEnv ⟨1, 1, 1⟩ false false)
      (samplePool [⟨true, sampleBox, sampleTriangle ⟨150, 0, 0⟩⟩] 1 10000 1)
      ⟨0, 0, 0⟩).map (fun s1 => (slotSummary s1, s1.activeChunkBuffers, s1.octree.contents)) =
      some ([(false, ⟨150, 0, 0⟩)], 0, []) ∧
    update (testEnv ⟨1, 1, 1⟩ false true)
      (samplePool [⟨true, sampleBox, sampleTriangle ⟨150, 0, 0⟩⟩] 1 10000 1) ⟨0, 0, 0⟩ =
      none := by
  decide

/-- C9 (amended).  `update` calls `allowReExtraction(translation)` for a slot exactly when
the slot is occupied and out of range, and at the moment of the call the slot still has its
in-use flag, the index still holds its back-references, and the active count is lowered only
for the slots evicted before.  It is never called for a slot that stays resident or is free.
The answer is only asserted: when `update` returns, every slot it asked for is evicted,
whatever the answer was (flag cleared, back-references removed, count lowered by the number
of calls), and with an assertion that ends the process all answers were positive; `update`
does not return exactly when a call failed and the assertion ends the process. -/
theorem C9_eviction_guard {E : Type} (env : Env E) (s : WorldChunkMgr E) (focusPos : IVec3) :
    (∀ (n : Nat) (call : ReExtractionCall),
      (update.traced env s focusPos).2[n]? = some call →
      ∃ c : ChunkBuffer, s.chunkBuffers[call.slot]? = some c ∧
        outOfRange focusPos s.maxAllowedDistance c = true ∧
        call.translation = c.translation ∧ call.inuse = true ∧
        call.octree.refsOf call.slot = s.octree.refsOf call.slot ∧
        call.activeChunkBuffers = s.activeChunkBuffers - n) ∧
    (∀ (i : Nat) (c : ChunkBuffer), s.chunkBuffers[i]? = some c →
      outOfRange focusPos s.maxAllowedDistance c = false →
      ∀ call ∈ (update.traced env s focusPos).2, call.slot ≠ i) ∧
    (∀ s1, update env s focusPos = some s1 →
      (update.traced env s focusPos).2.map (fun call => call.slot) =
        evictedSlots focusPos s.maxAllowedDistance 0 s.chunkBuffers ∧
      (∀ call ∈ (update.traced env s focusPos).2,
        ∃ c : ChunkBuffer, s.chunkBuffers[call.slot]? = some c ∧
          s1.chunkBuffers[call.slot]? = some { c with inuse := false } ∧
          ∀ entry ∈ s1.octree.contents, entry.1 ≠ call.slot) ∧
      s1.activeChunkBuffers =
        s.activeChunkBuffers - ((update.traced env s focusPos).2.length : Nat) ∧
      (env.assertAborts = true →
        ∀ call ∈ (update.traced env s focusPos).2, call.result = true)) ∧
    (update env s focusPos = none ↔
      env.assertAborts = true ∧
        ∃ call ∈ (update.traced env s focusPos).2, call.result = false) := by
  have hfacts : ∀ (n : Nat) (call : ReExtractionCall),
      (update.traced env s focusPos).2[n]? = some call →
      ∃ c : ChunkBuffer, s.chunkBuffers[call.slot]? = some c ∧
        outOfRange focusPos s.maxAllowedDistance c = true ∧
        call.translation = c.translation ∧ call.inuse = true ∧
        call.octree.refsOf call.slot = s.octree.refsOf call.slot ∧
        call.activeChunkBuffers = s.activeChunkBuffers - n := by
    intro n call h
    rw [update_traced_calls] at h
    obtain ⟨k, c, h1, h2, h3, h4, h5, h6, h7⟩ := update_loop_call_facts _ _ _ _ _ _ _ _ n call h
    rw [Nat.zero_add] at h1
    exact ⟨c, by rw [h1]; exact h2, h3, h4, h5, h6, h7⟩
  refine ⟨hfacts, ?_, ?_, ?_⟩
  · intro i c hc hout call hcall hslot
    obtain ⟨n, hn⟩ := List.mem_iff_getElem?.1 hcall
    obtain ⟨c1, h1, h2, -⟩ := hfacts n call hn
    rw [hslot, hc] at h1
    cases h1
    rw [hout] at h2
    cases h2
  · intro s1 hu
    have hne : (update.loop env focusPos s.maxAllowedDistance 0 s.chunkBuffers
        s.activeChunkBuffers s.octree (env.updateExtractionOrder s.meshExtractor focusPos)
        []).result ≠ none := by
      intro hnone
      rw [(update_eq_none_iff env s focusPos).2 hnone] at hu
      cases hu
    obtain ⟨hslots, hpos⟩ := update_loop_calls_of_some _ _ _ _ _ _ _ _ hne
    obtain ⟨h1, h2, h3, -⟩ := update_result env s s1 focusPos hu
    refine ⟨hslots, ?_, ?_, hpos⟩
    · intro call hcall
      obtain ⟨n, hn⟩ := List.mem_iff_getElem?.1 hcall
      obtain ⟨c, hc, hout, -⟩ := hfacts n call hn
      refine ⟨c, hc, ?_, ?_⟩
      · rw [h1]
        simp [hc, evictSlot, hout]
      · intro entry hm he
        exact ((h3 entry).1 hm).2 ⟨call.slot, c, hc, hout, he⟩
    · rw [h2, ← evictedSlots_length focusPos s.maxAllowedDistance 0, ← hslots,
        update_traced_calls, List.length_map]
  · rw [update_eq_none_iff, update_loop_none_iff, update_traced_calls]

/-- C9 (amended) at a concrete input: of the slots (150,0,0) resident, (10,0,0) resident and
one free slot only slot 0 is asked for, with its flag still set and the count still 2, and
it is evicted. -/
theorem C9_eviction_guard_witness :
    (update.traced (testEnv ⟨1, 1, 1⟩ true true)
      (samplePool [⟨true, sampleBox, sampleTriangle ⟨150, 0, 0⟩⟩,
        ⟨true, sampleBox, sampleTriangle ⟨10, 0, 0⟩⟩, sampleFreeSlot] 2 10000 2)
      ⟨0, 0, 0⟩).2.map
        (fun call => (call.slot, call.inuse, call.activeChunkBuffers, call.result)) =
      [(0, true, 2, true)] ∧
    ∀ call ∈ (update.traced (testEnv ⟨1, 1, 1⟩ true true)
      (samplePool [⟨true, sampleBox, sampleTriangle ⟨150, 0, 0⟩⟩,
        ⟨true, sampleBox, sampleTriangle ⟨10, 0, 0⟩⟩, sampleFreeSlot] 2 10000 2)
      ⟨0, 0, 0⟩).2, call.slot ≠ 1 :=
  ⟨by decide,
   (C9_eviction_guard (testEnv ⟨1, 1, 1⟩ true true)
      (samplePool [⟨true, sampleBox, sampleTriangle ⟨150, 0, 0⟩⟩,
        ⟨true, sampleBox, sampleTriangle ⟨10, 0, 0⟩⟩, sampleFreeSlot] 2 10000 2)
      ⟨0, 0, 0⟩).2.1 1 ⟨true, sampleBox, sampleTriangle ⟨10, 0, 0⟩⟩ rfl (by decide)⟩

/-! ## The scenario of view distance 100 and planar distance 150 -/

/-- A translation at planar distance 150 from the origin is far from any overflow. -/
theorem noOverflow_of_planar (t : IVec3)
    (h : planarDistanceSquare t ⟨0, 0, 0⟩ = 22500) : noOverflow t ⟨0, 0, 0⟩ := by
  simp only [planarDistanceSquare, sub_zero] at h
  have hx : t.x ^ 2 ≤ 22500 := by nlinarith [sq_nonneg t.z]
  have hz : t.z ^ 2 ≤ 22500 := by nlinarith [sq_nonneg t.x]
  have hx1 : t.x ≤ 150 := by nlinarith
  have hx2 : -150 ≤ t.x := by nlinarith
  have hz1 : t.z ≤ 150 := by nlinarith
  have hz2 : -150 ≤ t.z := by nlinarith
  refine ⟨?_, ?_, ?_⟩
  · simp only [sub_zero]
    unfold inInt32 INT_MIN INT_MAX
    omega
  · simp only [sub_zero]
    unfold inInt32 INT_MIN INT_MAX
    omega
  · simp only [sub_zero, h]
    decide

/-- An integer below 2^`bits` in magnitude is not rounded. -/
theorem roundToBits_exact (bits : Nat) (v : Int) (h : v.natAbs < 2 ^ bits) :
    roundToBits bits v = v := by
  unfold roundToBits
  rw [if_pos h]

/-- An integer below 2^24 in magnitude is a `float`. -/
theorem roundFloat_exact (v : Int) (h0 : -16777216 < v) (h1 : v < 16777216) :
    roundFloat v = v :=
  roundToBits_exact 24 v (by omega)

/-- An integer from 0 to 2^24 is a `double` and an `int`. -/
theorem roundDouble_exact (v : Int) (h0 : 0 ≤ v) (h1 : v < 16777216) :
    roundDouble v = v ∧ inInt32 v :=
  ⟨roundToBits_exact 53 v (by omega), by unfold inInt32 INT_MIN INT_MAX; omega⟩

/-- In the range without rounding `updateViewDistance` returns, and the cutoff is the square
of the sum of the view distance and 40 times the larger horizontal mesh size. -/
theorem updateViewDistance_exact {E : Type} (env : Env E) (s : WorldChunkMgr E) (d : Int)
    (h : viewDistanceExact (env.meshSize s.meshExtractor) d) :
    updateViewDistance env s d =
      some { s with maxAllowedDistance :=
        (d + 40 * Max.max (env.meshSize s.meshExtractor).x
          (env.meshSize s.meshExtractor).z) ^ 2 } := by
  obtain ⟨hx0, hx1, hz0, hz1, hp0, hp1, hd0, hd1, hsq⟩ := h
  have hx := roundFloat_exact _ hx0 hx1
  have hz := roundFloat_exact _ hz0 hz1
  have hp := roundFloat_exact _ hp0 hp1
  have hin : inInt32 (Max.max (env.meshSize s.meshExtractor).x
      (env.meshSize s.meshExtractor).z * 40) := by
    unfold inInt32 INT_MIN INT_MAX
    constructor
    · linarith
    · linarith
  have hs0 : -16777216 < d + Max.max (env.meshSize s.meshExtractor).x
      (env.meshSize s.meshExtractor).z * 40 := by nlinarith
  have hs1 : d + Max.max (env.meshSize s.meshExtractor).x
      (env.meshSize s.meshExtractor).z * 40 < 16777216 := by nlinarith
  have hs := roundFloat_exact _ hs0 hs1
  obtain ⟨hdb, hdi⟩ := roundDouble_exact _ (sq_nonneg (d + Max.max
    (env.meshSize s.meshExtractor).x (env.meshSize s.meshExtractor).z * 40)) hsq
  have hring : (d + Max.max (env.meshSize s.meshExtractor).x
      (env.meshSize s.meshExtractor).z * 40) ^ 2 =
      (d + 40 * Max.max (env.meshSize s.meshExtractor).x
        (env.meshSize s.meshExtractor).z) ^ 2 := by ring
  rw [hring] at hdb hdi
  simp only [updateViewDistance, hx, hz, hp, if_pos hin, hs, hring, hdb, if_pos hdi]

/-- Outside of that range the model rounds and checks the range of `int`: for the mesh
size (0,0,0) the view distance 46341 has the square 2147488281, which no `int` holds, and
the view distance 16777217 is rounded to the `float` 16777216 before. -/
theorem updateViewDistance_rounds :
    updateViewDistance (testEnv ⟨0, 0, 0⟩ true true) (sampleMgr 1 0 []) 46341 = none ∧
    (updateViewDistance (testEnv ⟨0, 0, 0⟩ true true) (sampleMgr 1 0 []) 46340).map
      (fun s => s.maxAllowedDistance) = some 2147395600 ∧
    roundFloat 16777217 = 16777216 ∧ roundFloat 16777219 = 16777220 ∧
    roundFloat (-33554435) = -33554436 := by
  refine ⟨by decide, by decide, by decide, by decide, by decide⟩

/-- C10 (as stated, refuted).  The extractor reports the chunk mesh size (2,2,2):
`updateViewDistance(100)` sets the cutoff to (100 + 40 * 2)^2 = 32400, the resident chunk at
(150,0,0) has the squared planar distance 22500 to the origin, and `update` leaves it
resident.  The same holds for the mesh size (32,32,32) with the cutoff 1904400.  All values
are integers below 2^24, which `float` represents exactly. -/
theorem C10_counterexample :
    (updateViewDistance (testEnv ⟨2, 2, 2⟩ true true)
      (samplePool [⟨true, sampleBox, sampleTriangle ⟨150, 0, 0⟩⟩] 1 0 1)
      100).map (fun s => s.maxAllowedDistance) = some 32400 ∧
    planarDistanceSquare (sampleTriangle ⟨150, 0, 0⟩).translation ⟨0, 0, 0⟩ = 22500 ∧
    ((updateViewDistance (testEnv ⟨2, 2, 2⟩ true true)
        (samplePool [⟨true, sampleBox, sampleTriangle ⟨150, 0, 0⟩⟩] 1 0 1) 100).bind
      (fun s => update (testEnv ⟨2, 2, 2⟩ true true) s ⟨0, 0, 0⟩)).map
        (fun s1 => (slotSummary s1, s1.activeChunkBuffers, s1.octree.contents)) =
      some ([(true, ⟨150, 0, 0⟩)], 1, [(0, sampleBox)]) ∧
    (updateViewDistance (testEnv ⟨32, 32, 32⟩ true true)
      (samplePool [⟨true, sampleBox, sampleTriangle ⟨150, 0, 0⟩⟩] 1 0 1)
      100).map (fun s => s.maxAllowedDistance) = some 1904400 ∧
    ((updateViewDistance (testEnv ⟨32, 32, 32⟩ true true)
        (samplePool [⟨true, sampleBox, sampleTriangle ⟨150, 0, 0⟩⟩] 1 0 1) 100).bind
      (fun s => update (testEnv ⟨32, 32, 32⟩ true true) s ⟨0, 0, 0⟩)).map slotSummary =
      some [(true, ⟨150, 0, 0⟩)] := by
  decide

/-- C10 (amended).  For a chunk mesh size (sx, sy, sz) and m = max(sx, sz) in the range in
which `updateViewDistance(100)` computes without rounding (sx, sz and 40 * m below 2^24 in
magnitude and (100 + 40 * m)^2 below 2^24, so m <= 99), `updateViewDistance(100)` returns and
the cutoff is (100 + 40 * m)^2.  With the focus at the origin and a resident chunk at planar
distance 150, a following `update` that returns evicts the chunk when -6 <= m <= 1, which
for a mesh size that is not negative means m <= 1, and leaves it resident for every other
mesh size of the range, so for 2 <= m <= 99.  `update` returns whenever
`core_assert_always` does not end the process or the extractor allows every
re-extraction. -/
theorem C10_eviction_scenario {E : Type} (env : Env E) (s0 : WorldChunkMgr E) (i : Nat)
    (c : ChunkBuffer) (hc : s0.chunkBuffers[i]? = some c) (hu : c.inuse = true)
    (hdist : planarDistanceSquare c.translation ⟨0, 0, 0⟩ = 22500)
    (hexact : viewDistanceExact (env.meshSize s0.meshExtractor) 100) :
    ∃ sV, updateViewDistance env s0 100 = some sV ∧
      sV = { s0 with maxAllowedDistance :=
        (100 + 40 * Max.max (env.meshSize s0.meshExtractor).x
          (env.meshSize s0.meshExtractor).z) ^ 2 } ∧
      Max.max (env.meshSize s0.meshExtractor).x (env.meshSize s0.meshExtractor).z ≤ 99 ∧
      (∀ s1, update env sV ⟨0, 0, 0⟩ = some s1 →
        ((-6 ≤ Max.max (env.meshSize s0.meshExtractor).x (env.meshSize s0.meshExtractor).z ∧
            Max.max (env.meshSize s0.meshExtractor).x (env.meshSize s0.meshExtractor).z ≤ 1) →
          s1.chunkBuffers[i]? = some { c with inuse := false } ∧
          ∀ entry ∈ s1.octree.contents, entry.1 ≠ i) ∧
        ((2 ≤ Max.max (env.meshSize s0.meshExtractor).x (env.meshSize s0.meshExtractor).z ∨
            Max.max (env.meshSize s0.meshExtractor).x (env.meshSize s0.meshExtractor).z ≤
              -7) →
          s1.chunkBuffers[i]? = some c)) ∧
      ((env.assertAborts = false ∨ ∀ e t, (env.allowReExtraction e t).1 = true) →
        ∃ s1, update env sV ⟨0, 0, 0⟩ = some s1) := by
  refine ⟨_, updateViewDistance_exact env s0 100 hexact, rfl, ?_, ?_,
    fun hok => update_total env _ _ hok⟩
  · have hsq := hexact.2.2.2.2.2.2.2.2
    generalize Max.max (env.meshSize s0.meshExtractor).x (env.meshSize s0.meshExtractor).z = m
      at hsq
    nlinarith
  intro s1 hs1
  obtain ⟨h1, -, h3, -⟩ := update_result env _ s1 ⟨0, 0, 0⟩ hs1
  simp only at h1 h3
  have hd : getDistanceSquare c.translation ⟨0, 0, 0⟩ = 22500 := by
    rw [getDistanceSquare_eq _ _ (noOverflow_of_planar _ hdist), hdist]
  have hslot : s1.chunkBuffers[i]? =
      some (evictSlot ⟨0, 0, 0⟩ ((100 + 40 * Max.max (env.meshSize s0.meshExtractor).x
        (env.meshSize s0.meshExtractor).z) ^ 2) c) := by
    rw [h1]
    simp [hc]
  generalize Max.max (env.meshSize s0.meshExtractor).x (env.meshSize s0.meshExtractor).z = m
    at h1 h3 hslot
  constructor
  · rintro ⟨hlo, hhi⟩
    have hout : outOfRange ⟨0, 0, 0⟩ ((100 + 40 * m) ^ 2) c = true := by
      simp only [outOfRange, hu, Bool.true_and, Bool.not_eq_true', decide_eq_false_iff_not,
        hd]
      nlinarith
    refine ⟨by rw [hslot]; simp [evictSlot, hout], ?_⟩
    intro entry hm he
    exact ((h3 entry).1 hm).2 ⟨i, c, hc, hout, he⟩
  · intro hm
    have hout : outOfRange ⟨0, 0, 0⟩ ((100 + 40 * m) ^ 2) c = false := by
      simp only [outOfRange, hu, Bool.true_and, Bool.not_eq_false', decide_eq_true_eq, hd]
      rcases hm with hm | hm <;> nlinarith
    rw [hslot]
    simp [evictSlot, hout]

/-- C10 (amended) at a concrete input: with the chunk mesh size (1,1,1) the cutoff is
19600 and the resident chunk at (90,5,120), at planar distance 150, is evicted. -/
theorem C10_eviction_scenario_witness :
    ∃ sV, updateViewDistance (testEnv ⟨1, 1, 1⟩ true true)
        (samplePool [⟨true, sampleBox, sampleTriangle ⟨90, 5, 120⟩⟩] 1 0 1) 100 = some sV ∧
      sV.maxAllowedDistance = 19600 ∧
      ∃ s1, update (testEnv ⟨1, 1, 1⟩ true true) sV ⟨0, 0, 0⟩ = some s1 ∧
        s1.chunkBuffers[0]? = some ⟨false, sampleBox, sampleTriangle ⟨90, 5, 120⟩⟩ ∧
        ∀ entry ∈ s1.octree.contents, entry.1 ≠ 0 := by
  obtain ⟨sV, hV, heq, -, hev, htot⟩ := C10_eviction_scenario (testEnv ⟨1, 1, 1⟩ true true)
    (samplePool [⟨true, sampleBox, sampleTriangle ⟨90, 5, 120⟩⟩] 1 0 1) 0
    ⟨true, sampleBox, sampleTriangle ⟨90, 5, 120⟩⟩ rfl rfl (by decide) (by decide)
  obtain ⟨s1, hs1⟩ := htot (Or.inr (fun _ _ => rfl))
  refine ⟨sV, hV, ?_, s1, hs1, (hev s1 hs1).1 (by decide)⟩
  rw [heq]
  decide

/-! ## The index follows residency -/

/-- A call of `handleMeshQueue` for which `pop` delivers a mesh stores that mesh. -/
theorem handleMeshQueue_of_pop {E : Type} (env : Env E) (s : WorldChunkMgr E)
    (meshes : ChunkMeshes) (e : E) (hpop : env.pop s.meshExtractor = (some meshes, e)) :
    handleMeshQueue env s = { handleMeshQueue.store env s meshes with meshExtractor := e } := by
  unfold handleMeshQueue
  rw [hpop]
  simp only
  rw [store_ext]

/-- A call of `handleMeshQueue` for which `pop` delivers nothing returns at once. -/
theorem handleMeshQueue_of_empty {E : Type} (env : Env E) (s : WorldChunkMgr E) (e : E)
    (hpop : env.pop s.meshExtractor = (none, e)) :
    handleMeshQueue env s = { s with meshExtractor := e } := by
  unfold handleMeshQueue
  rw [hpop]

/-- A query returns the slots with a back-reference whose box intersects the query box. -/
theorem mem_query_iff (o : Octree) (q : AABB) (i : Nat) :
    i ∈ o.query q ↔ ∃ entry ∈ o.contents, entry.1 = i ∧ entry.2.intersects q = true := by
  simp only [Octree.query, List.mem_dedup, List.mem_map, List.mem_filter]
  constructor
  · rintro ⟨entry, ⟨hm, hi⟩, he⟩
    exact ⟨entry, hm, he, hi⟩
  · rintro ⟨entry, hm, he, hi⟩
    exact ⟨entry, ⟨hm, hi⟩, he⟩

/-- A valid box intersects every box that covers it. -/
theorem intersects_of_coveredBy (box q : AABB) (hv : box.isValid = true)
    (hc : box.coveredBy q) : box.intersects q = true := by
  simp only [AABB.isValid, Bool.and_eq_true, decide_eq_true_eq] at hv
  obtain ⟨h1, h2, h3, h4, h5, h6⟩ := hc
  simp only [AABB.intersects, Bool.and_eq_true, decide_eq_true_eq]
  refine ⟨⟨⟨⟨⟨?_, ?_⟩, ?_⟩, ?_⟩, ?_⟩, ?_⟩ <;> omega

/-- An insert that succeeds adds the back-reference and was given a valid box. -/
theorem insert_of_success (limit : Octree → AABB → Bool) (o : Octree) (ref : Nat) (box : AABB)
    (h : (o.insert limit ref box).1 = true) :
    (o.insert limit ref box).2.contents = o.contents ++ [(ref, box)] ∧ box.isValid = true := by
  unfold Octree.insert at h ⊢
  by_cases hc : (box.isValid && limit o box) = true
  · rw [if_pos hc]
    simp only [Bool.and_eq_true] at hc
    exact ⟨rfl, hc.1⟩
  · simp [hc] at h

/-- An insert that fails leaves the index as it was. -/
theorem insert_of_failure (limit : Octree → AABB → Bool) (o : Octree) (ref : Nat) (box : AABB)
    (h : (o.insert limit ref box).1 = false) : (o.insert limit ref box).2 = o := by
  unfold Octree.insert at h ⊢
  by_cases hc : (box.isValid && limit o box) = true
  · simp [hc] at h
  · simp [hc]

/-- C11.  Index membership follows residency, with the index as the collection of inserted
slot references: after `handleMeshQueue` has processed a completed mesh for translation T,
stored in slot `i`, and the insert succeeded, every query whose box covers the bounding box
of the slot returns the slot; and after an `update` that evicts the slot no query returns
it any more.  `update` returns whenever `core_assert_always` does not end the process or
the extractor allows every re-extraction. -/
theorem C11_index_membership {E : Type} (env : Env E) (s : WorldChunkMgr E)
    (meshes : ChunkMeshes) (e : E) (i : Nat) (cb : ChunkBuffer)
    (hpop : env.pop s.meshExtractor = (some meshes, e))
    (hsel : handleMeshQueue.findChunkBuffer meshes.translation s.chunkBuffers 0 none = some i)
    (hcb : s.chunkBuffers[i]? = some cb)
    (hins : (s.octree.insert env.octreeLimit i (storedSlot cb meshes).aabb).1 = true) :
    (handleMeshQueue env s).chunkBuffers[i]? = some (storedSlot cb meshes) ∧
    (storedSlot cb meshes).translation = meshes.translation ∧
    (∀ q : AABB, (storedSlot cb meshes).aabb.coveredBy q →
      i ∈ (handleMeshQueue env s).octree.query q) ∧
    (∀ (focusPos : IVec3) (s2 : WorldChunkMgr E),
      update env (handleMeshQueue env s) focusPos = some s2 →
      outOfRange focusPos s.maxAllowedDistance (storedSlot cb meshes) = true →
      s2.chunkBuffers[i]? = some { storedSlot cb meshes with inuse := false } ∧
      ∀ q : AABB, i ∉ s2.octree.query q) ∧
    (∀ focusPos : IVec3,
      (env.assertAborts = false ∨ ∀ e1 t, (env.allowReExtraction e1 t).1 = true) →
      ∃ s2, update env (handleMeshQueue env s) focusPos = some s2) := by
  have hlt : i < s.chunkBuffers.length := findChunkBuffer_lt _ _ _ hsel
  have hq : handleMeshQueue env s =
      { s with
        chunkBuffers := s.chunkBuffers.set i (storedSlot cb meshes)
        octree := (s.octree.insert env.octreeLimit i (storedSlot cb meshes).aabb).2
        activeChunkBuffers :=
          if cb.inuse then s.activeChunkBuffers else s.activeChunkBuffers + 1
        meshExtractor := e } := by
    rw [handleMeshQueue_of_pop env s meshes e hpop, store_of_found env s meshes i cb hsel hcb]
  have hslot : (handleMeshQueue env s).chunkBuffers[i]? = some (storedSlot cb meshes) := by
    rw [hq]
    simp [hlt]
  obtain ⟨hcont, hvalid⟩ := insert_of_success _ _ _ _ hins
  refine ⟨hslot, rfl, ?_, ?_, fun focusPos hok => update_total env _ focusPos hok⟩
  · intro q hcov
    rw [mem_query_iff]
    refine ⟨(i, (storedSlot cb meshes).aabb), ?_, rfl, intersects_of_coveredBy _ _ hvalid hcov⟩
    rw [hq]
    simp [hcont]
  · intro focusPos s2 hu hout
    obtain ⟨h1, -, h3, -⟩ := update_result env _ s2 focusPos hu
    have hmax : (handleMeshQueue env s).maxAllowedDistance = s.maxAllowedDistance := by
      rw [hq]
    rw [hmax] at h1 h3
    constructor
    · rw [h1]
      simp [hslot, evictSlot, hout]
    · intro q hmem
      obtain ⟨entry, hm, he, -⟩ := (mem_query_iff _ _ _).1 hmem
      exact ((h3 entry).1 hm).2 ⟨i, _, hslot, hout, he⟩

/-- C11 at a concrete input: the mesh of a triangle at (150,0,0) is stored in slot 0 of an
empty pool and indexed; the query over (0,0,0)-(200,10,10) returns slot 0; after the
`update` with the focus at the origin and the cutoff 10000 it does not. -/
theorem C11_index_membership_witness :
    0 ∈ (handleMeshQueue (testEnv ⟨1, 1, 1⟩ true true)
      (sampleMgr 2 10000 [sampleTriangle ⟨150, 0, 0⟩])).octree.query
        ⟨⟨0, 0, 0⟩, ⟨200, 10, 10⟩⟩ ∧
    ∃ s2, update (testEnv ⟨1, 1, 1⟩ true true)
        (handleMeshQueue (testEnv ⟨1, 1, 1⟩ true true)
          (sampleMgr 2 10000 [sampleTriangle ⟨150, 0, 0⟩])) ⟨0, 0, 0⟩ = some s2 ∧
      0 ∉ s2.octree.query ⟨⟨0, 0, 0⟩, ⟨200, 10, 10⟩⟩ := by
  have h := C11_index_membership (testEnv ⟨1, 1, 1⟩ true true)
    (sampleMgr 2 10000 [sampleTriangle ⟨150, 0, 0⟩]) (sampleTriangle ⟨150, 0, 0⟩) [] 0
    sampleFreeSlot rfl (by decide) rfl (by decide)
  obtain ⟨s2, hs2⟩ := h.2.2.2.2 ⟨0, 0, 0⟩ (Or.inr (fun _ _ => rfl))
  exact ⟨h.2.2.1 _ (by decide), s2, hs2, (h.2.2.2.1 _ s2 hs2 (by decide)).2 _⟩

/-! ## Indexed slots are occupied -/

/-- Storing a mesh keeps every indexed slot occupied. -/
theorem store_indexedOccupied {E : Type} (env : Env E) (s : WorldChunkMgr E)
    (meshes : ChunkMeshes) (h : IndexedOccupied s) :
    IndexedOccupied (handleMeshQueue.store env s meshes) := by
  cases hsel : handleMeshQueue.findChunkBuffer meshes.translation s.chunkBuffers 0 none with
  | none => rw [store_of_none env s meshes hsel]; exact h
  | some i =>
    have hlt := findChunkBuffer_lt _ _ _ hsel
    have hcb : s.chunkBuffers[i]? = some (s.chunkBuffers[i]) := by simp [hlt]
    rw [store_of_found env s meshes i _ hsel hcb]
    have hnew : (s.chunkBuffers.set i (storedSlot s.chunkBuffers[i] meshes))[i]? =
        some (storedSlot s.chunkBuffers[i] meshes) := by simp [hlt]
    have hold : ∀ entry ∈ s.octree.contents, ∃ c : ChunkBuffer,
        (s.chunkBuffers.set i (storedSlot s.chunkBuffers[i] meshes))[entry.1]? = some c ∧
          c.inuse = true := by
      intro entry hm
      obtain ⟨c, hc, hu⟩ := h entry hm
      by_cases hei : entry.1 = i
      · rw [hei]
        exact ⟨_, hnew, rfl⟩
      · exact ⟨c, by rw [List.getElem?_set_ne (Ne.symm hei)]; exact hc, hu⟩
    intro entry hm
    simp only at hm ⊢
    cases hins : (s.octree.insert env.octreeLimit i
        (storedSlot s.chunkBuffers[i] meshes).aabb).1 with
    | false =>
      rw [insert_of_failure _ _ _ _ hins] at hm
      exact hold entry hm
    | true =>
      rw [(insert_of_success _ _ _ _ hins).1] at hm
      rcases List.mem_append.1 hm with hm | hm
      · exact hold entry hm
      · rw [List.mem_singleton] at hm
        subst hm
        exact ⟨_, hnew, rfl⟩

/-- An `update` that returns keeps every indexed slot occupied. -/
theorem update_indexedOccupied {E : Type} (env : Env E) (s s1 : WorldChunkMgr E)
    (focusPos : IVec3) (h : IndexedOccupied s) (hu : update env s focusPos = some s1) :
    IndexedOccupied s1 := by
  obtain ⟨h1, -, h3, -⟩ := update_result env s s1 focusPos hu
  intro entry hm
  obtain ⟨hm0, hnot⟩ := (h3 entry).1 hm
  obtain ⟨c, hc, hin⟩ := h entry hm0
  have hout : outOfRange focusPos s.maxAllowedDistance c = false := by
    by_contra hne
    exact hnot ⟨entry.1, c, hc, by simpa using hne, rfl⟩
  refine ⟨c, ?_, hin⟩
  rw [h1]
  simp [hc, evictSlot, hout]

theorem reset_indexedOccupied {E : Type} (env : Env E) (s : WorldChunkMgr E) :
    IndexedOccupied (reset env s) := by
  intro entry hm
  simp [reset, Octree.clear] at hm

/-- C12.  Remove before reuse: from a state in which every slot referenced by the index is
occupied, which is so for an empty index, every sequence of `handleMeshQueue`, `update` and
`reset` calls leads to a state in which every slot referenced by the index is occupied; so
whenever `handleMeshQueue` selects, for a completed mesh, a slot whose translation differs
from the translation of the mesh, that slot is free and the index holds no back-reference
to it. -/
theorem C12_remove_before_reuse {E : Type} (env : Env E) (s0 s : WorldChunkMgr E)
    (ops : List Op)
    (hstart : ∀ entry ∈ s0.octree.contents, ∃ c : ChunkBuffer,
      s0.chunkBuffers[entry.1]? = some c ∧ c.inuse = true)
    (hrun : run env s0 ops = some s) :
    (∀ entry ∈ s.octree.contents, ∃ c : ChunkBuffer,
      s.chunkBuffers[entry.1]? = some c ∧ c.inuse = true) ∧
    (∀ (meshes : ChunkMeshes) (i : Nat) (cb : ChunkBuffer),
      handleMeshQueue.findChunkBuffer meshes.translation s.chunkBuffers 0 none = some i →
      s.chunkBuffers[i]? = some cb → cb.translation ≠ meshes.translation →
      cb.inuse = false ∧ (∀ entry ∈ s.octree.contents, entry.1 ≠ i) ∧
        s.octree.refsOf i = []) := by
  have hinv : IndexedOccupied s :=
    run_invariant env IndexedOccupied (fun _ _ h => h)
      (fun s meshes h => store_indexedOccupied env s meshes h)
      (fun s focusPos s1 h hu => update_indexedOccupied env s s1 focusPos h hu)
      (fun s _ => reset_indexedOccupied env s) ops s0 s hstart hrun
  refine ⟨hinv, ?_⟩
  intro meshes i cb hsel hcb hne
  have hfree : cb.inuse = false := by
    rcases findChunkBuffer_some _ _ _ hsel with ⟨c0, hc0, hT0, -⟩ | ⟨-, c0, hc0, hf, -⟩
    · rw [hcb] at hc0
      cases hc0
      exact absurd hT0 hne
    · rw [hcb] at hc0
      cases hc0
      exact hf
  have hnone : ∀ entry ∈ s.octree.contents, entry.1 ≠ i := by
    intro entry hm he
    obtain ⟨c, hc, hu⟩ := hinv entry hm
    rw [he, hcb] at hc
    cases hc
    rw [hfree] at hu
    cases hu
  refine ⟨hfree, hnone, ?_⟩
  simp only [Octree.refsOf, List.filter_eq_nil_iff, decide_eq_true_eq]
  exact hnone

/-- C12 at a concrete input: two meshes are stored in a pool of two slots and one of them
is evicted; the next mesh, for a new translation, is given the evicted slot 1, which is
free and to which the index holds no back-reference. -/
theorem C12_remove_before_reuse_witness :
    ∃ s, run (testEnv ⟨1, 1, 1⟩ true true)
        (sampleMgr 2 100 [sampleTriangle ⟨10, 0, 0⟩, sampleTriangle ⟨20, 0, 0⟩])
        [Op.handleMeshQueue, Op.handleMeshQueue, Op.update ⟨5, 0, 0⟩] = some s ∧
      handleMeshQueue.findChunkBuffer (sampleTriangle ⟨30, 0, 0⟩).translation
        s.chunkBuffers 0 none = some 1 ∧
      s.octree.refsOf 1 = [] ∧ s.octree.refsOf 0 ≠ [] := by
  obtain ⟨s, hs⟩ := run_total (testEnv ⟨1, 1, 1⟩ true true) (Or.inr (fun _ _ => rfl))
    [Op.handleMeshQueue, Op.handleMeshQueue, Op.update ⟨5, 0, 0⟩]
    (sampleMgr 2 100 [sampleTriangle ⟨10, 0, 0⟩, sampleTriangle ⟨20, 0, 0⟩])
  have h := C12_remove_before_reuse (testEnv ⟨1, 1, 1⟩ true true)
    (sampleMgr 2 100 [sampleTriangle ⟨10, 0, 0⟩, sampleTriangle ⟨20, 0, 0⟩]) s
    [Op.handleMeshQueue, Op.handleMeshQueue, Op.update ⟨5, 0, 0⟩]
    (by intro entry hm; simp [sampleMgr] at hm) hs
  have hval : (run (testEnv ⟨1, 1, 1⟩ true true)
      (sampleMgr 2 100 [sampleTriangle ⟨10, 0, 0⟩, sampleTriangle ⟨20, 0, 0⟩])
      [Op.handleMeshQueue, Op.handleMeshQueue, Op.update ⟨5, 0, 0⟩]).map
      (fun s => (handleMeshQueue.findChunkBuffer (sampleTriangle ⟨30, 0, 0⟩).translation
        s.chunkBuffers 0 none, s.chunkBuffers[1]?.map (fun c => c.translation),
        decide (s.octree.refsOf 0 ≠ []))) =
      some (some 1, some ⟨20, 0, 0⟩, true) := by decide
  rw [hs] at hval
  simp only [Option.map_some', Option.some.injEq, Prod.mk.injEq, decide_eq_true_eq] at hval
  obtain ⟨hsel, htr, hrefs⟩ := hval
  obtain ⟨cb, hcb, hcbt⟩ : ∃ cb, s.chunkBuffers[1]? = some cb ∧
      cb.translation = ⟨20, 0, 0⟩ := by
    cases hc : s.chunkBuffers[1]? with
    | none => simp [hc] at htr
    | some cb => exact ⟨cb, rfl, by simpa [hc] using htr⟩
  exact ⟨s, hs, hsel, (h.2 _ 1 cb hsel hcb (by rw [hcbt]; decide)).2.2, hrefs⟩

/-! ## Duplicate suppression of the scheduler -/

theorem schedule_tracked (e : MeshExtractor) (pos : IVec3) (h : pos ∈ e.positionsExtracted) :
    e.scheduleMeshExtraction pos = (false, e) := by
  simp [MeshExtractor.scheduleMeshExtraction, h]

theorem schedule_untracked (e : MeshExtractor) (pos : IVec3)
    (h : pos ∉ e.positionsExtracted) :
    e.scheduleMeshExtraction pos =
      (true, { e with
        positionsExtracted := pos :: e.positionsExtracted
        pendingExtraction := e.pendingExtraction ++ [pos] }) := by
  simp [MeshExtractor.scheduleMeshExtraction, h]

/-- After a call the region is tracked, and what was tracked before stays tracked. -/
theorem schedule_tracks (e : MeshExtractor) (pos p : IVec3)
    (h : p = pos ∨ p ∈ e.positionsExtracted) :
    p ∈ (e.scheduleMeshExtraction pos).2.positionsExtracted := by
  by_cases ht : pos ∈ e.positionsExtracted
  · rw [schedule_tracked e pos ht]
    rcases h with rfl | h
    · exact ht
    · exact h
  · rw [schedule_untracked e pos ht]
    rcases h with rfl | h
    · exact List.mem_cons_self _ _
    · exact List.mem_cons_of_mem _ h

/-- Every call for a region that is tracked returns false. -/
theorem scheduleAll_tracked (e : MeshExtractor) (calls : List IVec3) (r : IVec3)
    (h : r ∈ e.positionsExtracted) (j : Nat) (hj : calls[j]? = some r) :
    (scheduleAll e calls).1[j]? = some false := by
  induction calls generalizing e j with
  | nil => simp at hj
  | cons p ps ih =>
    cases j with
    | zero =>
      simp at hj
      subst hj
      simp [scheduleAll, schedule_tracked e p h]
    | succ j =>
      simp only [List.getElem?_cons_succ] at hj
      simp only [scheduleAll, List.getElem?_cons_succ]
      exact ih _ (schedule_tracks e p r (Or.inr h)) j hj

/-- Calls for a tracked region leave the outstanding requests for it as they are; calls for
an untracked region add at most one. -/
theorem scheduleAll_count (e : MeshExtractor) (calls : List IVec3) (r : IVec3) :
    (r ∈ e.positionsExtracted →
      (scheduleAll e calls).2.pendingExtraction.count r = e.pendingExtraction.count r) ∧
    (scheduleAll e calls).2.pendingExtraction.count r ≤ e.pendingExtraction.count r + 1 ∧
    (r ∈ calls → r ∉ e.positionsExtracted →
      (scheduleAll e calls).2.pendingExtraction.count r = e.pendingExtraction.count r + 1) := by
  induction calls generalizing e with
  | nil => simp [scheduleAll]
  | cons p ps ih =>
    simp only [scheduleAll]
    obtain ⟨ih1, ih2, ih3⟩ := ih (e.scheduleMeshExtraction p).2
    by_cases ht : p ∈ e.positionsExtracted
    · rw [schedule_tracked e p ht] at ih1 ih2 ih3 ⊢
      refine ⟨ih1, ih2, ?_⟩
      intro hmem hr
      rcases List.mem_cons.1 hmem with rfl | hmem
      · exact absurd ht hr
      · exact ih3 hmem hr
    · have hstep := schedule_untracked e p ht
      by_cases hpr : p = r
      · subst hpr
        have htr : p ∈ (e.scheduleMeshExtraction p).2.positionsExtracted :=
          schedule_tracks e p p (Or.inl rfl)
        have hcnt : (e.scheduleMeshExtraction p).2.pendingExtraction.count p =
            e.pendingExtraction.count p + 1 := by
          rw [hstep]
          simp
        refine ⟨fun h => absurd h ht, ?_, ?_⟩
        · rw [ih1 htr, hcnt]
        · intro _ _
          rw [ih1 htr, hcnt]
      · have hcnt : (e.scheduleMeshExtraction p).2.pendingExtraction.count r =
            e.pendingExtraction.count r := by
          rw [hstep]
          have h0 : List.count r [p] = 0 := by
            rw [List.count_eq_zero]
            simpa using Ne.symm hpr
          simp [List.count_append, h0]
        have hiff : r ∈ (e.scheduleMeshExtraction p).2.positionsExtracted ↔
            r ∈ e.positionsExtracted := by
          rw [hstep]
          simp [Ne.symm hpr]
        refine ⟨?_, ?_, ?_⟩
        · intro h
          rw [ih1 (hiff.2 h), hcnt]
        · rw [← hcnt]
          exact ih2
        · intro hmem hr
          rcases List.mem_cons.1 hmem with rfl | hmem
          · exact absurd rfl hpr
          · rw [ih3 hmem (fun h => hr (hiff.1 h)), hcnt]

/-- Of two calls for the same region the later one returns false. -/
theorem scheduleAll_second (e : MeshExtractor) (calls : List IVec3) (r : IVec3) (i j : Nat)
    (hij : i < j) (hi : calls[i]? = some r) (hj : calls[j]? = some r) :
    (scheduleAll e calls).1[j]? = some false := by
  induction calls generalizing e i j with
  | nil => simp at hi
  | cons p ps ih =>
    cases j with
    | zero => omega
    | succ j =>
      simp only [List.getElem?_cons_succ] at hj
      simp only [scheduleAll, List.getElem?_cons_succ]
      cases i with
      | zero =>
        simp at hi
        subst hi
        exact scheduleAll_tracked _ ps p (schedule_tracks e p p (Or.inl rfl)) j hj
      | succ i =>
        simp only [List.getElem?_cons_succ] at hi
        exact ih _ i j (by omega) hi hj

/-- The first call for an untracked region returns true. -/
theorem scheduleAll_first (e : MeshExtractor) (calls : List IVec3) (r : IVec3) (i : Nat)
    (hr : r ∉ e.positionsExtracted) (hi : calls[i]? = some r)
    (hfirst : ∀ k, k < i → calls[k]? ≠ some r) :
    (scheduleAll e calls).1[i]? = some true := by
  induction calls generalizing e i with
  | nil => simp at hi
  | cons p ps ih =>
    cases i with
    | zero =>
      simp at hi
      subst hi
      simp [scheduleAll, schedule_untracked e p hr]
    | succ i =>
      simp only [List.getElem?_cons_succ] at hi
      simp only [scheduleAll, List.getElem?_cons_succ]
      have hpr : p ≠ r := by
        intro h
        exact hfirst 0 (Nat.succ_pos i) (by simp [h])
      refine ih _ i ?_ hi (fun k hk => by simpa using hfirst (k + 1) (by omega))
      by_cases ht : p ∈ e.positionsExtracted
      · rw [schedule_tracked e p ht]
        exact hr
      · rw [schedule_untracked e p ht]
        simp [Ne.symm hpr, hr]

/-- What `extractMeshes` does to the scheduler modelled from the spec is the sequence of
calls of `scheduleMeshExtraction` for the visited cells. -/
theorem extractMeshes_specEnv (aborts : Bool) (indexBits : Nat)
    (s : WorldChunkMgr MeshExtractor) (cells : List IVec3) :
    extractMeshes (specEnv aborts indexBits) s cells =
      { s with meshExtractor := (scheduleAll s.meshExtractor cells).2 } := by
  induction cells generalizing s with
  | nil => rfl
  | cons p ps ih =>
    simp only [extractMeshes, List.foldl_cons] at ih ⊢
    rw [ih]
    rfl

/-- C13.  Duplicate suppression, for the scheduler modelled from the spec: in every sequence
of `scheduleMeshExtraction` calls (the calls `extractMeshes` and `extractMesh` make), of two
calls with the same region the later one returns false; the first call for a region that is
not yet tracked returns true and enqueues one request; every repetition of a call for that
region leaves the scheduler unchanged.  So a region without an outstanding request has at
most one afterwards, and exactly one when it was scheduled and not tracked before. -/
theorem C13_duplicate_suppression (e : MeshExtractor) (calls : List IVec3) (r : IVec3)
    (hnone : e.pendingExtraction.count r = 0) :
    (∀ (i j : Nat), i < j → calls[i]? = some r → calls[j]? = some r →
      (scheduleAll e calls).1[j]? = some false) ∧
    (∀ i : Nat, r ∉ e.positionsExtracted → calls[i]? = some r →
      (∀ k, k < i → calls[k]? ≠ some r) → (scheduleAll e calls).1[i]? = some true) ∧
    (scheduleAll e calls).2.pendingExtraction.count r ≤ 1 ∧
    (r ∈ calls → r ∉ e.positionsExtracted →
      (scheduleAll e calls).2.pendingExtraction.count r = 1) ∧
    (∀ n : Nat, r ∉ e.positionsExtracted →
      (scheduleAll e (List.replicate (n + 1) r)).1 = true :: List.replicate n false ∧
      (scheduleAll e (List.replicate (n + 1) r)).2 = (e.scheduleMeshExtraction r).2) ∧
    (∀ (aborts : Bool) (indexBits : Nat) (s : WorldChunkMgr MeshExtractor),
      s.meshExtractor = e →
      (extractMeshes (specEnv aborts indexBits) s calls).meshExtractor =
        (scheduleAll e calls).2 ∧
      (extractMesh (specEnv aborts indexBits) s r).meshExtractor =
        (e.scheduleMeshExtraction r).2) := by
  obtain ⟨-, h2, h3⟩ := scheduleAll_count e calls r
  refine ⟨fun i j hij hi hj => scheduleAll_second e calls r i j hij hi hj,
    fun i hr hi hfirst => scheduleAll_first e calls r i hr hi hfirst, ?_, ?_, ?_, ?_⟩
  · rw [hnone] at h2
    exact h2
  · intro hmem hr
    rw [h3 hmem hr, hnone]
  · intro n hr
    have hrep : ∀ (m : Nat) (e1 : MeshExtractor), r ∈ e1.positionsExtracted →
        scheduleAll e1 (List.replicate m r) = (List.replicate m false, e1) := by
      intro m
      induction m with
      | zero => intro e1 _; rfl
      | succ m ih =>
        intro e1 h1
        simp only [List.replicate_succ, scheduleAll, schedule_tracked e1 r h1, ih e1 h1]
    simp only [List.replicate_succ, scheduleAll]
    rw [hrep n _ (schedule_tracks e r r (Or.inl rfl))]
    simp [schedule_untracked e r hr]
  · intro aborts indexBits s hs
    subst hs
    rw [extractMeshes_specEnv]
    exact ⟨rfl, rfl⟩

/-- C13 at a concrete input: the region (32,0,0) is requested three times, with a request
for (64,0,0) in between; the results are true, false, true, false and one request for each
region is outstanding. -/
theorem C13_duplicate_suppression_witness :
    (scheduleAll ⟨[], [], [], ⟨32, 32, 32⟩⟩
      [⟨32, 0, 0⟩, ⟨32, 0, 0⟩, ⟨64, 0, 0⟩, ⟨32, 0, 0⟩]).1 = [true, false, true, false] ∧
    (scheduleAll ⟨[], [], [], ⟨32, 32, 32⟩⟩
      [⟨32, 0, 0⟩, ⟨32, 0, 0⟩, ⟨64, 0, 0⟩, ⟨32, 0, 0⟩]).2.pendingExtraction =
      [⟨32, 0, 0⟩, ⟨64, 0, 0⟩] ∧
    (scheduleAll ⟨[], [], [], ⟨32, 32, 32⟩⟩
      [⟨32, 0, 0⟩, ⟨32, 0, 0⟩, ⟨64, 0, 0⟩, ⟨32, 0, 0⟩]).2.pendingExtraction.count
        ⟨32, 0, 0⟩ ≤ 1 :=
  ⟨by decide, by decide,
   (C13_duplicate_suppression ⟨[], [], [], ⟨32, 32, 32⟩⟩
      [⟨32, 0, 0⟩, ⟨32, 0, 0⟩, ⟨64, 0, 0⟩, ⟨32, 0, 0⟩] ⟨32, 0, 0⟩ (by decide)).2.2.1⟩

/-! ## In-place update and exhaustion -/

/-- After every sequence of calls from a pool without an occupied slot every occupied slot
is the first slot with its translation. -/
theorem run_occupiedFirst {E : Type} (env : Env E) (s0 s : WorldChunkMgr E) (ops : List Op)
    (hfree : ∀ c ∈ s0.chunkBuffers, c.inuse = false) (hrun : run env s0 ops = some s) :
    OccupiedFirst s.chunkBuffers := by
  refine run_invariant env (fun s => OccupiedFirst s.chunkBuffers)
    (fun _ _ h => h) (fun s meshes h => store_occupiedFirst env s meshes h)
    (fun s focusPos s2 h hu => update_occupiedFirst env s s2 focusPos h hu)
    (fun s _ => reset_occupiedFirst env s) ops s0 s ?_ hrun
  intro a b ca cb _ hb hub _
  rw [hfree cb (List.getElem?_mem hb)] at hub
  cases hub

/-- The active count after `handleMeshQueue.store`, by the slot that was selected. -/
theorem store_active {E : Type} (env : Env E) (s : WorldChunkMgr E) (meshes : ChunkMeshes) :
    (handleMeshQueue.findChunkBuffer meshes.translation s.chunkBuffers 0 none = none →
      (handleMeshQueue.store env s meshes).activeChunkBuffers = s.activeChunkBuffers) ∧
    (∀ (k : Nat) (c : ChunkBuffer),
      handleMeshQueue.findChunkBuffer meshes.translation s.chunkBuffers 0 none = some k →
      s.chunkBuffers[k]? = some c →
      (handleMeshQueue.store env s meshes).activeChunkBuffers =
        if c.inuse then s.activeChunkBuffers else s.activeChunkBuffers + 1) := by
  constructor
  · intro hsel
    rw [store_of_none env s meshes hsel]
  · intro k c hsel hc
    rw [store_of_found env s meshes k c hsel hc]

/-- C14.  In-place update: in a state reached from a pool without an occupied slot, when an
occupied slot already has translation T, a call of `handleMeshQueue` that pops a completed
mesh for T puts the mesh and its bounding box into that slot and leaves the active count,
the in-use flag of the slot and every other slot unchanged.  In every state the count
grows, by exactly one, only when the selected slot was free. -/
theorem C14_in_place_update {E : Type} (env : Env E) (s0 s : WorldChunkMgr E) (ops : List Op)
    (meshes : ChunkMeshes) (e : E) (i : Nat) (cb : ChunkBuffer)
    (hfree : ∀ c ∈ s0.chunkBuffers, c.inuse = false) (hrun : run env s0 ops = some s)
    (hpop : env.pop s.meshExtractor = (some meshes, e))
    (hcb : s.chunkBuffers[i]? = some cb) (hu : cb.inuse = true)
    (hT : cb.translation = meshes.translation) :
    (handleMeshQueue env s).chunkBuffers[i]? =
      some ⟨true, (updateAABB ⟨true, cb.aabb, meshes⟩).aabb, meshes⟩ ∧
    (∀ j, j ≠ i → (handleMeshQueue env s).chunkBuffers[j]? = s.chunkBuffers[j]?) ∧
    (handleMeshQueue env s).chunkBuffers.length = s.chunkBuffers.length ∧
    (handleMeshQueue env s).activeChunkBuffers = s.activeChunkBuffers ∧
    (∀ (t : WorldChunkMgr E) (m : ChunkMeshes) (e1 : E),
      env.pop t.meshExtractor = (some m, e1) →
      (handleMeshQueue.findChunkBuffer m.translation t.chunkBuffers 0 none = none →
        (handleMeshQueue env t).activeChunkBuffers = t.activeChunkBuffers) ∧
      (∀ (k : Nat) (c : ChunkBuffer),
        handleMeshQueue.findChunkBuffer m.translation t.chunkBuffers 0 none = some k →
        t.chunkBuffers[k]? = some c →
        (handleMeshQueue env t).activeChunkBuffers =
          if c.inuse then t.activeChunkBuffers else t.activeChunkBuffers + 1)) := by
  have hinv := run_occupiedFirst env s0 s ops hfree hrun
  have hsel : handleMeshQueue.findChunkBuffer meshes.translation s.chunkBuffers 0 none =
      some i := by
    have := findChunkBuffer_match meshes.translation s.chunkBuffers 0 none i cb hcb hT
      (fun m c hm hc hTc => by
        have := hinv m i c cb hc hcb hu (by rw [hTc, hT])
        omega)
    simpa using this
  have hlt := findChunkBuffer_lt _ _ _ hsel
  have hq : handleMeshQueue env s =
      { s with
        chunkBuffers := s.chunkBuffers.set i (storedSlot cb meshes)
        octree := (s.octree.insert env.octreeLimit i (storedSlot cb meshes).aabb).2
        activeChunkBuffers :=
          if cb.inuse then s.activeChunkBuffers else s.activeChunkBuffers + 1
        meshExtractor := e } := by
    rw [handleMeshQueue_of_pop env s meshes e hpop, store_of_found env s meshes i cb hsel hcb]
  refine ⟨?_, ?_, ?_, ?_, ?_⟩
  · rw [hq]
    simp [hlt, storedSlot, updateAABB]
  · intro j hj
    rw [hq]
    simp [List.getElem?_set_ne (Ne.symm hj)]
  · rw [hq]
    simp
  · rw [hq]
    simp [hu]
  · intro t m e1 hp
    rw [handleMeshQueue_of_pop env t m e1 hp]
    exact store_active env t m

/-- C14 at a concrete input: slot 0 of a pool of two slots holds a triangle at (10,0,0); a
square for the same translation arrives and replaces it in place, with the count staying
at 1. -/
theorem C14_in_place_update_witness :
    ∃ s, run (testEnv ⟨1, 1, 1⟩ true true)
        (sampleMgr 2 100 [sampleTriangle ⟨10, 0, 0⟩, sampleQuad ⟨10, 0, 0⟩])
        [Op.handleMeshQueue] = some s ∧
      s.activeChunkBuffers = 1 ∧
      (handleMeshQueue (testEnv ⟨1, 1, 1⟩ true true) s).activeChunkBuffers = 1 ∧
      (handleMeshQueue (testEnv ⟨1, 1, 1⟩ true true) s).chunkBuffers[0]? =
        some ⟨true, ⟨⟨10, 0, 0⟩, ⟨11, 0, 1⟩⟩, sampleQuad ⟨10, 0, 0⟩⟩ := by
  have hs : run (testEnv ⟨1, 1, 1⟩ true true)
      (sampleMgr 2 100 [sampleTriangle ⟨10, 0, 0⟩, sampleQuad ⟨10, 0, 0⟩])
      [Op.handleMeshQueue] =
      some (handleMeshQueue (testEnv ⟨1, 1, 1⟩ true true)
        (sampleMgr 2 100 [sampleTriangle ⟨10, 0, 0⟩, sampleQuad ⟨10, 0, 0⟩])) := rfl
  have h := C14_in_place_update (testEnv ⟨1, 1, 1⟩ true true)
    (sampleMgr 2 100 [sampleTriangle ⟨10, 0, 0⟩, sampleQuad ⟨10, 0, 0⟩]) _
    [Op.handleMeshQueue] (sampleQuad ⟨10, 0, 0⟩) [] 0
    ⟨true, ⟨⟨10, 0, 0⟩, ⟨11, 0, 1⟩⟩, sampleTriangle ⟨10, 0, 0⟩⟩
    (by decide) hs (by decide) (by decide) rfl rfl
  refine ⟨_, hs, by decide, ?_, ?_⟩
  · rw [h.2.2.2.1]
    decide
  · rw [h.1]
    decide

/-- C15.  Pool exhaustion is a soft failure: when every slot is occupied and none has the
translation of the popped mesh, `handleMeshQueue` returns with every slot, the active count,
the index, the cutoff and the merged lists exactly as they were; only the extractor has
changed by the `pop`, and the popped mesh is in no slot. -/
theorem C15_pool_exhaustion {E : Type} (env : Env E) (s : WorldChunkMgr E)
    (meshes : ChunkMeshes) (e : E)
    (hpop : env.pop s.meshExtractor = (some meshes, e))
    (hfull : ∀ c ∈ s.chunkBuffers, c.inuse = true)
    (hnone : ∀ c ∈ s.chunkBuffers, c.translation ≠ meshes.translation) :
    handleMeshQueue env s = { s with meshExtractor := e } ∧
    (handleMeshQueue env s).chunkBuffers = s.chunkBuffers ∧
    (handleMeshQueue env s).activeChunkBuffers = s.activeChunkBuffers ∧
    (handleMeshQueue env s).octree = s.octree ∧
    (∀ c ∈ (handleMeshQueue env s).chunkBuffers, c.meshes ≠ meshes) := by
  have hsel : handleMeshQueue.findChunkBuffer meshes.translation s.chunkBuffers 0 none =
      none :=
    (findChunkBuffer_none_iff _ _ _ _).2 ⟨rfl, fun c hc => ⟨hnone c hc, hfull c hc⟩⟩
  have hq : handleMeshQueue env s = { s with meshExtractor := e } := by
    rw [handleMeshQueue_of_pop env s meshes e hpop, store_of_none env s meshes hsel]
  refine ⟨hq, by rw [hq], by rw [hq], by rw [hq], ?_⟩
  rw [hq]
  intro c hc hm
  exact hnone c hc (by rw [ChunkBuffer.translation, hm])

/-- C15 at a concrete input: a pool of one slot that holds the mesh for (10,0,0) receives
the mesh for (20,0,0): nothing but the queue of the extractor changes. -/
theorem C15_pool_exhaustion_witness :
    handleMeshQueue (testEnv ⟨1, 1, 1⟩ true true)
      ⟨[⟨true, sampleBox, sampleTriangle ⟨10, 0, 0⟩⟩], 1, 100, ⟨[(0, sampleBox)]⟩,
        [sampleTriangle ⟨20, 0, 0⟩], [], []⟩ =
      ⟨[⟨true, sampleBox, sampleTriangle ⟨10, 0, 0⟩⟩], 1, 100, ⟨[(0, sampleBox)]⟩,
        [], [], []⟩ :=
  (C15_pool_exhaustion (testEnv ⟨1, 1, 1⟩ true true)
    ⟨[⟨true, sampleBox, sampleTriangle ⟨10, 0, 0⟩⟩], 1, 100, ⟨[(0, sampleBox)]⟩,
      [sampleTriangle ⟨20, 0, 0⟩], [], []⟩ (sampleTriangle ⟨20, 0, 0⟩) [] rfl
    (by decide) (by decide)).1

/-! ## Released slots, the cutoff and the reset -/

/-- C16 (as stated, refuted).  The meshes for (10,0,0) and (150,0,0) are stored in a pool of
two slots.  After an `update` that evicts both, and likewise after a `reset`, both slots are
free and still have the translations (10,0,0) and (150,0,0): the translation is not
cleared, and the loop of `handleMeshQueue` still finds slot 1 by the translation (150,0,0)
although slot 0 is the first free slot. -/
theorem C16_counterexample :
    (run (testEnv ⟨1, 1, 1⟩ true true)
        (sampleMgr 2 100 [sampleTriangle ⟨10, 0, 0⟩, sampleTriangle ⟨150, 0, 0⟩])
        [Op.handleMeshQueue, Op.handleMeshQueue, Op.update ⟨1000, 0, 0⟩]).map
      (fun s => (slotSummary s,
        handleMeshQueue.findChunkBuffer ⟨150, 0, 0⟩ s.chunkBuffers 0 none)) =
      some ([(false, ⟨10, 0, 0⟩), (false, ⟨150, 0, 0⟩)], some 1) ∧
    (run (testEnv ⟨1, 1, 1⟩ true true)
        (sampleMgr 2 100 [sampleTriangle ⟨10, 0, 0⟩, sampleTriangle ⟨150, 0, 0⟩])
        [Op.handleMeshQueue, Op.handleMeshQueue, Op.reset]).map
      (fun s => (slotSummary s,
        handleMeshQueue.findChunkBuffer ⟨150, 0, 0⟩ s.chunkBuffers 0 none)) =
      some ([(false, ⟨10, 0, 0⟩), (false, ⟨150, 0, 0⟩)], some 1) := by
  decide

/-- C16 (amended).  Releasing a slot: when `update` evicts a slot, and likewise when `reset`
frees it, only the in-use flag of the slot is cleared; the slot keeps its translation, its
stored geometry and its bounding box, so it still matches the translation it held: when it
is the first slot with that translation, the loop of `handleMeshQueue` selects it for the
next mesh with that translation. -/
theorem C16_release_slot {E : Type} (env : Env E) (s : WorldChunkMgr E) :
    (∀ (focusPos : IVec3) (s1 : WorldChunkMgr E) (i : Nat) (c : ChunkBuffer),
      update env s focusPos = some s1 → s.chunkBuffers[i]? = some c →
      outOfRange focusPos s.maxAllowedDistance c = true →
      s1.chunkBuffers[i]? = some { c with inuse := false }) ∧
    (∀ (i : Nat) (c : ChunkBuffer), s.chunkBuffers[i]? = some c →
      (reset env s).chunkBuffers[i]? = some { c with inuse := false }) ∧
    (∀ c : ChunkBuffer,
      ({ c with inuse := false } : ChunkBuffer).translation = c.translation ∧
      ({ c with inuse := false } : ChunkBuffer).meshes = c.meshes ∧
      ({ c with inuse := false } : ChunkBuffer).aabb = c.aabb ∧
      ({ c with inuse := false } : ChunkBuffer).inuse = false) ∧
    (∀ (bufs : List ChunkBuffer) (i : Nat) (c : ChunkBuffer),
      bufs[i]? = some { c with inuse := false } →
      (∀ (m : Nat) (c1 : ChunkBuffer), m < i → bufs[m]? = some c1 →
        c1.translation ≠ c.translation) →
      handleMeshQueue.findChunkBuffer c.translation bufs 0 none = some i) := by
  refine ⟨?_, ?_, fun c => ⟨rfl, rfl, rfl, rfl⟩, ?_⟩
  · intro focusPos s1 i c hu hc hout
    obtain ⟨h1, -⟩ := update_result env s s1 focusPos hu
    rw [h1]
    simp [hc, evictSlot, hout]
  · intro i c hc
    simp [reset, hc]
  · intro bufs i c hc hfirst
    simpa using findChunkBuffer_match c.translation bufs 0 none i _ hc rfl hfirst

/-- C16 (amended) at a concrete input: the resident slot at (150,0,0) is evicted by an
`update` with the focus at the origin and the cutoff 10000 and keeps its translation and
its mesh. -/
theorem C16_release_slot_witness :
    ∃ s1, update (testEnv ⟨1, 1, 1⟩ true true)
        (samplePool [⟨true, sampleBox, sampleTriangle ⟨150, 0, 0⟩⟩] 1 10000 1)
        ⟨0, 0, 0⟩ = some s1 ∧
      s1.chunkBuffers[0]? = some ⟨false, sampleBox, sampleTriangle ⟨150, 0, 0⟩⟩ := by
  obtain ⟨s1, hs1⟩ := update_total (testEnv ⟨1, 1, 1⟩ true true)
    (samplePool [⟨true, sampleBox, sampleTriangle ⟨150, 0, 0⟩⟩] 1 10000 1) ⟨0, 0, 0⟩
    (Or.inr (fun _ _ => rfl))
  exact ⟨s1, hs1, (C16_release_slot (testEnv ⟨1, 1, 1⟩ true true)
    (samplePool [⟨true, sampleBox, sampleTriangle ⟨150, 0, 0⟩⟩] 1 10000 1)).1 ⟨0, 0, 0⟩ s1 0
    ⟨true, sampleBox, sampleTriangle ⟨150, 0, 0⟩⟩ hs1 rfl (by decide)⟩

/-- C18.  `reset`: from every state, after `reset` no slot is occupied, the active count is
0 and the index holds no entry, so no query returns a slot and a following `cull` produces
empty merged vertex and index lists; the cutoff set by `updateViewDistance` and the number
of slots are kept. -/
theorem C18_reset {E : Type} (env : Env E) (s : WorldChunkMgr E) :
    (∀ c ∈ (reset env s).chunkBuffers, c.inuse = false) ∧
    occupiedCount (reset env s).chunkBuffers = 0 ∧
    (reset env s).activeChunkBuffers = 0 ∧
    (reset env s).octree.contents = [] ∧
    (∀ q : AABB, (reset env s).octree.query q = []) ∧
    (∀ q : AABB, (cull env (reset env s) q).opaqueVertices = [] ∧
      (cull env (reset env s) q).opaqueIndices = []) ∧
    (reset env s).maxAllowedDistance = s.maxAllowedDistance ∧
    (reset env s).chunkBuffers.length = s.chunkBuffers.length ∧
    (reset env s).meshExtractor = env.resetExtractor s.meshExtractor := by
  have hq : ∀ q : AABB, (reset env s).octree.query q = [] := by
    intro q
    simp [reset, Octree.clear, Octree.query]
  refine ⟨?_, ?_, rfl, rfl, hq, ?_, rfl, ?_, rfl⟩
  · intro c hc
    simp only [reset, List.mem_map] at hc
    obtain ⟨c0, -, rfl⟩ := hc
    rfl
  · simp [reset, occupiedCount_reset]
  · intro q
    obtain ⟨hv, hi⟩ := cull_eq env (reset env s) q
    rw [hv, hi]
    simp [cull.contents, hq q, mergedVertices, rebasedIndices]
  · simp [reset]

/-- C18 at a concrete input: a manager with two resident, indexed squares, the cutoff 100
and non-empty merged lists is reset; no slot is occupied, the count is 0, the index is
empty and the cutoff is still 100. -/
theorem C18_reset_witness :
    slotSummary (reset (testEnv ⟨1, 1, 1⟩ true true)
      (sampleIndexed ⟨true, sampleBox, sampleQuad ⟨0, 0, 0⟩⟩
        ⟨true, sampleBox, sampleQuad ⟨8, 0, 0⟩⟩)) =
      [(false, ⟨0, 0, 0⟩), (false, ⟨8, 0, 0⟩)] ∧
    (reset (testEnv ⟨1, 1, 1⟩ true true)
      (sampleIndexed ⟨true, sampleBox, sampleQuad ⟨0, 0, 0⟩⟩
        ⟨true, sampleBox, sampleQuad ⟨8, 0, 0⟩⟩)).activeChunkBuffers = 0 ∧
    (cull (testEnv ⟨1, 1, 1⟩ true true)
      (reset (testEnv ⟨1, 1, 1⟩ true true)
        (sampleIndexed ⟨true, sampleBox, sampleQuad ⟨0, 0, 0⟩⟩
          ⟨true, sampleBox, sampleQuad ⟨8, 0, 0⟩⟩)) sampleBox).opaqueVertices = [] :=
  ⟨by decide,
   (C18_reset (testEnv ⟨1, 1, 1⟩ true true)
      (sampleIndexed ⟨true, sampleBox, sampleQuad ⟨0, 0, 0⟩⟩
        ⟨true, sampleBox, sampleQuad ⟨8, 0, 0⟩⟩)).2.2.1,
   ((C18_reset (testEnv ⟨1, 1, 1⟩ true true)
      (sampleIndexed ⟨true, sampleBox, sampleQuad ⟨0, 0, 0⟩⟩
        ⟨true, sampleBox, sampleQuad ⟨8, 0, 0⟩⟩)).2.2.2.2.2.1 sampleBox).1⟩

/-! ## Empty geometry and the bounded drain -/

/-- The box `updateAABB` computes for a mesh without vertices. -/
theorem updateAABB_empty (cb : ChunkBuffer) (h : cb.meshes.mesh.vecVertices = []) :
    (updateAABB cb).aabb = ⟨⟨INT_MAX, INT_MAX, INT_MAX⟩, ⟨INT_MIN, INT_MIN, INT_MIN⟩⟩ := by
  simp [updateAABB, updateAABB.reduce, Mesh.getVertexVector, h]

/-- C19 (as stated, refuted).  Slot 0 of a pool of one slot receives a square for (10,0,0)
and is indexed under its box; then a completed mesh without vertices for the same
translation arrives.  The slot now holds the empty mesh and an invalid box, the insert is
skipped, but the back-reference of the first insert is still in the index: the query over
(0,0,0)-(200,10,10) returns the slot. -/
theorem C19_counterexample :
    (run (testEnv ⟨1, 1, 1⟩ true true)
        (sampleMgr 1 100 [sampleQuad ⟨10, 0, 0⟩, sampleMeshes ⟨10, 0, 0⟩ [] []])
        [Op.handleMeshQueue, Op.handleMeshQueue]).map
      (fun s => s.chunkBuffers.map (fun c => (c.inuse, c.meshes, c.aabb.isValid))) =
      some [(true, sampleMeshes ⟨10, 0, 0⟩ [] [], false)] ∧
    (run (testEnv ⟨1, 1, 1⟩ true true)
        (sampleMgr 1 100 [sampleQuad ⟨10, 0, 0⟩, sampleMeshes ⟨10, 0, 0⟩ [] []])
        [Op.handleMeshQueue, Op.handleMeshQueue]).map
      (fun s => s.octree.contents) = some [(0, ⟨⟨10, 0, 0⟩, ⟨11, 0, 1⟩⟩)] ∧
    (run (testEnv ⟨1, 1, 1⟩ true true)
        (sampleMgr 1 100 [sampleQuad ⟨10, 0, 0⟩, sampleMeshes ⟨10, 0, 0⟩ [] []])
        [Op.handleMeshQueue, Op.handleMeshQueue]).map
      (fun s => s.octree.query ⟨⟨0, 0, 0⟩, ⟨200, 10, 10⟩⟩) = some [0] := by
  decide

/-- C19 (amended).  Empty geometry: for a completed mesh with no vertices `updateAABB`
yields the box from (INT_MAX, INT_MAX, INT_MAX) to (INT_MIN, INT_MIN, INT_MIN), whose lower
corner is greater than its upper corner on every axis, and the insert `handleMeshQueue`
asks for is skipped: the index after the call is the index before the call.  So the buffer
is returned by no query when the index held no back-reference to its slot before the call,
which is the case whenever the selected slot was free in a state reached from an empty
index; back-references of an earlier mesh of the slot stay in the index. -/
theorem C19_empty_geometry {E : Type} (env : Env E) (s : WorldChunkMgr E)
    (meshes : ChunkMeshes) (e : E)
    (hpop : env.pop s.meshExtractor = (some meshes, e))
    (hempty : meshes.mesh.vecVertices = []) :
    (∀ cb : ChunkBuffer,
      (storedSlot cb meshes).aabb =
        ⟨⟨INT_MAX, INT_MAX, INT_MAX⟩, ⟨INT_MIN, INT_MIN, INT_MIN⟩⟩ ∧
      (storedSlot cb meshes).aabb.maxs.x < (storedSlot cb meshes).aabb.mins.x ∧
      (storedSlot cb meshes).aabb.maxs.y < (storedSlot cb meshes).aabb.mins.y ∧
      (storedSlot cb meshes).aabb.maxs.z < (storedSlot cb meshes).aabb.mins.z ∧
      (storedSlot cb meshes).aabb.isValid = false ∧
      ∀ (i : Nat), (s.octree.insert env.octreeLimit i (storedSlot cb meshes).aabb) =
        (false, s.octree)) ∧
    (handleMeshQueue env s).octree = s.octree ∧
    (∀ (i : Nat) (cb : ChunkBuffer),
      handleMeshQueue.findChunkBuffer meshes.translation s.chunkBuffers 0 none = some i →
      s.chunkBuffers[i]? = some cb →
      (handleMeshQueue env s).chunkBuffers[i]? = some (storedSlot cb meshes) ∧
      ((∀ entry ∈ s.octree.contents, entry.1 ≠ i) →
        ∀ q : AABB, i ∉ (handleMeshQueue env s).octree.query q)) ∧
    (∀ (s0 : WorldChunkMgr E) (ops : List Op) (i : Nat) (cb : ChunkBuffer),
      s0.octree.contents = [] → run env s0 ops = some s →
      handleMeshQueue.findChunkBuffer meshes.translation s.chunkBuffers 0 none = some i →
      s.chunkBuffers[i]? = some cb → cb.inuse = false →
      ∀ q : AABB, i ∉ (handleMeshQueue env s).octree.query q) := by
  have hbox : ∀ cb : ChunkBuffer, (storedSlot cb meshes).aabb =
      ⟨⟨INT_MAX, INT_MAX, INT_MAX⟩, ⟨INT_MIN, INT_MIN, INT_MIN⟩⟩ := by
    intro cb
    exact updateAABB_empty { cb with meshes := meshes } hempty
  have hinvalid : ∀ cb : ChunkBuffer, (storedSlot cb meshes).aabb.isValid = false := by
    intro cb
    rw [hbox cb]
    decide
  have hins : ∀ (cb : ChunkBuffer) (i : Nat),
      s.octree.insert env.octreeLimit i (storedSlot cb meshes).aabb = (false, s.octree) := by
    intro cb i
    simp [Octree.insert, hinvalid cb]
  have hoct : (handleMeshQueue env s).octree = s.octree := by
    rw [handleMeshQueue_of_pop env s meshes e hpop]
    cases hsel : handleMeshQueue.findChunkBuffer meshes.translation s.chunkBuffers 0 none with
    | none => rw [store_of_none env s meshes hsel]
    | some i =>
      have hlt := findChunkBuffer_lt _ _ _ hsel
      have hcb : s.chunkBuffers[i]? = some (s.chunkBuffers[i]) := by simp [hlt]
      rw [store_of_found env s meshes i _ hsel hcb]
      simp only
      rw [hins]
  have hnot : ∀ i : Nat, (∀ entry ∈ s.octree.contents, entry.1 ≠ i) →
      ∀ q : AABB, i ∉ (handleMeshQueue env s).octree.query q := by
    intro i hno q hmem
    rw [hoct] at hmem
    obtain ⟨entry, hm, he, -⟩ := (mem_query_iff _ _ _).1 hmem
    exact hno entry hm he
  refine ⟨?_, hoct, ?_, ?_⟩
  · intro cb
    refine ⟨hbox cb, ?_, ?_, ?_, hinvalid cb, hins cb⟩ <;>
    · rw [hbox cb]
      decide
  · intro i cb hsel hcb
    have hlt := findChunkBuffer_lt _ _ _ hsel
    refine ⟨?_, hnot i⟩
    rw [handleMeshQueue_of_pop env s meshes e hpop, store_of_found env s meshes i cb hsel hcb]
    simp [hlt]
  · intro s0 ops i cb hstart hrun hsel hcb hfree
    have hinv : IndexedOccupied s :=
      run_invariant env IndexedOccupied (fun _ _ h => h)
        (fun s meshes h => store_indexedOccupied env s meshes h)
        (fun s focusPos s1 h hu => update_indexedOccupied env s s1 focusPos h hu)
        (fun s _ => reset_indexedOccupied env s) ops s0 s
        (by intro entry hm; rw [hstart] at hm; cases hm) hrun
    refine hnot i ?_
    intro entry hm he
    obtain ⟨c, hc, hu⟩ := hinv entry hm
    rw [he, hcb] at hc
    cases hc
    rw [hfree] at hu
    cases hu

/-- C19 (amended) at a concrete input: a completed mesh without vertices for (10,0,0) is
stored in slot 0 of an empty pool; the index stays empty and the query over
(0,0,0)-(200,10,10) does not return the slot. -/
theorem C19_empty_geometry_witness :
    (handleMeshQueue (testEnv ⟨1, 1, 1⟩ true true)
      (sampleMgr 1 100 [sampleMeshes ⟨10, 0, 0⟩ [] []])).octree.contents = [] ∧
    0 ∉ (handleMeshQueue (testEnv ⟨1, 1, 1⟩ true true)
      (sampleMgr 1 100 [sampleMeshes ⟨10, 0, 0⟩ [] []])).octree.query
        ⟨⟨0, 0, 0⟩, ⟨200, 10, 10⟩⟩ := by
  have h := C19_empty_geometry (testEnv ⟨1, 1, 1⟩ true true)
    (sampleMgr 1 100 [sampleMeshes ⟨10, 0, 0⟩ [] []]) (sampleMeshes ⟨10, 0, 0⟩ [] []) []
    rfl rfl
  refine ⟨by rw [h.2.1]; rfl, ?_⟩
  exact (h.2.2.1 0 sampleFreeSlot (by decide) rfl).2 (by intro entry hm; cases hm) _

/-- C20.  Bounded drain: one call of `handleMeshQueue` calls `pop` once, so it takes at most
one completed mesh from the extractor; it changes at most one slot, never the number of
slots, raises the active count by at most one and never lowers it, and adds at most one
back-reference to the index.  When `pop` delivers no mesh the call changes no slot, not the
count and not the index. -/
theorem C20_bounded_drain {E : Type} (env : Env E) (s : WorldChunkMgr E) :
    (handleMeshQueue env s).meshExtractor = (env.pop s.meshExtractor).2 ∧
    (∃ i : Nat, ∀ j : Nat, j ≠ i →
      (handleMeshQueue env s).chunkBuffers[j]? = s.chunkBuffers[j]?) ∧
    (handleMeshQueue env s).chunkBuffers.length = s.chunkBuffers.length ∧
    s.activeChunkBuffers ≤ (handleMeshQueue env s).activeChunkBuffers ∧
    (handleMeshQueue env s).activeChunkBuffers ≤ s.activeChunkBuffers + 1 ∧
    ((handleMeshQueue env s).octree = s.octree ∨
      ∃ entry, (handleMeshQueue env s).octree.contents = s.octree.contents ++ [entry]) ∧
    ((env.pop s.meshExtractor).1 = none →
      (handleMeshQueue env s).chunkBuffers = s.chunkBuffers ∧
      (handleMeshQueue env s).activeChunkBuffers = s.activeChunkBuffers ∧
      (handleMeshQueue env s).octree = s.octree) := by
  rcases hp : env.pop s.meshExtractor with ⟨popped, e⟩
  cases popped with
  | none =>
    rw [handleMeshQueue_of_empty env s e hp]
    exact ⟨rfl, ⟨0, fun _ _ => rfl⟩, rfl, le_refl _, by simp, Or.inl rfl,
      fun _ => ⟨rfl, rfl, rfl⟩⟩
  | some meshes =>
    rw [handleMeshQueue_of_pop env s meshes e hp]
    cases hsel : handleMeshQueue.findChunkBuffer meshes.translation s.chunkBuffers 0 none with
    | none =>
      rw [store_of_none env s meshes hsel]
      exact ⟨rfl, ⟨0, fun _ _ => rfl⟩, rfl, le_refl _, by simp, Or.inl rfl,
        fun h => by simp at h⟩
    | some i =>
      have hlt := findChunkBuffer_lt _ _ _ hsel
      have hcb : s.chunkBuffers[i]? = some (s.chunkBuffers[i]) := by simp [hlt]
      rw [store_of_found env s meshes i _ hsel hcb]
      refine ⟨rfl, ⟨i, fun j hj => ?_⟩, by simp, ?_, ?_, ?_, fun h => by simp at h⟩
      · simp [List.getElem?_set_ne (Ne.symm hj)]
      · simp only
        split <;> omega
      · simp only
        split <;> omega
      · simp only
        cases hins : (s.octree.insert env.octreeLimit i
            (storedSlot s.chunkBuffers[i] meshes).aabb).1 with
        | false => exact Or.inl (insert_of_failure _ _ _ _ hins)
        | true => exact Or.inr ⟨_, (insert_of_success _ _ _ _ hins).1⟩

/-- C20 at a concrete input: with three completed meshes in the queue one call stores the
first one and leaves two in the queue; with an empty queue a call changes nothing. -/
theorem C20_bounded_drain_witness :
    (handleMeshQueue (testEnv ⟨1, 1, 1⟩ true true)
      (sampleMgr 4 100 [sampleTriangle ⟨10, 0, 0⟩, sampleTriangle ⟨20, 0, 0⟩,
        sampleTriangle ⟨30, 0, 0⟩])).meshExtractor =
      [sampleTriangle ⟨20, 0, 0⟩, sampleTriangle ⟨30, 0, 0⟩] ∧
    (handleMeshQueue (testEnv ⟨1, 1, 1⟩ true true)
      (sampleMgr 4 100 [sampleTriangle ⟨10, 0, 0⟩, sampleTriangle ⟨20, 0, 0⟩,
        sampleTriangle ⟨30, 0, 0⟩])).activeChunkBuffers = 1 ∧
    (handleMeshQueue (testEnv ⟨1, 1, 1⟩ true true) (sampleMgr 4 100 [])).chunkBuffers =
      (sampleMgr 4 100 []).chunkBuffers :=
  ⟨(C20_bounded_drain (testEnv ⟨1, 1, 1⟩ true true)
      (sampleMgr 4 100 [sampleTriangle ⟨10, 0, 0⟩, sampleTriangle ⟨20, 0, 0⟩,
        sampleTriangle ⟨30, 0, 0⟩])).1,
   by decide,
   ((C20_bounded_drain (testEnv ⟨1, 1, 1⟩ true true) (sampleMgr 4 100 [])).2.2.2.2.2.2
      rfl).1⟩

/-! ## `Var::boolVal` -/

/-- C21.  `Var::boolVal` returns true if and only if the current string value of the
variable is exactly "1" or exactly "true", compared case-sensitively, and false for every
other string, among them "TRUE", "yes" and the empty string. -/
theorem C21_boolVal (v : Var) :
    (v.boolVal = true ↔ v.strVal = "1" ∨ v.strVal = "true") ∧
    (v.strVal ≠ "1" → v.strVal ≠ "true" → v.boolVal = false) ∧
    (sampleVar "1").boolVal = true ∧ (sampleVar "true").boolVal = true ∧
    (sampleVar "TRUE").boolVal = false ∧ (sampleVar "True").boolVal = false ∧
    (sampleVar "yes").boolVal = false ∧ (sampleVar "").boolVal = false ∧
    (sampleVar "0").boolVal = false ∧ (sampleVar "false").boolVal = false ∧
    (sampleVar "11").boolVal = false ∧ (sampleVar " true").boolVal = false := by
  have hiff : v.boolVal = true ↔ v.strVal = "1" ∨ v.strVal = "true" := by
    simp only [Var.boolVal, Var.strVal, Bool.or_eq_true, beq_iff_eq]
    exact Or.comm
  refine ⟨hiff, ?_, by decide, by decide, by decide, by decide, by decide, by decide,
    by decide, by decide, by decide, by decide⟩
  intro h1 h2
  cases hb : v.boolVal with
  | false => rfl
  | true =>
    rcases hiff.1 hb with h | h
    · exact absurd h h1
    · exact absurd h h2

/-! ## `Mesh::operator<` -/

/-- C28.  `Mesh::operator<` compares the offsets component-wise, a < b iff a.x < b.x and
a.y < b.y and a.z < b.z, and is a strict partial order on meshes: irreflexive, asymmetric
and transitive. -/
theorem C28_mesh_less (a b c : Mesh) :
    (a.lt b = true ↔
      a.offset.x < b.offset.x ∧ a.offset.y < b.offset.y ∧ a.offset.z < b.offset.z) ∧
    a.lt a = false ∧
    (a.lt b = true → b.lt a = false) ∧
    (a.lt b = true → b.lt c = true → a.lt c = true) := by
  have hiff : ∀ p q : Mesh, p.lt q = true ↔
      p.offset.x < q.offset.x ∧ p.offset.y < q.offset.y ∧ p.offset.z < q.offset.z := by
    intro p q
    simp only [Mesh.lt, Mesh.getOffset, Bool.and_eq_true, decide_eq_true_eq]
    exact and_assoc
  refine ⟨hiff a b, ?_, ?_, ?_⟩
  · cases h : a.lt a with
    | false => rfl
    | true =>
      have := (hiff a a).1 h
      omega
  · intro hab
    cases h : b.lt a with
    | false => rfl
    | true =>
      have h1 := (hiff a b).1 hab
      have h2 := (hiff b a).1 h
      omega
  · intro hab hbc
    have h1 := (hiff a b).1 hab
    have h2 := (hiff b c).1 hbc
    exact (hiff a c).2 ⟨by omega, by omega, by omega⟩

/-! ## The boundary of the cutoff -/

/-- The first loop sets the flag of every index and leaves the other flags. -/
theorem markUsed_spec (indices : List Nat) (flags : List Bool)
    (h : ∀ v ∈ indices, v < flags.length) :
    ∃ out, Mesh.removeUnusedVertices.markUsed indices flags = some out ∧
      out.length = flags.length ∧
      ∀ j, out[j]? = (flags[j]?).map (fun b => b || decide (j ∈ indices)) := by
  induction indices generalizing flags with
  | nil => exact ⟨flags, rfl, rfl, fun j => by cases flags[j]? <;> simp⟩
  | cons v rest ih =>
    have hv := h v (List.mem_cons_self _ _)
    obtain ⟨out, ho, hl, hj⟩ := ih (flags.set v true)
      (by intro u hu; simpa using h u (List.mem_cons_of_mem _ hu))
    refine ⟨out, ?_, by simpa using hl, ?_⟩
    · simp only [Mesh.removeUnusedVertices.markUsed, if_pos hv, ho]
    · intro j
      rw [hj j]
      by_cases hjv : v = j
      · subst hjv
        rw [List.getElem?_set_self hv, List.getElem?_eq_getElem hv]
        simp
      · rw [List.getElem?_set_ne hjv]
        cases flags[j]? with
        | none => rfl
        | some b =>
          have : ¬ j = v := fun e => hjv e.symm
          simp [this]

/-- With valid indices the first loop computes the flags of the referenced vertices. -/
theorem markUsed_eq (indices : List Nat) (n : Nat) (h : ∀ v ∈ indices, v < n) :
    Mesh.removeUnusedVertices.markUsed indices (List.replicate n false) =
      some (usedFlags indices n) := by
  obtain ⟨out, ho, -, hj⟩ := markUsed_spec indices (List.replicate n false)
    (by simpa using h)
  rw [ho]
  congr 1
  apply List.ext_getElem?
  intro j
  rw [hj j, usedFlags, List.getElem?_map, List.getElem?_replicate]
  by_cases hjn : j < n
  · simp [hjn, List.getElem?_range hjn]
  · have : (List.range n)[j]? = none := List.getElem?_eq_none (by simpa using hjn)
    simp [hjn, this]

theorem usedFlags_length (indices : List Nat) (n : Nat) : (usedFlags indices n).length = n := by
  simp [usedFlags]

theorem usedFlags_getElem (indices : List Nat) (n j : Nat) (h : j < n) :
    (usedFlags indices n)[j]? = some (decide (j ∈ indices)) := by
  simp [usedFlags, List.getElem?_range h]

theorem usedBefore_succ (flags : List Bool) (c : Nat) (b : Bool) (h : flags[c]? = some b) :
    usedBefore flags (c + 1) = usedBefore flags c + (if b = true then 1 else 0) := by
  unfold usedBefore
  rw [List.take_succ, h, List.count_append]
  cases b <;> simp

theorem usedBefore_le (flags : List Bool) (c : Nat) : usedBefore flags c ≤ c := by
  unfold usedBefore
  have := List.count_le_length true (flags.take c)
  have := List.length_take_le c flags
  omega

theorem usedBefore_mono (flags : List Bool) (c d : Nat) (h : c ≤ d) :
    usedBefore flags c ≤ usedBefore flags d := by
  induction d with
  | zero =>
    have : c = 0 := by omega
    subst this
    exact Nat.le_refl _
  | succ d ih =>
    by_cases hc : c = d + 1
    · subst hc
      exact Nat.le_refl _
    · have h1 := ih (by omega)
      cases hf : flags[d]? with
      | none =>
        have hlen : flags.length ≤ d := by
          rcases Nat.lt_or_ge d flags.length with hl | hl
          · rw [List.getElem?_eq_getElem hl] at hf
            cases hf
          · exact hl
        unfold usedBefore at *
        rw [List.take_of_length_le (by omega : flags.length ≤ d + 1)]
        rw [List.take_of_length_le hlen] at h1
        exact h1
      | some b =>
        rw [usedBefore_succ flags d b hf]
        omega

theorem keepUsed_append (a : List VoxelVertex) (f : List Bool) (v : VoxelVertex) (b : Bool)
    (h : a.length = f.length) :
    keepUsed (a ++ [v]) (f ++ [b]) = keepUsed a f ++ (if b = true then [v] else []) := by
  induction a generalizing f with
  | nil =>
    cases f with
    | nil => cases b <;> rfl
    | cons x xs => simp at h
  | cons x xs ih =>
    cases f with
    | nil => simp at h
    | cons y ys =>
      have h1 : xs.length = ys.length := by simpa using h
      cases y with
      | true =>
        show x :: keepUsed (xs ++ [v]) (ys ++ [b]) = _
        rw [ih ys h1]
        rfl
      | false =>
        show keepUsed (xs ++ [v]) (ys ++ [b]) = _
        rw [ih ys h1]
        rfl

theorem keepUsed_length (a : List VoxelVertex) (f : List Bool) (h : a.length = f.length) :
    (keepUsed a f).length = f.count true := by
  induction a generalizing f with
  | nil =>
    cases f with
    | nil => rfl
    | cons x xs => simp at h
  | cons x xs ih =>
    cases f with
    | nil => simp at h
    | cons y ys =>
      have h1 : xs.length = ys.length := by simpa using h
      cases y with
      | true =>
        show (x :: keepUsed xs ys).length = _
        simp [ih ys h1]
      | false =>
        show (keepUsed xs ys).length = _
        simp [ih ys h1]

/-- The prefixes of the vertices and of the flags, one position longer. -/
theorem keepUsed_take_succ (orig : List VoxelVertex) (flags : List Bool) (c : Nat)
    (v : VoxelVertex) (b : Bool) (hlen : flags.length = orig.length)
    (hv : orig[c]? = some v) (hb : flags[c]? = some b) :
    keepUsed (orig.take (c + 1)) (flags.take (c + 1)) =
      keepUsed (orig.take c) (flags.take c) ++ (if b = true then [v] else []) := by
  rw [List.take_succ, List.take_succ, hv, hb]
  exact keepUsed_append _ _ v b (by simp [hlen])

theorem take_set_succ {α : Type} (l : List α) (k : Nat) (v : α) (h : k < l.length) :
    (l.set k v).take (k + 1) = l.take k ++ [v] := by
  rw [List.take_succ, List.getElem?_set_self h]
  congr 1
  apply List.ext_getElem?
  intro j
  rw [List.getElem?_take, List.getElem?_take]
  by_cases hj : j < k
  · rw [if_pos hj, if_pos hj, List.getElem?_set_ne (by omega)]
  · rw [if_neg hj, if_neg hj]

/-- Once the counter is negative the second loop ends with a negative counter or stops at an
access outside of the vertex vector. -/
theorem compact_negative (indexBits : Nat) (flags : List Bool) :
    ∀ (todo c : Nat) (st st1 : Mesh.removeUnusedVertices.State),
      st.noOfUsedVertices < 0 →
      Mesh.removeUnusedVertices.compact indexBits flags todo c st = some st1 →
      st1.noOfUsedVertices < 0 := by
  intro todo
  induction todo with
  | zero =>
    intro c st st1 hneg h
    simp only [Mesh.removeUnusedVertices.compact, Option.some.injEq] at h
    rw [← h]
    exact hneg
  | succ todo ih =>
    intro c st st1 hneg h
    rw [Mesh.removeUnusedVertices.compact] at h
    cases hf : flags[c]? with
    | none =>
      simp only [hf] at h
      cases h
    | some b =>
      cases b with
      | false =>
        simp only [hf] at h
        exact ih _ _ _ hneg h
      | true =>
        simp only [hf] at h
        cases hv : st.vecVertices[c]? with
        | none =>
          simp only [hv] at h
          cases h
        | some v =>
          simp only [hv] at h
          rw [if_neg (by omega)] at h
          cases h

/-- The vertex the loop reads at `c` is the original one. -/
theorem compactInv_read {indexBits : Nat} {flags : List Bool} {orig : List VoxelVertex}
    {c : Nat} {st : Mesh.removeUnusedVertices.State}
    (hinv : CompactInv indexBits flags orig c st) : st.vecVertices[c]? = orig[c]? := by
  have h := congrArg (fun l => l[0]?) hinv.rest
  simpa [List.getElem?_drop] using h

/-- An iteration that skips an unreferenced vertex keeps the invariant. -/
theorem compactInv_skip {indexBits : Nat} {flags : List Bool} {orig : List VoxelVertex}
    {c : Nat} {st : Mesh.removeUnusedVertices.State}
    (hinv : CompactInv indexBits flags orig c st) (hlen : flags.length = orig.length)
    (hc : c < orig.length) (hf : flags[c]? = some false) :
    CompactInv indexBits flags orig (c + 1) st := by
  have hub : usedBefore flags (c + 1) = usedBefore flags c := by
    rw [usedBefore_succ flags c false hf]
    simp
  have hk : keepUsed (orig.take (c + 1)) (flags.take (c + 1)) =
      keepUsed (orig.take c) (flags.take c) := by
    rw [keepUsed_take_succ orig flags c orig[c] false hlen (List.getElem?_eq_getElem hc) hf]
    simp
  refine ⟨hinv.len, hinv.posLen, ?_, ?_, ?_, ?_, ?_, ?_, ?_⟩
  · have := congrArg (List.drop 1) hinv.rest
    simpa [List.drop_drop] using this
  · rw [hub]
    exact hinv.count
  · rw [hub]
    exact hinv.bound
  · rw [hub, hk]
    exact hinv.kept
  · intro j hj hfj
    by_cases hjc : j = c
    · subst hjc
      rw [hf] at hfj
      cases hfj
    · exact hinv.pos j (by omega) hfj
  · rw [hk]
    exact hinv.mins
  · rw [hk]
    exact hinv.maxs

/-- An iteration that moves a referenced vertex to the front keeps the invariant. -/
theorem compactInv_keep {indexBits : Nat} {flags : List Bool} {orig : List VoxelVertex}
    {c : Nat} {st : Mesh.removeUnusedVertices.State} (v : VoxelVertex)
    (hinv : CompactInv indexBits flags orig c st) (hlen : flags.length = orig.length)
    (hv : orig[c]? = some v) (hf : flags[c]? = some true)
    (hb : usedBefore flags c < 2147483647) :
    CompactInv indexBits flags orig (c + 1)
      ⟨st.vecVertices.set st.noOfUsedVertices.toNat v,
        IVec3.min st.mins v.position, IVec3.max st.maxs v.position,
        wrapInt32 (st.noOfUsedVertices + 1),
        st.newPos.set c (st.noOfUsedVertices % ((2 ^ indexBits : Nat) : Int)).toNat⟩ := by
  have hc : c < orig.length := by
    rcases Nat.lt_or_ge c orig.length with h | h
    · exact h
    · rw [List.getElem?_eq_none h] at hv
      cases hv
  have hub : usedBefore flags (c + 1) = usedBefore flags c + 1 := by
    rw [usedBefore_succ flags c true hf]
    simp
  have hk : keepUsed (orig.take (c + 1)) (flags.take (c + 1)) =
      keepUsed (orig.take c) (flags.take c) ++ [v] := by
    rw [keepUsed_take_succ orig flags c v true hlen hv hf]
    simp
  have hle := usedBefore_le flags c
  have hcount := hinv.count
  have htoNat : st.noOfUsedVertices.toNat = usedBefore flags c := by
    rw [hcount]
    exact Int.toNat_ofNat _
  have hklt : usedBefore flags c < st.vecVertices.length := by
    rw [hinv.len]
    omega
  refine ⟨?_, ?_, ?_, ?_, ?_, ?_, ?_, ?_, ?_⟩
  · simpa using hinv.len
  · simpa using hinv.posLen
  · show List.drop (c + 1) (st.vecVertices.set st.noOfUsedVertices.toNat v) = _
    rw [htoNat, List.drop_set_of_lt v st.vecVertices (by omega : usedBefore flags c < c + 1)]
    have := congrArg (List.drop 1) hinv.rest
    simpa [List.drop_drop] using this
  · show wrapInt32 (st.noOfUsedVertices + 1) = _
    rw [hcount, hub, wrapInt32]
    push_cast
    omega
  · rw [hub]
    omega
  · show List.take (usedBefore flags (c + 1)) (st.vecVertices.set st.noOfUsedVertices.toNat v) = _
    rw [htoNat, hub, take_set_succ _ _ _ hklt, hinv.kept, hk]
  · intro j hj hfj
    show (st.newPos.set c (st.noOfUsedVertices % ((2 ^ indexBits : Nat) : Int)).toNat)[j]? = _
    by_cases hjc : j = c
    · subst hjc
      rw [List.getElem?_set_self (by rw [hinv.posLen]; exact hc), hcount, ← Int.natCast_mod,
        Int.toNat_ofNat]
    · rw [List.getElem?_set_ne (fun e => hjc e.symm)]
      exact hinv.pos j (by omega) hfj
  · show IVec3.min st.mins v.position = _
    rw [hk, hinv.mins, lowerCorner, lowerCorner, List.foldl_append]
    rfl
  · show IVec3.max st.maxs v.position = _
    rw [hk, hinv.maxs, upperCorner, upperCorner, List.foldl_append]
    rfl

/-- While the number of referenced vertices fits the counter, the second loop runs to its
end and keeps the invariant. -/
theorem compact_total (indexBits : Nat) (flags : List Bool) (orig : List VoxelVertex)
    (hlen : flags.length = orig.length)
    (hfit : usedBefore flags orig.length ≤ 2147483647) :
    ∀ (todo c : Nat) (st : Mesh.removeUnusedVertices.State),
      c + todo = orig.length → CompactInv indexBits flags orig c st →
      ∃ st1, Mesh.removeUnusedVertices.compact indexBits flags todo c st = some st1 ∧
        CompactInv indexBits flags orig orig.length st1 := by
  intro todo
  induction todo with
  | zero =>
    intro c st hc hinv
    have : c = orig.length := by omega
    subst this
    exact ⟨st, rfl, hinv⟩
  | succ todo ih =>
    intro c st hc hinv
    have hclt : c < orig.length := by omega
    rw [Mesh.removeUnusedVertices.compact]
    have hfc : flags[c]? = some flags[c] := List.getElem?_eq_getElem (by omega)
    cases hb : flags[c] with
    | false =>
      rw [hb] at hfc
      simp only [hfc]
      exact ih (c + 1) st (by omega) (compactInv_skip hinv hlen hclt hfc)
    | true =>
      rw [hb] at hfc
      have hv : orig[c]? = some orig[c] := List.getElem?_eq_getElem hclt
      have hread := compactInv_read hinv
      rw [hv] at hread
      simp only [hfc, hread]
      have hsucc : usedBefore flags (c + 1) = usedBefore flags c + 1 := by
        rw [usedBefore_succ flags c true hfc]
        simp
      have hmono := usedBefore_mono flags (c + 1) orig.length (by omega)
      have hle := usedBefore_le flags c
      have hcond : 0 ≤ st.noOfUsedVertices ∧
          st.noOfUsedVertices.toNat < st.vecVertices.length ∧ c < st.newPos.length := by
        refine ⟨?_, ?_, ?_⟩
        · rw [hinv.count]
          exact Int.natCast_nonneg _
        · rw [hinv.count, Int.toNat_ofNat, hinv.len]
          omega
        · rw [hinv.posLen]
          exact hclt
      rw [if_pos hcond]
      exact ih (c + 1) _ (by omega) (compactInv_keep orig[c] hinv hlen hv hfc (by omega))

/-- When the second loop ends with a counter that is not negative, the number of referenced
vertices fits the counter. -/
theorem compact_fits (indexBits : Nat) (flags : List Bool) (orig : List VoxelVertex)
    (hlen : flags.length = orig.length) :
    ∀ (todo c : Nat) (st st1 : Mesh.removeUnusedVertices.State),
      c + todo = orig.length → CompactInv indexBits flags orig c st →
      Mesh.removeUnusedVertices.compact indexBits flags todo c st = some st1 →
      0 ≤ st1.noOfUsedVertices → usedBefore flags orig.length ≤ 2147483647 := by
  intro todo
  induction todo with
  | zero =>
    intro c st st1 hc hinv _ _
    have : c = orig.length := by omega
    subst this
    exact hinv.bound
  | succ todo ih =>
    intro c st st1 hc hinv h hpos
    have hclt : c < orig.length := by omega
    rw [Mesh.removeUnusedVertices.compact] at h
    have hfc : flags[c]? = some flags[c] := List.getElem?_eq_getElem (by omega)
    cases hb : flags[c] with
    | false =>
      rw [hb] at hfc
      simp only [hfc] at h
      exact ih (c + 1) st st1 (by omega) (compactInv_skip hinv hlen hclt hfc) h hpos
    | true =>
      rw [hb] at hfc
      have hv : orig[c]? = some orig[c] := List.getElem?_eq_getElem hclt
      have hread := compactInv_read hinv
      rw [hv] at hread
      simp only [hfc, hread] at h
      by_cases hcond : 0 ≤ st.noOfUsedVertices ∧
          st.noOfUsedVertices.toNat < st.vecVertices.length ∧ c < st.newPos.length
      · rw [if_pos hcond] at h
        by_cases hmax : usedBefore flags c < 2147483647
        · exact ih (c + 1) _ st1 (by omega)
            (compactInv_keep orig[c] hinv hlen hv hfc hmax) h hpos
        · exfalso
          have hbound := hinv.bound
          have heq : usedBefore flags c = 2147483647 := by omega
          have hneg := compact_negative indexBits flags todo (c + 1) _ st1
            (by
              show wrapInt32 (st.noOfUsedVertices + 1) < 0
              rw [hinv.count, heq, wrapInt32]
              decide) h
          omega
      · rw [if_neg hcond] at h
        cases h

theorem remap_eq (newPos : List Nat) (f : Nat → Nat) (indices : List Nat)
    (h : ∀ v ∈ indices, newPos[v]? = some (f v)) :
    Mesh.removeUnusedVertices.remap newPos indices = some (indices.map f) := by
  induction indices with
  | nil => rfl
  | cons v rest ih =>
    have h1 := h v (List.mem_cons_self _ _)
    have h2 := ih (fun u hu => h u (List.mem_cons_of_mem _ hu))
    simp only [Mesh.removeUnusedVertices.remap, h1, h2, List.map_cons]

theorem resize_length {α : Type} [Inhabited α] (vec : List α) : resize vec vec.length = vec := by
  simp [resize]

theorem resize_take {α : Type} [Inhabited α] (vec : List α) (n : Nat) (h : n ≤ vec.length) :
    resize vec n = vec.take n := by
  simp [resize, Nat.sub_eq_zero_of_le h]

/-- The invariant holds before the first iteration. -/
theorem compactInv_init (indexBits : Nat) (flags : List Bool) (orig : List VoxelVertex) :
    CompactInv indexBits flags orig 0
      ⟨orig, ⟨INT_MAX, INT_MAX, INT_MAX⟩, ⟨INT_MIN, INT_MIN, INT_MIN⟩, 0,
        List.replicate orig.length 0⟩ := by
  refine ⟨rfl, by simp, rfl, by simp [usedBefore], by simp [usedBefore], by simp [usedBefore, keepUsed],
    ?_, by simp [keepUsed, lowerCorner], by simp [keepUsed, upperCorner]⟩
  intro j hj
  omega

/-- The result of the three loops, from the state the second loop ends with. -/
theorem removeUnusedVertices_of_inv (indexBits : Nat) (m : Mesh)
    (st : Mesh.removeUnusedVertices.State)
    (hvalid : ∀ v ∈ m.vecIndices, v < m.vecVertices.length)
    (htype : ∀ v ∈ m.vecIndices, v < 2 ^ indexBits)
    (hrun : Mesh.removeUnusedVertices.compact indexBits
      (usedFlags m.vecIndices m.vecVertices.length) m.vecVertices.length 0
      ⟨m.vecVertices, ⟨INT_MAX, INT_MAX, INT_MAX⟩, ⟨INT_MIN, INT_MIN, INT_MIN⟩, 0,
        List.replicate m.vecVertices.length 0⟩ = some st)
    (hinv : CompactInv indexBits (usedFlags m.vecIndices m.vecVertices.length) m.vecVertices
      m.vecVertices.length st) :
    Mesh.removeUnusedVertices indexBits m = some (compacted m) := by
  have hflen := usedFlags_length m.vecIndices m.vecVertices.length
  have hkept := hinv.kept
  rw [List.take_length] at hkept
  have hft : (usedFlags m.vecIndices m.vecVertices.length).take m.vecVertices.length =
      usedFlags m.vecIndices m.vecVertices.length := by
    rw [List.take_of_length_le (by omega)]
  rw [hft] at hkept
  have hmins := hinv.mins
  have hmaxs := hinv.maxs
  rw [List.take_length, hft] at hmins hmaxs
  have hremap : Mesh.removeUnusedVertices.remap st.newPos m.vecIndices =
      some (m.vecIndices.map (usedBefore (usedFlags m.vecIndices m.vecVertices.length))) := by
    apply remap_eq
    intro v hv
    have hvlt := hvalid v hv
    rw [hinv.pos v hvlt (by rw [usedFlags_getElem _ _ _ hvlt]; simp [hv])]
    have := usedBefore_le (usedFlags m.vecIndices m.vecVertices.length) v
    have := htype v hv
    rw [Nat.mod_eq_of_lt (by omega)]
  have hnonneg : ¬ st.noOfUsedVertices < 0 := by
    rw [hinv.count]
    have := Int.natCast_nonneg (usedBefore (usedFlags m.vecIndices m.vecVertices.length)
      m.vecVertices.length)
    omega
  have hle := usedBefore_le (usedFlags m.vecIndices m.vecVertices.length) m.vecVertices.length
  have hvec : resize st.vecVertices st.noOfUsedVertices.toNat =
      keepUsed m.vecVertices (usedFlags m.vecIndices m.vecVertices.length) := by
    rw [hinv.count, Int.toNat_ofNat, resize_take _ _ (by rw [hinv.len]; exact hle), hkept]
  have hidx : resize (m.vecIndices.map
      (usedBefore (usedFlags m.vecIndices m.vecVertices.length))) m.vecIndices.length =
      m.vecIndices.map (usedBefore (usedFlags m.vecIndices m.vecVertices.length)) := by
    have := resize_length (m.vecIndices.map
      (usedBefore (usedFlags m.vecIndices m.vecVertices.length)))
    rwa [List.length_map] at this
  simp only [Mesh.removeUnusedVertices, markUsed_eq m.vecIndices m.vecVertices.length hvalid,
    hrun, if_neg hnonneg, hremap, hvec, hidx, hmins, hmaxs, compacted]

/-- With valid indices and a number of referenced vertices that fits the counter,
`removeUnusedVertices` returns the mesh reduced to its referenced vertices. -/
theorem removeUnusedVertices_fits (indexBits : Nat) (m : Mesh)
    (hvalid : ∀ v ∈ m.vecIndices, v < m.vecVertices.length)
    (htype : ∀ v ∈ m.vecIndices, v < 2 ^ indexBits)
    (hfit : usedBefore (usedFlags m.vecIndices m.vecVertices.length) m.vecVertices.length ≤
      2147483647) :
    Mesh.removeUnusedVertices indexBits m = some (compacted m) := by
  obtain ⟨st, hrun, hinv⟩ := compact_total indexBits
    (usedFlags m.vecIndices m.vecVertices.length) m.vecVertices
    (usedFlags_length _ _) hfit m.vecVertices.length 0 _ (by omega)
    (compactInv_init indexBits _ m.vecVertices)
  exact removeUnusedVertices_of_inv indexBits m st hvalid htype hrun hinv

/-- With valid indices, a call of `removeUnusedVertices` that returns had a number of
referenced vertices that fits the counter. -/
theorem removeUnusedVertices_bound (indexBits : Nat) (m m1 : Mesh)
    (hvalid : ∀ v ∈ m.vecIndices, v < m.vecVertices.length)
    (h : Mesh.removeUnusedVertices indexBits m = some m1) :
    usedBefore (usedFlags m.vecIndices m.vecVertices.length) m.vecVertices.length ≤
      2147483647 := by
  simp only [Mesh.removeUnusedVertices,
    markUsed_eq m.vecIndices m.vecVertices.length hvalid] at h
  cases hrun : Mesh.removeUnusedVertices.compact indexBits
    (usedFlags m.vecIndices m.vecVertices.length) m.vecVertices.length 0
    ⟨m.vecVertices, ⟨INT_MAX, INT_MAX, INT_MAX⟩, ⟨INT_MIN, INT_MIN, INT_MIN⟩, 0,
      List.replicate m.vecVertices.length 0⟩ with
  | none =>
    rw [hrun] at h
    cases h
  | some st =>
    rw [hrun] at h
    by_cases hneg : st.noOfUsedVertices < 0
    · simp only [if_pos hneg] at h
      cases h
    · exact compact_fits indexBits _ m.vecVertices (usedFlags_length _ _)
        m.vecVertices.length 0 _ st (by omega) (compactInv_init indexBits _ m.vecVertices)
        hrun (by omega)

/-- With valid indices, every mesh `removeUnusedVertices` returns is the mesh reduced to
its referenced vertices. -/
theorem removeUnusedVertices_result (indexBits : Nat) (m m1 : Mesh)
    (hvalid : ∀ v ∈ m.vecIndices, v < m.vecVertices.length)
    (htype : ∀ v ∈ m.vecIndices, v < 2 ^ indexBits)
    (h : Mesh.removeUnusedVertices indexBits m = some m1) :
    m1 = compacted m := by
  have := removeUnusedVertices_fits indexBits m hvalid htype
    (removeUnusedVertices_bound indexBits m m1 hvalid h)
  rw [this] at h
  exact (Option.some.inj h).symm

/-- With valid indices and at most `INT_MAX` vertices `removeUnusedVertices` returns. -/
theorem removeUnusedVertices_total (indexBits : Nat) (m : Mesh)
    (hvalid : ∀ v ∈ m.vecIndices, v < m.vecVertices.length)
    (htype : ∀ v ∈ m.vecIndices, v < 2 ^ indexBits)
    (hint : m.vecVertices.length ≤ 2147483647) :
    ∃ m1, Mesh.removeUnusedVertices indexBits m = some m1 := by
  have := usedBefore_le (usedFlags m.vecIndices m.vecVertices.length) m.vecVertices.length
  exact ⟨_, removeUnusedVertices_fits indexBits m hvalid htype (by omega)⟩

theorem usedBefore_zero (flags : List Bool) : usedBefore flags 0 = 0 := by
  simp [usedBefore]

theorem usedBefore_cons (y : Bool) (fs : List Bool) (j : Nat) :
    usedBefore (y :: fs) (j + 1) = (if y = true then 1 else 0) + usedBefore fs j := by
  cases y <;> simp [usedBefore, List.count_cons, Nat.add_comm]

theorem usedBefore_length (flags : List Bool) :
    usedBefore flags flags.length = flags.count true := by
  simp [usedBefore]

/-- A referenced vertex stands, among the kept ones, at the number of referenced vertices
before it. -/
theorem keepUsed_getElem (vs : List VoxelVertex) (flags : List Bool) (j : Nat)
    (hlen : vs.length = flags.length) (hj : flags[j]? = some true) :
    (keepUsed vs flags)[usedBefore flags j]? = vs[j]? := by
  induction vs generalizing flags j with
  | nil =>
    cases flags with
    | nil => simp at hj
    | cons y fs => simp at hlen
  | cons v vs ih =>
    cases flags with
    | nil => simp at hlen
    | cons y fs =>
      have h1 : vs.length = fs.length := by simpa using hlen
      cases j with
      | zero =>
        have hy : y = true := by simpa using hj
        subst hy
        rw [usedBefore_zero]
        show (v :: keepUsed vs fs)[0]? = _
        simp
      | succ j =>
        have hj1 : fs[j]? = some true := by simpa using hj
        rw [usedBefore_cons]
        cases y with
        | true =>
          show (v :: keepUsed vs fs)[(if true = true then 1 else 0) + usedBefore fs j]? = _
          rw [if_pos rfl, Nat.add_comm, List.getElem?_cons_succ, List.getElem?_cons_succ]
          exact ih fs j h1 hj1
        | false =>
          show (keepUsed vs fs)[(if false = true then 1 else 0) + usedBefore fs j]? = _
          rw [if_neg (by decide), Nat.zero_add, List.getElem?_cons_succ]
          exact ih fs j h1 hj1

/-- Every position among the kept vertices is the new position of a referenced vertex. -/
theorem usedBefore_surj (flags : List Bool) (j : Nat) (hj : j < flags.count true) :
    ∃ p, flags[p]? = some true ∧ usedBefore flags p = j := by
  induction flags generalizing j with
  | nil => simp at hj
  | cons y fs ih =>
    cases y with
    | true =>
      cases j with
      | zero => exact ⟨0, by simp, usedBefore_zero _⟩
      | succ j =>
        obtain ⟨p, hp, hu⟩ := ih j (by simpa using hj)
        refine ⟨p + 1, by simpa using hp, ?_⟩
        rw [usedBefore_cons, if_pos rfl, hu, Nat.add_comm]
    | false =>
        obtain ⟨p, hp, hu⟩ := ih j (by simpa using hj)
        refine ⟨p + 1, by simpa using hp, ?_⟩
        rw [usedBefore_cons, if_neg (by decide), hu, Nat.zero_add]

/-- The new position of a referenced vertex is below the number of kept vertices. -/
theorem usedBefore_lt (flags : List Bool) (p : Nat) (hp : flags[p]? = some true) :
    usedBefore flags p < flags.count true := by
  have h1 := usedBefore_succ flags p true hp
  rw [if_pos rfl] at h1
  have hlt : p < flags.length := by
    rcases Nat.lt_or_ge p flags.length with h | h
    · exact h
    · rw [List.getElem?_eq_none h] at hp
      cases hp
  have h2 := usedBefore_mono flags (p + 1) flags.length (by omega)
  rw [usedBefore_length] at h2
  omega

theorem keepUsed_eq_filter (vs : List VoxelVertex) (p : Nat → Bool) (k : Nat) :
    keepUsed vs ((List.range' k vs.length).map p) =
      ((vs.enumFrom k).filter (fun q => p q.1)).map Prod.snd := by
  induction vs generalizing k with
  | nil => rfl
  | cons v vs ih =>
    rw [List.length_cons, List.range'_succ, List.map_cons, List.enumFrom_cons, List.filter_cons]
    cases hp : p k with
    | true =>
      show v :: keepUsed vs ((List.range' (k + 1) vs.length).map p) = _
      rw [ih (k + 1)]
      simp [hp]
    | false =>
      show keepUsed vs ((List.range' (k + 1) vs.length).map p) = _
      rw [ih (k + 1)]
      simp [hp]

/-- The kept vertices are the referenced vertices of the mesh. -/
theorem keepUsed_referenced (m : Mesh) :
    keepUsed m.vecVertices (usedFlags m.vecIndices m.vecVertices.length) =
      referencedVertices m := by
  rw [usedFlags, List.range_eq_range', keepUsed_eq_filter]
  rfl

theorem keepUsed_all (vs : List VoxelVertex) :
    keepUsed vs (List.replicate vs.length true) = vs := by
  induction vs with
  | nil => rfl
  | cons v vs ih =>
    show v :: keepUsed vs (List.replicate vs.length true) = _
    rw [ih]

theorem usedBefore_all (n j : Nat) (h : j ≤ n) : usedBefore (List.replicate n true) j = j := by
  simp [usedBefore, List.take_replicate, Nat.min_eq_left h]

theorem compacted_vertices_length (m : Mesh) :
    (compacted m).vecVertices.length =
      (usedFlags m.vecIndices m.vecVertices.length).count true := by
  show (keepUsed _ _).length = _
  rw [keepUsed_length _ _ (by rw [usedFlags_length])]

/-- In the reduced mesh every index is valid and every vertex is referenced. -/
theorem compacted_valid (m : Mesh) (hvalid : ∀ v ∈ m.vecIndices, v < m.vecVertices.length) :
    (∀ v ∈ (compacted m).vecIndices, v < (compacted m).vecVertices.length) ∧
    (∀ j, j < (compacted m).vecVertices.length → j ∈ (compacted m).vecIndices) := by
  rw [compacted_vertices_length]
  constructor
  · intro v hv
    obtain ⟨u, hu, rfl⟩ := List.mem_map.1 hv
    exact usedBefore_lt _ u (by rw [usedFlags_getElem _ _ _ (hvalid u hu)]; simp [hu])
  · intro j hj
    obtain ⟨p, hp, hu⟩ := usedBefore_surj _ j hj
    have hplt : p < m.vecVertices.length := by
      rcases Nat.lt_or_ge p m.vecVertices.length with h | h
      · exact h
      · rw [List.getElem?_eq_none (by rw [usedFlags_length]; exact h)] at hp
        cases hp
    rw [usedFlags_getElem _ _ _ hplt] at hp
    have hmem : p ∈ m.vecIndices := by simpa using hp
    exact List.mem_map.2 ⟨p, hmem, hu⟩

/-- Reducing a reduced mesh changes nothing. -/
theorem compacted_idem (m : Mesh) (hvalid : ∀ v ∈ m.vecIndices, v < m.vecVertices.length) :
    compacted (compacted m) = compacted m := by
  obtain ⟨h1, h2⟩ := compacted_valid m hvalid
  have hflags : usedFlags (compacted m).vecIndices (compacted m).vecVertices.length =
      List.replicate (compacted m).vecVertices.length true := by
    apply List.ext_getElem?
    intro j
    rw [List.getElem?_replicate]
    by_cases hj : j < (compacted m).vecVertices.length
    · rw [usedFlags_getElem _ _ _ hj, if_pos hj]
      simp [h2 j hj]
    · rw [if_neg hj, List.getElem?_eq_none (by rw [usedFlags_length]; omega)]
  have hidx : (compacted m).vecIndices.map
      (usedBefore (List.replicate (compacted m).vecVertices.length true)) =
      (compacted m).vecIndices := by
    conv_rhs => rw [← List.map_id (compacted m).vecIndices]
    apply List.map_congr_left
    intro v hv
    exact usedBefore_all _ v (Nat.le_of_lt (h1 v hv))
  conv_lhs => rw [compacted]
  rw [hflags, keepUsed_all, hidx]
  rfl

/-- The vertex an index position selects in the reduced mesh is the one it selected. -/
theorem compacted_selected (m : Mesh) (hvalid : ∀ v ∈ m.vecIndices, v < m.vecVertices.length)
    (i : Nat) : selectedVertex (compacted m) i = selectedVertex m i := by
  unfold selectedVertex
  show (match (m.vecIndices.map
      (usedBefore (usedFlags m.vecIndices m.vecVertices.length)))[i]? with
    | none => none
    | some v => (keepUsed m.vecVertices (usedFlags m.vecIndices m.vecVertices.length))[v]?) = _
  rw [List.getElem?_map]
  cases hi : m.vecIndices[i]? with
  | none => rfl
  | some v =>
    have hv : v ∈ m.vecIndices := List.getElem?_mem hi
    have hvlt := hvalid v hv
    show (keepUsed m.vecVertices (usedFlags m.vecIndices m.vecVertices.length))[
      usedBefore (usedFlags m.vecIndices m.vecVertices.length) v]? = m.vecVertices[v]?
    exact keepUsed_getElem _ _ v (by rw [usedFlags_length])
      (by rw [usedFlags_getElem _ _ _ hvlt]; simp [hv])

/-- C24.  `Mesh::removeUnusedVertices` preserves the geometry: for every mesh whose indices
are all smaller than its vertex count (the indices being values of the index type), every
call that returns leaves the number of indices unchanged, and at every index position the
vertex selected by the index after the call is the vertex selected by the index before the
call; the offset is kept.  The call returns whenever the vertex count fits the `int`
counter of the function. -/
theorem C24_geometry_preserved (indexBits : Nat) (m : Mesh)
    (hvalid : ∀ v ∈ m.vecIndices, v < m.vecVertices.length)
    (htype : ∀ v ∈ m.vecIndices, v < 2 ^ indexBits) :
    (∀ m1, Mesh.removeUnusedVertices indexBits m = some m1 →
      m1.vecIndices.length = m.vecIndices.length ∧
      (∀ i, selectedVertex m1 i = selectedVertex m i) ∧
      (∀ i, i < m.vecIndices.length →
        ∃ (before after : Nat) (vertex : VoxelVertex),
          m.vecIndices[i]? = some before ∧ m1.vecIndices[i]? = some after ∧
          m.vecVertices[before]? = some vertex ∧ m1.vecVertices[after]? = some vertex) ∧
      m1.offset = m.offset ∧ m1.mayGetResized = m.mayGetResized) ∧
    (m.vecVertices.length ≤ 2147483647 →
      ∃ m1, Mesh.removeUnusedVertices indexBits m = some m1) := by
  refine ⟨?_, removeUnusedVertices_total indexBits m hvalid htype⟩
  intro m1 hm1
  have hm := removeUnusedVertices_result indexBits m m1 hvalid htype hm1
  subst hm
  have hlen : (compacted m).vecIndices.length = m.vecIndices.length := by
    show (m.vecIndices.map _).length = _
    rw [List.length_map]
  refine ⟨hlen, compacted_selected m hvalid, ?_, rfl, rfl⟩
  intro i hi
  have hsel := compacted_selected m hvalid i
  have hvi : m.vecIndices[i] ∈ m.vecIndices := List.getElem_mem hi
  have hvlt := hvalid _ hvi
  have hafter : (compacted m).vecIndices[i]? = some (compacted m).vecIndices[i] :=
    List.getElem?_eq_getElem (by omega)
  refine ⟨m.vecIndices[i], (compacted m).vecIndices[i], m.vecVertices[m.vecIndices[i]],
    List.getElem?_eq_getElem hi, hafter, List.getElem?_eq_getElem hvlt, ?_⟩
  unfold selectedVertex at hsel
  rw [hafter, List.getElem?_eq_getElem hi] at hsel
  rw [← List.getElem?_eq_getElem hvlt]
  exact hsel

/-- C24 at a concrete input: of four vertices the triangle 3 1 3 references two; after the
call the three index positions select the same vertices as before. -/
theorem C24_geometry_preserved_witness :
    ∃ m1, Mesh.removeUnusedVertices 32
        (sampleMesh [sampleVertex 5 0 0, sampleVertex 1 1 1, sampleVertex 2 2 2,
          sampleVertex 3 3 3] [3, 1, 3]) = some m1 ∧
      m1.vecIndices = [1, 0, 1] ∧
      m1.vecIndices.length = 3 ∧
      selectedVertex m1 0 = some (sampleVertex 3 3 3) ∧
      selectedVertex m1 1 = some (sampleVertex 1 1 1) ∧
      selectedVertex m1 2 = some (sampleVertex 3 3 3) := by
  have h := C24_geometry_preserved 32
    (sampleMesh [sampleVertex 5 0 0, sampleVertex 1 1 1, sampleVertex 2 2 2,
      sampleVertex 3 3 3] [3, 1, 3]) (by decide) (by decide)
  obtain ⟨m1, hm1⟩ := h.2 (by decide)
  have hsel := (h.1 m1 hm1).2.1
  refine ⟨m1, hm1, ?_, (h.1 m1 hm1).1, ?_, ?_, ?_⟩
  · have : Mesh.removeUnusedVertices 32
        (sampleMesh [sampleVertex 5 0 0, sampleVertex 1 1 1, sampleVertex 2 2 2,
          sampleVertex 3 3 3] [3, 1, 3]) =
        some ⟨[1, 0, 1], [sampleVertex 1 1 1, sampleVertex 3 3 3], ⟨0, 0, 0⟩, ⟨1, 1, 1⟩,
          ⟨3, 3, 3⟩, true⟩ := by decide
    rw [this] at hm1
    rw [← Option.some.inj hm1]
  · rw [hsel 0]
    decide
  · rw [hsel 1]
    decide
  · rw [hsel 2]
    decide

/-- C25.  `Mesh::removeUnusedVertices` keeps exactly the used vertices: for every mesh whose
indices are all smaller than its vertex count (the indices being values of the index type),
after every call that returns the vertex list is the list of the old vertices that some
index referenced, in their original order; every remaining vertex is referenced by at least
one index, every index is valid, and a second call returns the same mesh.  The call returns
whenever the vertex count fits the `int` counter of the function. -/
theorem C25_keeps_used_vertices (indexBits : Nat) (m : Mesh)
    (hvalid : ∀ v ∈ m.vecIndices, v < m.vecVertices.length)
    (htype : ∀ v ∈ m.vecIndices, v < 2 ^ indexBits) :
    (∀ m1, Mesh.removeUnusedVertices indexBits m = some m1 →
      m1.vecVertices = referencedVertices m ∧
      List.Sublist m1.vecVertices m.vecVertices ∧
      (∀ (j : Nat) (vertex : VoxelVertex), m.vecVertices[j]? = some vertex →
        j ∈ m.vecIndices → vertex ∈ m1.vecVertices) ∧
      (∀ j, j < m1.vecVertices.length → j ∈ m1.vecIndices) ∧
      (∀ v ∈ m1.vecIndices, v < m1.vecVertices.length) ∧
      Mesh.removeUnusedVertices indexBits m1 = some m1) ∧
    (m.vecVertices.length ≤ 2147483647 →
      ∃ m1, Mesh.removeUnusedVertices indexBits m = some m1) := by
  refine ⟨?_, removeUnusedVertices_total indexBits m hvalid htype⟩
  intro m1 hm1
  have hfit := removeUnusedVertices_bound indexBits m m1 hvalid hm1
  have hm := removeUnusedVertices_result indexBits m m1 hvalid htype hm1
  subst hm
  obtain ⟨h1, h2⟩ := compacted_valid m hvalid
  have hvs : (compacted m).vecVertices = referencedVertices m := keepUsed_referenced m
  refine ⟨hvs, ?_, ?_, h2, h1, ?_⟩
  · rw [hvs, referencedVertices]
    have h := (List.filter_sublist (m.vecVertices.enum)
      (p := fun p => decide (p.1 ∈ m.vecIndices))).map Prod.snd
    rwa [List.enum_map_snd] at h
  · intro j vertex hj hmem
    have hjlt : j < m.vecVertices.length := by
      rcases Nat.lt_or_ge j m.vecVertices.length with h | h
      · exact h
      · rw [List.getElem?_eq_none h] at hj
        cases hj
    have := keepUsed_getElem m.vecVertices (usedFlags m.vecIndices m.vecVertices.length) j
      (by rw [usedFlags_length]) (by rw [usedFlags_getElem _ _ _ hjlt]; simp [hmem])
    rw [hj] at this
    exact List.getElem?_mem this
  · have htype1 : ∀ v ∈ (compacted m).vecIndices, v < 2 ^ indexBits := by
      intro v hv
      obtain ⟨u, hu, rfl⟩ := List.mem_map.1 hv
      have := usedBefore_le (usedFlags m.vecIndices m.vecVertices.length) u
      have := htype u hu
      omega
    have hfit1 : usedBefore
        (usedFlags (compacted m).vecIndices (compacted m).vecVertices.length)
        (compacted m).vecVertices.length ≤ 2147483647 := by
      have ha := usedBefore_le
        (usedFlags (compacted m).vecIndices (compacted m).vecVertices.length)
        (compacted m).vecVertices.length
      have hb := compacted_vertices_length m
      rw [← usedBefore_length, usedFlags_length] at hb
      omega
    rw [removeUnusedVertices_fits indexBits (compacted m) h1 htype1 hfit1,
      compacted_idem m hvalid]

/-- C25 at a concrete input: of four vertices the triangle 3 1 3 references the second and
the fourth; these two remain, in this order, and a second call returns the same mesh. -/
theorem C25_keeps_used_vertices_witness :
    ∃ m1, Mesh.removeUnusedVertices 32
        (sampleMesh [sampleVertex 5 0 0, sampleVertex 1 1 1, sampleVertex 2 2 2,
          sampleVertex 3 3 3] [3, 1, 3]) = some m1 ∧
      m1.vecVertices = [sampleVertex 1 1 1, sampleVertex 3 3 3] ∧
      Mesh.removeUnusedVertices 32 m1 = some m1 := by
  have h := C25_keeps_used_vertices 32
    (sampleMesh [sampleVertex 5 0 0, sampleVertex 1 1 1, sampleVertex 2 2 2,
      sampleVertex 3 3 3] [3, 1, 3]) (by decide) (by decide)
  obtain ⟨m1, hm1⟩ := h.2 (by decide)
  refine ⟨m1, hm1, ?_, (h.1 m1 hm1).2.2.2.2.2⟩
  rw [(h.1 m1 hm1).1]
  decide

/-! ## Index validity of `Mesh` -/

/-- When its assertion passes, `addVertex` returns the position of the stored vertex. -/
theorem addVertex_returns (capacity indexBits : Nat) (m : Mesh) (vertex : VoxelVertex)
    (h : Mesh.addVertex.asserts capacity indexBits m = true) :
    (Mesh.addVertex indexBits m vertex).1 = m.vecVertices.length ∧
    (Mesh.addVertex indexBits m vertex).2.vecVertices = m.vecVertices ++ [vertex] ∧
    (Mesh.addVertex indexBits m vertex).2.vecIndices = m.vecIndices := by
  refine ⟨?_, rfl, rfl⟩
  simp only [Mesh.addVertex.asserts, Bool.and_eq_true, decide_eq_true_eq] at h
  have hlt := h.1
  have hpos : 1 ≤ 2 ^ indexBits := Nat.one_le_two_pow
  show ((m.vecVertices ++ [vertex]).length % 2 ^ indexBits + 2 ^ indexBits - 1) %
    2 ^ indexBits = m.vecVertices.length
  rw [List.length_append, List.length_singleton,
    Nat.mod_eq_of_lt (by omega : m.vecVertices.length + 1 < 2 ^ indexBits)]
  have : m.vecVertices.length + 1 + 2 ^ indexBits - 1 = m.vecVertices.length + 2 ^ indexBits := by
    omega
  rw [this, Nat.add_mod_right, Nat.mod_eq_of_lt (by omega)]

/-- Every call that returns keeps the index validity of the mesh. -/
theorem call_inv (indexBits : Nat) (m m1 : Mesh) (c : Mesh.Call) (hinv : MeshInv indexBits m)
    (h : Mesh.call indexBits m c = some m1) : MeshInv indexBits m1 := by
  cases c with
  | addVertex capacity vertex =>
    simp only [Mesh.call] at h
    by_cases ha : Mesh.addVertex.asserts capacity indexBits m = true
    · rw [if_pos ha] at h
      have hm := Option.some.inj h
      subst hm
      obtain ⟨-, hv, hi⟩ := addVertex_returns capacity indexBits m vertex ha
      simp only [Mesh.addVertex.asserts, Bool.and_eq_true, decide_eq_true_eq] at ha
      refine ⟨?_, ?_, ?_⟩
      · intro v hvm
        rw [hi] at hvm
        rw [hv, List.length_append]
        have := hinv.valid v hvm
        omega
      · rw [hi]
        exact hinv.triangles
      · rw [hv, List.length_append, List.length_singleton]
        omega
    · rw [if_neg ha] at h
      cases h
  | addTriangle capacity index0 index1 index2 =>
    simp only [Mesh.call] at h
    by_cases ha : Mesh.addTriangle.asserts capacity m index0 index1 index2 = true
    · rw [if_pos ha] at h
      have hm := Option.some.inj h
      subst hm
      simp only [Mesh.addTriangle.asserts, Mesh.addTriangle.indexAsserts, Bool.and_eq_true,
        decide_eq_true_eq] at ha
      refine ⟨?_, ?_, hinv.fits⟩
      · intro v hvm
        show v < m.vecVertices.length
        have hvm1 : v ∈ ((m.vecIndices ++ [index0]) ++ [index1]) ++ [index2] := hvm
        simp only [List.mem_append, List.mem_singleton] at hvm1
        rcases hvm1 with ((hv | hv) | hv) | hv
        · exact hinv.valid v hv
        · rw [hv]
          exact ha.1.1.1
        · rw [hv]
          exact ha.1.1.2
        · rw [hv]
          exact ha.1.2
      · show (((m.vecIndices ++ [index0]) ++ [index1]) ++ [index2]).length % 3 = 0
        have := hinv.triangles
        simp only [List.length_append, List.length_singleton]
        omega
    · rw [if_neg ha] at h
      cases h
  | removeUnusedVertices =>
    simp only [Mesh.call] at h
    have hpos : 1 ≤ 2 ^ indexBits := Nat.one_le_two_pow
    have hfits := hinv.fits
    have htype : ∀ v ∈ m.vecIndices, v < 2 ^ indexBits := by
      intro v hv
      have := hinv.valid v hv
      omega
    have hm := removeUnusedVertices_result indexBits m m1 hinv.valid htype h
    subst hm
    refine ⟨(compacted_valid m hinv.valid).1, ?_, ?_⟩
    · show (m.vecIndices.map _).length % 3 = 0
      rw [List.length_map]
      exact hinv.triangles
    · rw [compacted_vertices_length, ← usedBefore_length, usedFlags_length]
      have := usedBefore_le (usedFlags m.vecIndices m.vecVertices.length) m.vecVertices.length
      omega
  | clear =>
    simp only [Mesh.call] at h
    have hm := Option.some.inj h
    subst hm
    refine ⟨?_, ?_, ?_⟩
    · intro v hv
      simp [Mesh.clear] at hv
    · simp [Mesh.clear]
    · simp [Mesh.clear]

/-- Every sequence of calls that returns keeps the index validity of the mesh. -/
theorem calls_inv (indexBits : Nat) (cs : List Mesh.Call) :
    ∀ (m m1 : Mesh), MeshInv indexBits m → Mesh.calls indexBits m cs = some m1 →
      MeshInv indexBits m1 := by
  induction cs with
  | nil =>
    intro m m1 hinv h
    simp only [Mesh.calls, Option.some.injEq] at h
    rw [← h]
    exact hinv
  | cons c rest ih =>
    intro m m1 hinv h
    simp only [Mesh.calls] at h
    cases hc : Mesh.call indexBits m c with
    | none =>
      rw [hc] at h
      cases h
    | some m2 =>
      rw [hc] at h
      exact ih m2 m1 (call_inv indexBits m m2 c hinv hc) h

/-- Calls that append keep every stored vertex at its position. -/
theorem calls_appends (indexBits : Nat) (cs : List Mesh.Call) :
    ∀ (m m1 : Mesh), (∀ c ∈ cs, c.appends = true) → Mesh.calls indexBits m cs = some m1 →
      ∀ (r : Nat) (vertex : VoxelVertex), m.vecVertices[r]? = some vertex →
        m1.vecVertices[r]? = some vertex := by
  induction cs with
  | nil =>
    intro m m1 _ h r vertex hr
    simp only [Mesh.calls, Option.some.injEq] at h
    rw [← h]
    exact hr
  | cons c rest ih =>
    intro m m1 happ h r vertex hr
    simp only [Mesh.calls] at h
    cases hc : Mesh.call indexBits m c with
    | none =>
      rw [hc] at h
      cases h
    | some m2 =>
      rw [hc] at h
      refine ih m2 m1 (fun c1 hc1 => happ c1 (List.mem_cons_of_mem _ hc1)) h r vertex ?_
      have hrlt : r < m.vecVertices.length := by
        rcases Nat.lt_or_ge r m.vecVertices.length with h1 | h1
        · exact h1
        · rw [List.getElem?_eq_none h1] at hr
          cases hr
      cases c with
      | addVertex capacity v =>
        simp only [Mesh.call] at hc
        by_cases ha : Mesh.addVertex.asserts capacity indexBits m = true
        · rw [if_pos ha] at hc
          rw [← Option.some.inj hc]
          show (m.vecVertices ++ [v])[r]? = some vertex
          rw [List.getElem?_append_left hrlt]
          exact hr
        · rw [if_neg ha] at hc
          cases hc
      | addTriangle capacity index0 index1 index2 =>
        simp only [Mesh.call] at hc
        by_cases ha : Mesh.addTriangle.asserts capacity m index0 index1 index2 = true
        · rw [if_pos ha] at hc
          rw [← Option.some.inj hc]
          exact hr
        · rw [if_neg ha] at hc
          cases hc
      | removeUnusedVertices =>
        have := happ Mesh.Call.removeUnusedVertices (List.mem_cons_self _ _)
        cases this
      | clear =>
        have := happ Mesh.Call.clear (List.mem_cons_self _ _)
        cases this

/-- C26 (as stated, refuted).  Triangles built from returned values do not always pass the
assertions.  From an empty mesh `addVertex` returns 0; after `clear` the triangle 0 0 0
fails the first assertion of `addTriangle`.  Three vertices are stored at 0, 1 and 2 and no
index references them: `removeUnusedVertices` removes them and the triangle 0 1 2 fails the
assertions.  Four vertices are stored at 0..3 and the triangle 1 2 3 is added:
`removeUnusedVertices` renumbers the three referenced vertices to 0..2 and a second triangle
1 2 3 fails the assertion on the returned value 3. -/
theorem C26_counterexample :
    (Mesh.addVertex 32 (emptyMesh true) (sampleVertex 0 0 0)).1 = 0 ∧
    Mesh.addVertex.asserts 8 32 (emptyMesh true) = true ∧
    Mesh.calls 32 (emptyMesh true) [.addVertex 8 (sampleVertex 0 0 0), .clear] =
      some (emptyMesh true) ∧
    Mesh.addTriangle.asserts 8 (emptyMesh true) 0 0 0 = false ∧
    Mesh.calls 32 (emptyMesh true)
      [.addVertex 8 (sampleVertex 0 0 0), .clear, .addTriangle 8 0 0 0] = none ∧
    Mesh.calls 32 (emptyMesh true)
      [.addVertex 8 (sampleVertex 0 0 0), .addVertex 8 (sampleVertex 1 0 0),
        .addVertex 8 (sampleVertex 0 1 0), .removeUnusedVertices] =
      some ⟨[], [], ⟨0, 0, 0⟩, ⟨INT_MAX, INT_MAX, INT_MAX⟩, ⟨INT_MIN, INT_MIN, INT_MIN⟩,
        true⟩ ∧
    Mesh.calls 32 (emptyMesh true)
      [.addVertex 8 (sampleVertex 0 0 0), .addVertex 8 (sampleVertex 1 0 0),
        .addVertex 8 (sampleVertex 0 1 0), .removeUnusedVertices,
        .addTriangle 8 0 1 2] = none ∧
    Mesh.calls 32 (emptyMesh true)
      [.addVertex 8 (sampleVertex 0 0 0), .addVertex 8 (sampleVertex 1 0 0),
        .addVertex 8 (sampleVertex 0 1 0), .addVertex 8 (sampleVertex 0 0 1),
        .addTriangle 8 1 2 3, .removeUnusedVertices] =
      some ⟨[0, 1, 2], [sampleVertex 1 0 0, sampleVertex 0 1 0, sampleVertex 0 0 1],
        ⟨0, 0, 0⟩, ⟨0, 0, 0⟩, ⟨1, 1, 1⟩, true⟩ ∧
    Mesh.calls 32 (emptyMesh true)
      [.addVertex 8 (sampleVertex 0 0 0), .addVertex 8 (sampleVertex 1 0 0),
        .addVertex 8 (sampleVertex 0 1 0), .addVertex 8 (sampleVertex 0 0 1),
        .addTriangle 8 1 2 3, .removeUnusedVertices, .addTriangle 8 1 2 3] = none := by
  refine ⟨by decide, by decide, by decide, by decide, by decide, by decide, by decide,
    by decide, by decide⟩

/-- C26 (amended).  Starting from a mesh without vertices and indices, every sequence of
`addVertex`, `addTriangle`, `removeUnusedVertices` and `clear` calls that pass their
assertions keeps every stored index smaller than the vertex count and the index count a
multiple of 3.  In every such state `addVertex`, when its assertions pass, returns the
position at which it stored the vertex, and the vertex stays at that position through every
following sequence of `addVertex` and `addTriangle` calls; a triangle of three positions
that are valid in the state passes the three index assertions of `addTriangle` after every
such sequence, and all of its assertions when the mesh may get resized.  In every such state
`clear` returns, and `removeUnusedVertices` returns when the vertex count fits its `int`
counter. -/
theorem C26_index_validity (indexBits : Nat) (m0 : Mesh) (h0v : m0.vecVertices = [])
    (h0i : m0.vecIndices = []) (cs : List Mesh.Call) (m : Mesh)
    (hm : Mesh.calls indexBits m0 cs = some m) :
    (∀ v ∈ m.vecIndices, v < m.vecVertices.length) ∧
    m.vecIndices.length % 3 = 0 ∧
    (∀ (capacity : Nat) (vertex : VoxelVertex),
      Mesh.addVertex.asserts capacity indexBits m = true →
      (Mesh.addVertex indexBits m vertex).1 = m.vecVertices.length ∧
      (Mesh.addVertex indexBits m vertex).2.vecVertices[
        (Mesh.addVertex indexBits m vertex).1]? = some vertex ∧
      ∀ (cs2 : List Mesh.Call) (m2 : Mesh), (∀ c ∈ cs2, c.appends = true) →
        Mesh.calls indexBits (Mesh.addVertex indexBits m vertex).2 cs2 = some m2 →
        (Mesh.addVertex indexBits m vertex).1 < m2.vecVertices.length ∧
        m2.vecVertices[(Mesh.addVertex indexBits m vertex).1]? = some vertex) ∧
    (∀ (cs2 : List Mesh.Call) (m2 : Mesh) (r0 r1 r2 : Nat), (∀ c ∈ cs2, c.appends = true) →
      Mesh.calls indexBits m cs2 = some m2 →
      r0 < m.vecVertices.length → r1 < m.vecVertices.length → r2 < m.vecVertices.length →
      Mesh.addTriangle.indexAsserts m2 r0 r1 r2 = true ∧
      (m2.mayGetResized = true → ∀ capacity,
        Mesh.call indexBits m2 (.addTriangle capacity r0 r1 r2) =
          some (Mesh.addTriangle m2 r0 r1 r2))) ∧
    Mesh.call indexBits m .clear = some m.clear ∧
    (m.vecVertices.length ≤ 2147483647 →
      ∃ m1, Mesh.call indexBits m .removeUnusedVertices = some m1) := by
  have hinv0 : MeshInv indexBits m0 := by
    refine ⟨?_, ?_, ?_⟩
    · intro v hv
      rw [h0i] at hv
      cases hv
    · rw [h0i]
      rfl
    · rw [h0v]
      exact Nat.zero_le _
  have hinv := calls_inv indexBits cs m0 m hinv0 hm
  have hlt : ∀ (l : List VoxelVertex) (r : Nat) (vertex : VoxelVertex),
      l[r]? = some vertex → r < l.length := by
    intro l r vertex h
    rcases Nat.lt_or_ge r l.length with h1 | h1
    · exact h1
    · rw [List.getElem?_eq_none h1] at h
      cases h
  refine ⟨hinv.valid, hinv.triangles, ?_, ?_, rfl, ?_⟩
  · intro capacity vertex ha
    obtain ⟨hr, hv, -⟩ := addVertex_returns capacity indexBits m vertex ha
    have hstored : (Mesh.addVertex indexBits m vertex).2.vecVertices[
        (Mesh.addVertex indexBits m vertex).1]? = some vertex := by
      rw [hr, hv, List.getElem?_append_right (Nat.le_refl _)]
      simp
    refine ⟨hr, hstored, ?_⟩
    intro cs2 m2 happ hm2
    have := calls_appends indexBits cs2 _ m2 happ hm2 _ vertex hstored
    exact ⟨hlt _ _ _ this, this⟩
  · intro cs2 m2 r0 r1 r2 happ hm2 h0 h1 h2
    have key : ∀ r, r < m.vecVertices.length → r < m2.vecVertices.length := by
      intro r hr
      exact hlt _ _ _ (calls_appends indexBits cs2 m m2 happ hm2 r _
        (List.getElem?_eq_getElem hr))
    have hidx : Mesh.addTriangle.indexAsserts m2 r0 r1 r2 = true := by
      simp only [Mesh.addTriangle.indexAsserts, Bool.and_eq_true, decide_eq_true_eq]
      exact ⟨⟨key r0 h0, key r1 h1⟩, key r2 h2⟩
    refine ⟨hidx, ?_⟩
    intro hres capacity
    have : Mesh.addTriangle.asserts capacity m2 r0 r1 r2 = true := by
      simp only [Mesh.addTriangle.asserts, hidx, hres, Bool.true_or, Bool.and_self]
    simp only [Mesh.call, if_pos this]
  · intro hint
    have hpos : 1 ≤ 2 ^ indexBits := Nat.one_le_two_pow
    have hfits := hinv.fits
    exact removeUnusedVertices_total indexBits m hinv.valid
      (by
        intro v hv
        have := hinv.valid v hv
        omega) hint

/-- C26 (amended) at a concrete input: four vertices, the triangle 1 2 3,
`removeUnusedVertices` and one more vertex; the triangle 0 1 2 of positions valid in that
state passes the assertions after one more `addVertex` call. -/
theorem C26_index_validity_witness :
    Mesh.calls 32 (emptyMesh true)
      [.addVertex 8 (sampleVertex 0 0 0), .addVertex 8 (sampleVertex 1 0 0),
        .addVertex 8 (sampleVertex 0 1 0), .addVertex 8 (sampleVertex 0 0 1),
        .addTriangle 8 1 2 3, .removeUnusedVertices, .addVertex 8 (sampleVertex 5 5 5)] =
      some ⟨[0, 1, 2], [sampleVertex 1 0 0, sampleVertex 0 1 0, sampleVertex 0 0 1,
        sampleVertex 5 5 5], ⟨0, 0, 0⟩, ⟨0, 0, 0⟩, ⟨1, 1, 1⟩, true⟩ ∧
    Mesh.addTriangle.indexAsserts
      ⟨[0, 1, 2], [sampleVertex 1 0 0, sampleVertex 0 1 0, sampleVertex 0 0 1,
        sampleVertex 5 5 5, sampleVertex 6 6 6], ⟨0, 0, 0⟩, ⟨0, 0, 0⟩, ⟨1, 1, 1⟩, true⟩
      0 1 2 = true :=
  ⟨by decide,
    ((C26_index_validity 32 (emptyMesh true) rfl rfl
      [.addVertex 8 (sampleVertex 0 0 0), .addVertex 8 (sampleVertex 1 0 0),
        .addVertex 8 (sampleVertex 0 1 0), .addVertex 8 (sampleVertex 0 0 1),
        .addTriangle 8 1 2 3, .removeUnusedVertices, .addVertex 8 (sampleVertex 5 5 5)]
      ⟨[0, 1, 2], [sampleVertex 1 0 0, sampleVertex 0 1 0, sampleVertex 0 0 1,
        sampleVertex 5 5 5], ⟨0, 0, 0⟩, ⟨0, 0, 0⟩, ⟨1, 1, 1⟩, true⟩ (by decide)).2.2.2.1
      [.addVertex 8 (sampleVertex 6 6 6)]
      ⟨[0, 1, 2], [sampleVertex 1 0 0, sampleVertex 0 1 0, sampleVertex 0 0 1,
        sampleVertex 5 5 5, sampleVertex 6 6 6], ⟨0, 0, 0⟩, ⟨0, 0, 0⟩, ⟨1, 1, 1⟩, true⟩
      0 1 2 (by decide) (by decide) (by decide) (by decide) (by decide)).1⟩

/-! ## `VXMFormat::loadGroups` -/

/-- The header is read when the four bytes are accepted, and refused with `return false`
otherwise. -/
theorem readHeader_spec {S F : Type} (env : VXMFormat.Env S F) (stream : S) :
    (VXMFormat.magic env stream = none →
      VXMFormat.readHeader env stream = .error .returnFalse) ∧
    (∀ magic, VXMFormat.magic env stream = some magic →
      VXMFormat.acceptedMagic magic = false →
      VXMFormat.readHeader env stream = .error .returnFalse) ∧
    (∀ magic, VXMFormat.magic env stream = some magic →
      VXMFormat.acceptedMagic magic = true →
      ∃ s, VXMFormat.readHeader env stream = .ok (VXMFormat.versionOf magic.2.2.2, s) ∧
        4 ≤ VXMFormat.versionOf magic.2.2.2 ∧ VXMFormat.versionOf magic.2.2.2 ≤ 12) := by
  cases h0 : env.readByte stream with
  | none => simp [VXMFormat.readHeader, VXMFormat.magic, h0]
  | some r0 =>
    obtain ⟨m0, s0⟩ := r0
    cases h1 : env.readByte s0 with
    | none => simp [VXMFormat.readHeader, VXMFormat.magic, h0, h1]
    | some r1 =>
      obtain ⟨m1, s1⟩ := r1
      cases h2 : env.readByte s1 with
      | none => simp [VXMFormat.readHeader, VXMFormat.magic, h0, h1, h2]
      | some r2 =>
        obtain ⟨m2, s2⟩ := r2
        cases h3 : env.readByte s2 with
        | none => simp [VXMFormat.readHeader, VXMFormat.magic, h0, h1, h2, h3]
        | some r3 =>
          obtain ⟨m3, s3⟩ := r3
          have hmagic : VXMFormat.magic env stream = some (m0, m1, m2, m3) := by
            simp only [VXMFormat.magic, h0, h1, h2, h3]
          have hread : VXMFormat.readHeader env stream =
              (if m0 ≠ 86 ∨ m1 ≠ 88 ∨ m2 ≠ 77 then .error .returnFalse
              else if 48 ≤ m3 ∧ m3 ≤ 57 then
                if (m3 : Int) - 48 < 4 ∨ (m3 : Int) - 48 > 12 then .error .returnFalse
                else .ok ((m3 : Int) - 48, s3)
              else if 65 ≤ m3 ∧ m3 ≤ 67 then
                if 10 + (m3 : Int) - 65 < 4 ∨ 10 + (m3 : Int) - 65 > 12 then
                  .error .returnFalse
                else .ok (10 + (m3 : Int) - 65, s3)
              else .error .returnFalse) := by
            simp only [VXMFormat.readHeader, h0, h1, h2, h3]
          rw [hmagic, hread]
          refine ⟨(fun h => by cases h), ?_, ?_⟩
          · intro magic hm hacc
            rw [← Option.some.inj hm] at hacc
            simp only [VXMFormat.acceptedMagic, Bool.and_eq_false_iff, Bool.or_eq_false_iff,
              beq_eq_false_iff_ne, decide_eq_false_iff_not, ne_eq] at hacc
            by_cases hbad : m0 ≠ 86 ∨ m1 ≠ 88 ∨ m2 ≠ 77
            · rw [if_pos hbad]
            · rw [if_neg hbad]
              split_ifs <;> first | rfl | (exfalso; omega)
          · intro magic hm hacc
            rw [← Option.some.inj hm] at hacc ⊢
            simp only [VXMFormat.acceptedMagic, Bool.and_eq_true, Bool.or_eq_true,
              beq_iff_eq, decide_eq_true_eq] at hacc
            show ∃ s, _ = Except.ok (VXMFormat.versionOf m3, s) ∧
              4 ≤ VXMFormat.versionOf m3 ∧ VXMFormat.versionOf m3 ≤ 12
            have hbad : ¬ (m0 ≠ 86 ∨ m1 ≠ 88 ∨ m2 ≠ 77) := by omega
            rw [if_neg hbad]
            refine ⟨s3, ?_, ?_, ?_⟩
            · unfold VXMFormat.versionOf
              split_ifs <;> first | rfl | (exfalso; omega) | (congr 2; omega)
            · unfold VXMFormat.versionOf
              split_ifs <;> omega
            · unfold VXMFormat.versionOf
              split_ifs <;> omega

/-- One pass of the loop over the layers pushes exactly one volume when it ends. -/
theorem readLayers_one {S F : Type} (env : VXMFormat.Env S F) (fuel : Nat) (size : UVec3)
    (materialAmount : Nat) (palette : List Nat) (maxs ipivot : IVec3) (stream s3 : S)
    (volumes pushed : List VoxelVolume)
    (h : VXMFormat.readLayers env fuel size materialAmount palette maxs ipivot 1 0 stream
      volumes = (pushed, .ok s3)) :
    ∃ volume, pushed = volumes ++ [⟨volume, 0, true, ipivot⟩] := by
  simp only [VXMFormat.readLayers] at h
  cases hr : VXMFormat.readRuns env size materialAmount palette fuel 0 ⟨⟨0, 0, 0⟩, maxs, []⟩
      stream with
  | error e =>
    rw [hr] at h
    simp only [Prod.mk.injEq, reduceCtorEq, and_false] at h
  | ok r =>
    obtain ⟨volume, s⟩ := r
    rw [hr] at h
    simp only [Prod.mk.injEq] at h
    exact ⟨volume, h.1.symm⟩

/-- C29.  `VXMFormat::loadGroups` header check: the call returns false, and leaves the
volumes as they are, for a missing file, for a stream that ends within the first four bytes,
and whenever the first four bytes are not 'V', 'X', 'M' followed by one of '4'..'9'
(versions 4..9) or 'A'..'C' (versions 10..12).  A call that returns true has read such four
bytes and has appended exactly one volume to the volumes.  A file of version 4 loads, the
same file with the fourth byte '3', 'D' or 'a' or the first byte 'v' does not. -/
theorem C29_header_check {S F : Type} (env : VXMFormat.Env S F) (fuel : Nat) (file : Option S)
    (volumes : List VoxelVolume) :
    (file = none → VXMFormat.loadGroups env fuel file volumes = some (false, volumes)) ∧
    (∀ stream, file = some stream → VXMFormat.magic env stream = none →
      VXMFormat.loadGroups env fuel file volumes = some (false, volumes)) ∧
    (∀ stream magic, file = some stream → VXMFormat.magic env stream = some magic →
      VXMFormat.acceptedMagic magic = false →
      VXMFormat.loadGroups env fuel file volumes = some (false, volumes)) ∧
    (∀ loaded, VXMFormat.loadGroups env fuel file volumes = some (true, loaded) →
      (∃ stream magic3, file = some stream ∧
        VXMFormat.magic env stream = some (86, 88, 77, magic3) ∧
        ((52 ≤ magic3 ∧ magic3 ≤ 57 ∧ VXMFormat.versionOf magic3 = (magic3 : Int) - 52 + 4) ∨
          (65 ≤ magic3 ∧ magic3 ≤ 67 ∧
            VXMFormat.versionOf magic3 = (magic3 : Int) - 65 + 10))) ∧
      ∃ volume, loaded = volumes ++ [volume]) ∧
    VXMFormat.loadGroups (byteStream 256) 4 (some sampleFile) [] =
      some (true, [⟨⟨⟨0, 0, 0⟩, ⟨1, 0, 1⟩,
        [(⟨1, 0, 0⟩, ⟨VoxelType.Generic, 30⟩), (⟨1, 0, 1⟩, ⟨VoxelType.Generic, 30⟩)]⟩,
        0, true, ⟨0, 0, 0⟩⟩]) ∧
    VXMFormat.loadGroups (byteStream 256) 4 (some (sampleFile.set 3 51)) [] =
      some (false, []) ∧
    VXMFormat.loadGroups (byteStream 256) 4 (some (sampleFile.set 3 68)) [] =
      some (false, []) ∧
    VXMFormat.loadGroups (byteStream 256) 4 (some (sampleFile.set 3 97)) [] =
      some (false, []) ∧
    VXMFormat.loadGroups (byteStream 256) 4 (some (sampleFile.set 0 118)) [] =
      some (false, []) := by
  refine ⟨?_, ?_, ?_, ?_, by decide, by decide, by decide, by decide, by decide⟩
  · intro hf
    subst hf
    rfl
  · intro stream hf hm
    subst hf
    simp only [VXMFormat.loadGroups, (readHeader_spec env stream).1 hm]
  · intro stream magic hf hm hacc
    subst hf
    simp only [VXMFormat.loadGroups, (readHeader_spec env stream).2.1 magic hm hacc]
  · intro loaded h
    cases file with
    | none =>
      simp only [VXMFormat.loadGroups, Option.some.injEq, Prod.mk.injEq, Bool.false_eq_true,
        false_and] at h
    | some stream =>
      cases hm : VXMFormat.magic env stream with
      | none =>
        simp only [VXMFormat.loadGroups, (readHeader_spec env stream).1 hm, Option.some.injEq,
          Prod.mk.injEq, Bool.false_eq_true, false_and] at h
      | some magic =>
        cases hacc : VXMFormat.acceptedMagic magic with
        | false =>
          simp only [VXMFormat.loadGroups, (readHeader_spec env stream).2.1 magic hm hacc,
            Option.some.injEq, Prod.mk.injEq, Bool.false_eq_true, false_and] at h
        | true =>
          obtain ⟨s, hread, hv4, hv12⟩ := (readHeader_spec env stream).2.2 magic hm hacc
          obtain ⟨m0, m1, m2, m3⟩ := magic
          have hacc1 := hacc
          simp only [VXMFormat.acceptedMagic, Bool.and_eq_true, Bool.or_eq_true,
            beq_iff_eq, decide_eq_true_eq] at hacc1
          have hver : (52 ≤ m3 ∧ m3 ≤ 57 ∧ VXMFormat.versionOf m3 = (m3 : Int) - 52 + 4) ∨
              (65 ≤ m3 ∧ m3 ≤ 67 ∧ VXMFormat.versionOf m3 = (m3 : Int) - 65 + 10) := by
            unfold VXMFormat.versionOf
            split_ifs <;> omega
          have hmagic : (m0, m1, m2, m3) = (86, 88, 77, m3) := by
            have e0 : m0 = 86 := by omega
            have e1 : m1 = 88 := by omega
            have e2 : m2 = 77 := by omega
            rw [e0, e1, e2]
          refine ⟨⟨stream, m3, rfl, by rw [hm, hmagic], hver⟩, ?_⟩
          have hnot : ¬ VXMFormat.versionOf m3 > 12 := by
            have : VXMFormat.versionOf m3 ≤ 12 := hv12
            omega
          simp only [VXMFormat.loadGroups, hread] at h
          cases hpre : VXMFormat.readPreamble env fuel (VXMFormat.versionOf m3) s with
          | error e =>
            rw [hpre] at h
            cases e <;> simp at h
          | ok r =>
            obtain ⟨pre, s1⟩ := r
            rw [hpre] at h
            simp only [if_neg hnot] at h
            cases hlay : VXMFormat.readLayers env fuel pre.size pre.materialAmount pre.palette
                (VXMFormat.regionMaxs pre.size)
                (if pre.foundPivot = true then pre.ipivot
                  else env.getCenter ⟨0, 0, 0⟩ (VXMFormat.regionMaxs pre.size))
                1 0 s1 volumes with
            | mk pushed r =>
              rw [hlay] at h
              cases r with
              | error e => cases e <;> simp at h
              | ok s3 =>
                obtain ⟨volume, hv⟩ := readLayers_one env fuel _ _ _ _ _ s1 s3 volumes pushed
                  hlay
                simp only at h
                cases ht : VXMFormat.readTrailer env (VXMFormat.versionOf m3) s3 with
                | error e =>
                  rw [ht] at h
                  cases e <;> simp at h
                | ok s4 =>
                  rw [ht] at h
                  simp only [Option.some.injEq, Prod.mk.injEq, true_and] at h
                  exact ⟨_, by rw [← h, hv]⟩

/-! ## Voxel addressing of `VXMFormat::loadGroups` -/

/-- A value between 0 and `INT_MAX` is its own conversion to `int`. -/
theorem wrapInt32_of_nonneg (v : Int) (h0 : 0 ≤ v) (h1 : v ≤ 2147483647) : wrapInt32 v = v := by
  unfold wrapInt32
  omega

/-- The sizes of the axes of a volume whose cell count fits an `int` fit an `int`, and so
does the product of two of them. -/
theorem size_bounds (X Y Z : Int) (hX : 1 ≤ X) (hY : 1 ≤ Y) (hZ : 1 ≤ Z)
    (hF : X * Y * Z ≤ 2147483647) :
    X ≤ 2147483647 ∧ Y ≤ 2147483647 ∧ Z ≤ 2147483647 ∧ Y * Z ≤ 2147483647 ∧ 1 ≤ Y * Z := by
  have hYZ1 : 1 ≤ Y * Z := by nlinarith
  have hYZ : Y * Z ≤ 2147483647 := by nlinarith
  have hXY1 : 1 ≤ X * Y := by nlinarith
  refine ⟨by nlinarith, by nlinarith, by nlinarith, hYZ, hYZ1⟩

/-- For a volume whose cell count fits an `int` the casts of lines 292-294 change nothing:
the coordinates are the quotients and remainders of the run index. -/
theorem runCoordinates_eq (size : UVec3) (i : Int)
    (hx : 0 < size.x) (hy : 0 < size.y) (hz : 0 < size.z)
    (hfit : size.x * size.y * size.z ≤ 2147483647) (hi0 : 0 ≤ i) :
    VXMFormat.runCoordinates size i =
      ⟨i / ((size.y : Int) * (size.z : Int)), (i / (size.z : Int)) % (size.y : Int),
        i % (size.z : Int)⟩ := by
  have hX : (1 : Int) ≤ size.x := by exact_mod_cast hx
  have hY : (1 : Int) ≤ size.y := by exact_mod_cast hy
  have hZ : (1 : Int) ≤ size.z := by exact_mod_cast hz
  have hF : (size.x : Int) * size.y * size.z ≤ 2147483647 := by exact_mod_cast hfit
  obtain ⟨-, hYle, hZle, hYZ, hYZ1⟩ := size_bounds _ _ _ hX hY hZ hF
  have hz0 : (0 : Int) ≤ (size.z : Int) := Int.natCast_nonneg _
  have hy0 : (0 : Int) ≤ (size.y : Int) := Int.natCast_nonneg _
  have hyz0 : (0 : Int) ≤ (size.y : Int) * size.z := mul_nonneg hy0 hz0
  have hlt : size.y * size.z < 4294967296 := by
    have h : ((size.y * size.z : Nat) : Int) < 4294967296 := by
      push_cast
      exact lt_of_le_of_lt hYZ (by norm_num)
    exact_mod_cast h
  have hwyz : wrapInt32 ((size.y * size.z % 4294967296 : Nat) : Int) =
      (size.y : Int) * size.z := by
    rw [Nat.mod_eq_of_lt hlt]
    push_cast
    exact wrapInt32_of_nonneg _ hyz0 hYZ
  have hwz : wrapInt32 (size.z : Int) = size.z := wrapInt32_of_nonneg _ hz0 hZle
  have hwy : wrapInt32 (size.y : Int) = size.y := wrapInt32_of_nonneg _ hy0 hYle
  have hdz : 0 ≤ i / (size.z : Int) := Int.ediv_nonneg hi0 hz0
  unfold VXMFormat.runCoordinates
  rw [hwyz, hwz, hwy, Int.tdiv_eq_ediv hi0 hyz0, Int.tdiv_eq_ediv hi0 hz0,
    Int.tmod_eq_emod hdz hy0, Int.tmod_eq_emod hi0 hz0]

/-- Quotient and remainders of a run index by the sizes of two axes. -/
theorem run_index_split (i Y Z : Int) (hY : 0 < Y) (hZ : 0 < Z) :
    i / (Y * Z) = i / Z / Y ∧
    0 ≤ (i / Z) % Y ∧ (i / Z) % Y < Y ∧ 0 ≤ i % Z ∧ i % Z < Z ∧
    i = i / (Y * Z) * Y * Z + (i / Z) % Y * Z + i % Z := by
  have h1 := Int.ediv_add_emod i Z
  have h2 := Int.ediv_add_emod (i / Z) Y
  have hz0 := Int.emod_nonneg i (by omega : Z ≠ 0)
  have hz1 := Int.emod_lt_of_pos i hZ
  have hy0 := Int.emod_nonneg (i / Z) (by omega : Y ≠ 0)
  have hy1 := Int.emod_lt_of_pos (i / Z) hY
  have hYZ : 0 < Y * Z := mul_pos hY hZ
  have hq : i / (Y * Z) = i / Z / Y ∧ i % (Y * Z) = (i / Z) % Y * Z + i % Z := by
    rw [Int.ediv_emod_unique hYZ]
    refine ⟨by linear_combination Z * h2 + h1, by nlinarith, by nlinarith⟩
  refine ⟨hq.1, hy0, hy1, hz0, hz1, ?_⟩
  rw [hq.1]
  linear_combination (-Z) * h2 - h1

/-- C30.  VXM voxel addressing: for every volume size (sx, sy, sz) with positive components
whose cell count sx*sy*sz fits an `int`, and every run index i with 0 <= i < sx*sy*sz, the
coordinates the code computes are xx = i / (sy*sz), yy = (i / sz) % sy, zz = i % sz; they
satisfy 0 <= xx < sx, 0 <= yy < sy, 0 <= zz < sz and i = xx*sy*sz + yy*sz + zz; the written
voxel is (sx-1-xx, yy, zz), it lies inside the region from (0, 0, 0) to the upper corner
(sx-1, sy-1, sz-1), and distinct run indices write distinct voxels. -/
theorem C30_voxel_addressing (size : UVec3) (i : Int)
    (hx : 0 < size.x) (hy : 0 < size.y) (hz : 0 < size.z)
    (hfit : size.x * size.y * size.z ≤ 2147483647)
    (hi0 : 0 ≤ i) (hi : i < (size.x : Int) * size.y * size.z) :
    (VXMFormat.runCoordinates size i).x = i / ((size.y : Int) * size.z) ∧
    (VXMFormat.runCoordinates size i).y = (i / (size.z : Int)) % (size.y : Int) ∧
    (VXMFormat.runCoordinates size i).z = i % (size.z : Int) ∧
    0 ≤ (VXMFormat.runCoordinates size i).x ∧
    (VXMFormat.runCoordinates size i).x < size.x ∧
    0 ≤ (VXMFormat.runCoordinates size i).y ∧
    (VXMFormat.runCoordinates size i).y < size.y ∧
    0 ≤ (VXMFormat.runCoordinates size i).z ∧
    (VXMFormat.runCoordinates size i).z < size.z ∧
    i = (VXMFormat.runCoordinates size i).x * size.y * size.z +
      (VXMFormat.runCoordinates size i).y * size.z + (VXMFormat.runCoordinates size i).z ∧
    VXMFormat.voxelPosition size i =
      ⟨(size.x : Int) - 1 - (VXMFormat.runCoordinates size i).x,
        (VXMFormat.runCoordinates size i).y, (VXMFormat.runCoordinates size i).z⟩ ∧
    VXMFormat.regionMaxs size = ⟨(size.x : Int) - 1, (size.y : Int) - 1, (size.z : Int) - 1⟩ ∧
    0 ≤ (VXMFormat.voxelPosition size i).x ∧
    (VXMFormat.voxelPosition size i).x ≤ (VXMFormat.regionMaxs size).x ∧
    0 ≤ (VXMFormat.voxelPosition size i).y ∧
    (VXMFormat.voxelPosition size i).y ≤ (VXMFormat.regionMaxs size).y ∧
    0 ≤ (VXMFormat.voxelPosition size i).z ∧
    (VXMFormat.voxelPosition size i).z ≤ (VXMFormat.regionMaxs size).z ∧
    (∀ j : Int, 0 ≤ j → j < (size.x : Int) * size.y * size.z →
      VXMFormat.voxelPosition size i = VXMFormat.voxelPosition size j → i = j) := by
  have hX : (1 : Int) ≤ size.x := by exact_mod_cast hx
  have hY : (1 : Int) ≤ size.y := by exact_mod_cast hy
  have hZ : (1 : Int) ≤ size.z := by exact_mod_cast hz
  have hF : (size.x : Int) * size.y * size.z ≤ 2147483647 := by exact_mod_cast hfit
  obtain ⟨hXle, hYle, hZle, hYZle, hYZ1⟩ := size_bounds _ _ _ hX hY hZ hF
  have hYZ : (0 : Int) < (size.y : Int) * size.z := lt_of_lt_of_le (by norm_num) hYZ1
  have key : ∀ k : Int, 0 ≤ k → k < (size.x : Int) * size.y * size.z →
      VXMFormat.runCoordinates size k =
        ⟨k / ((size.y : Int) * size.z), (k / (size.z : Int)) % (size.y : Int),
          k % (size.z : Int)⟩ ∧
      0 ≤ k / ((size.y : Int) * size.z) ∧ k / ((size.y : Int) * size.z) < size.x ∧
      VXMFormat.voxelPosition size k =
        ⟨(size.x : Int) - 1 - k / ((size.y : Int) * size.z),
          (k / (size.z : Int)) % (size.y : Int), k % (size.z : Int)⟩ := by
    intro k hk0 hk
    have hc := runCoordinates_eq size k hx hy hz hfit hk0
    have hq0 : 0 ≤ k / ((size.y : Int) * size.z) := Int.ediv_nonneg hk0 (le_of_lt hYZ)
    have hq1 : k / ((size.y : Int) * size.z) < size.x :=
      Int.ediv_lt_of_lt_mul hYZ (by rw [← mul_assoc]; exact hk)
    refine ⟨hc, hq0, hq1, ?_⟩
    unfold VXMFormat.voxelPosition
    rw [hc]
    show IVec3.mk (wrapInt32 (((size.x : Int) - 1 - k / ((size.y : Int) * size.z)) %
      4294967296)) _ _ = _
    have hd0 : 0 ≤ (size.x : Int) - 1 - k / ((size.y : Int) * size.z) := by linarith
    have hd1 : (size.x : Int) - 1 - k / ((size.y : Int) * size.z) < 4294967296 := by linarith
    have hd2 : (size.x : Int) - 1 - k / ((size.y : Int) * size.z) ≤ 2147483647 := by linarith
    rw [Int.emod_eq_of_lt hd0 hd1, wrapInt32_of_nonneg _ hd0 hd2]
  obtain ⟨hc, hq0, hq1, hp⟩ := key i hi0 hi
  obtain ⟨-, hy0, hy1, hz0, hz1, hsum⟩ := run_index_split i size.y size.z (by linarith)
    (by linarith)
  have hmaxs : VXMFormat.regionMaxs size =
      ⟨(size.x : Int) - 1, (size.y : Int) - 1, (size.z : Int) - 1⟩ := by
    unfold VXMFormat.regionMaxs
    rw [wrapInt32_of_nonneg (size.x : Int) (by linarith) hXle,
      wrapInt32_of_nonneg (size.y : Int) (by linarith) hYle,
      wrapInt32_of_nonneg (size.z : Int) (by linarith) hZle,
      wrapInt32_of_nonneg ((size.x : Int) - 1) (by linarith) (by linarith),
      wrapInt32_of_nonneg ((size.y : Int) - 1) (by linarith) (by linarith),
      wrapInt32_of_nonneg ((size.z : Int) - 1) (by linarith) (by linarith)]
  rw [hp, hmaxs, hc]
  refine ⟨rfl, rfl, rfl, hq0, hq1, hy0, hy1, hz0, hz1, hsum, rfl, rfl, ?_, ?_, hy0, ?_, hz0,
    ?_, ?_⟩
  · show 0 ≤ (size.x : Int) - 1 - i / ((size.y : Int) * size.z)
    linarith
  · show (size.x : Int) - 1 - i / ((size.y : Int) * size.z) ≤ (size.x : Int) - 1
    linarith
  · show (i / (size.z : Int)) % (size.y : Int) ≤ (size.y : Int) - 1
    linarith
  · show i % (size.z : Int) ≤ (size.z : Int) - 1
    linarith
  · intro j hj0 hj heq
    obtain ⟨-, -, -, hpj⟩ := key j hj0 hj
    rw [hpj] at heq
    obtain ⟨-, -, -, -, -, hsumj⟩ := run_index_split j size.y size.z (by linarith)
      (by linarith)
    have e1 := congrArg IVec3.x heq
    have e2 := congrArg IVec3.y heq
    have e3 := congrArg IVec3.z heq
    simp only at e1 e2 e3
    have e1a : i / ((size.y : Int) * size.z) = j / ((size.y : Int) * size.z) := by linarith
    rw [hsum, hsumj, e1a, e2, e3]

/-- C30 at a concrete input: in a volume of size 2 x 3 x 4 the run index 23 has the
coordinates (1, 2, 3) and writes the voxel (0, 2, 3). -/
theorem C30_voxel_addressing_witness :
    VXMFormat.runCoordinates ⟨2, 3, 4⟩ 23 = ⟨1, 2, 3⟩ ∧
    VXMFormat.voxelPosition ⟨2, 3, 4⟩ 23 = ⟨0, 2, 3⟩ ∧
    (23 : Int) = (VXMFormat.runCoordinates ⟨2, 3, 4⟩ 23).x * (3 : Nat) * (4 : Nat) +
      (VXMFormat.runCoordinates ⟨2, 3, 4⟩ 23).y * (4 : Nat) +
      (VXMFormat.runCoordinates ⟨2, 3, 4⟩ 23).z :=
  ⟨by decide, by decide,
    (C30_voxel_addressing ⟨2, 3, 4⟩ 23 (by decide) (by decide) (by decide) (by decide)
      (by decide) (by decide)).2.2.2.2.2.2.2.2.2.1⟩

end voxelrender
